import Mathlib

/-!
# A verification development for the site mirrorer (`mirror.go`)

The Go program is embedded shallowly: its pure helpers become Lean functions,
the mutable run state (visited set, wait-group counter, spawned workers) is
passed explicitly, and the library functions it calls (`path`, `path/filepath`,
`strings`, `regexp`, `net/url`) are modelled next to it.

Go strings are modelled as lists of characters.  Every byte the program
inspects (`/`, `.`, `#`, quotes, parentheses, ASCII white space) is ASCII, and
an ASCII byte never occurs inside a multi-byte UTF-8 sequence, so on valid
UTF-8 the character-level and the byte-level readings agree.  The path
functions are those of a Unix host (`filepath.Separator = '/'`, no volume
names).
-/

namespace Mirror

/-- Go `string`, as a list of characters. -/
abbrev Str := List Char

/-! ## `strings` -/

/-- Model of `strings.HasPrefix`. -/
def hasPrefix (s pre : Str) : Bool := pre.isPrefixOf s

/-- Model of `strings.HasSuffix`. -/
def hasSuffix (s suf : Str) : Bool := suf.reverse.isPrefixOf s.reverse

/-- Model of `strings.TrimPrefix`: drops `pre` once when `s` starts with it. -/
def trimPrefix (s pre : Str) : Str :=
  if hasPrefix s pre then s.drop pre.length else s

/-- Model of `strings.Contains`. -/
def containsStr : Str → Str → Bool
  | [], sub => sub.isPrefixOf []
  | c :: cs, sub => sub.isPrefixOf (c :: cs) || containsStr cs sub

/-- Model of `strings.Split(s, sep)` for a one-character separator: the pieces
between the separators, empty pieces included; never the empty list. -/
def splitOn (sep : Char) : Str → List Str
  | [] => [[]]
  | c :: cs =>
    if c = sep then [] :: splitOn sep cs
    else
      match splitOn sep cs with
      | [] => [[c]]
      | x :: xs => (c :: x) :: xs

/-- Model of `strings.Join(elems, sep)` for a one-character separator. -/
def joinWith (sep : Char) : List Str → Str
  | [] => []
  | [x] => x
  | x :: y :: rest => x ++ sep :: joinWith sep (y :: rest)

/-- Model of `strings.ReplaceAll(s, old, new)` for one-character `old`, `new`. -/
def replaceChar (old new : Char) (s : Str) : Str :=
  s.map (fun c => if c = old then new else c)

/-! ## `path` and `path/filepath` (Unix) -/

/-- Whether a path starts with the separator. -/
def isRooted (p : Str) : Bool := p.head? == some '/'

/-- One turn of the element loop of `path.Clean`.  `out` is the stack of the
elements written so far, last written first.  Empty and `.` elements are
skipped; `..` removes the last real element when there is one, is dropped at
the root of a rooted path, and is kept as part of the leading `../..` run of a
relative path; any other element is written. -/
def cleanStep (rooted : Bool) (out : List Str) (e : Str) : List Str :=
  if e = [] ∨ e = ['.'] then out
  else if e = ['.', '.'] then
    match out with
    | [] => if rooted then [] else [e]
    | top :: rest =>
      if top = ['.', '.'] then (if rooted then out else e :: out) else rest
  else e :: out

/-- The elements `path.Clean` keeps, in order. -/
def cleanElems (rooted : Bool) (els : List Str) : List Str :=
  (els.foldl (cleanStep rooted) []).reverse

/-- Writes a cleaned path: the elements joined by `/`, after a leading `/` when
rooted; `.` for the empty relative path. -/
def render (rooted : Bool) (els : List Str) : Str :=
  if rooted then '/' :: joinWith '/' els
  else if els = [] then ['.'] else joinWith '/' els

/-- Model of `path.Clean`, which on Unix is also `filepath.Clean`. -/
def Clean (p : Str) : Str :=
  if p = [] then ['.']
  else render (isRooted p) (cleanElems (isRooted p) (splitOn '/' p))

/-- Model of `path.Join` and `filepath.Join`: the elements from the first
non-empty one on, joined by `/` and cleaned; the empty string when all are
empty. -/
def Join : List Str → Str
  | [] => []
  | e :: rest => if e = [] then Join rest else Clean (joinWith '/' (e :: rest))

/-- Scans the reversed path for `filepath.Ext`: stops at the first separator,
returns the suffix from the first dot met. -/
def extScan : Str → Str → Str
  | [], _ => []
  | c :: rest, acc =>
    if c = '/' then []
    else if c = '.' then '.' :: acc
    else extScan rest (c :: acc)

/-- Model of `filepath.Ext`: the suffix starting at the last dot of the last
element of the path, empty when that element has no dot. -/
def Ext (p : Str) : Str := extScan p.reverse []

/-- Model of `filepath.Dir`: everything up to and including the last
separator, cleaned. -/
def Dir (p : Str) : Str :=
  Clean (p.reverse.dropWhile (fun c => c != '/')).reverse

/-- The elements the comparison loop of `filepath.Rel` walks over: the pieces
between separators, where a path that ends in a separator (or is empty) has no
element after it. -/
def relElems (p : Str) : List Str :=
  let els := splitOn '/' p
  if els.getLast? = some [] then els.dropLast else els

/-- The comparison loop of `filepath.Rel`: skips the elements the two paths
share.  Returns what is left of each, and whether the loop stopped on two
differing elements (rather than at the end of a path). -/
def relLoop : List Str → List Str → List Str × List Str × Bool
  | b :: bs, t :: ts =>
    if b = t then relLoop bs ts else (b :: bs, t :: ts, true)
  | [], ts => ([], ts, false)
  | bs, [] => (bs, [], false)

/-- Model of `filepath.Rel` (`none` stands for the error result). -/
def Rel (basepath targpath : Str) : Option Str :=
  let base := Clean basepath
  let targ := Clean targpath
  if targ = base then some ['.']
  else
    let base := if base = ['.'] then [] else base
    if isRooted base != isRooted targ then none
    else
      match relLoop (relElems base) (relElems targ) with
      | (bs, ts, broke) =>
        if broke && bs.head? == some ['.', '.'] then none
        else some (joinWith '/' (List.replicate bs.length ['.', '.'] ++ ts))

/-! ## `net/url` -/

/-- The fields of Go's `url.URL` the program depends on.  `opaq` is the field
`Opaque`.  Escaped forms are not kept: `path` and `fragment` are the decoded
fields `Path` and `Fragment`. -/
structure URL where
  scheme : Str := []
  opaq : Str := []
  host : Str := []
  path : Str := []
  forceQuery : Bool := false
  rawQuery : Str := []
  fragment : Str := []
  omitHost : Bool := false
deriving DecidableEq, Repr

/-- Model of `(*URL).IsAbs`. -/
def URL.IsAbs (u : URL) : Bool := u.scheme != []

/-- The operations of `net/url` and `golang.org/x/net/html` the program calls.
The statements that hold whatever these libraries do are proved for an
arbitrary `Lib`; `goLib` below is a concrete model used for evaluation. -/
structure Lib (Tree : Type) where
  /-- Stands for `url.Parse`; `none` is the error result. -/
  parse : Str → Option URL
  /-- Stands for `(*URL).ResolveReference`: base first, reference second. -/
  resolveReference : URL → URL → URL
  /-- Stands for `(*URL).String`. -/
  string : URL → Str
  /-- Stands for `html.Parse`; `none` is the error result. -/
  htmlParse : Str → Option Tree
  /-- Stands for `html.Render` into a buffer. -/
  htmlRender : Tree → Str

/-- Model of `strings.Cut` for a one-character separator. -/
def cut (sep : Char) : Str → Str × Str × Bool
  | [] => ([], [], false)
  | c :: cs =>
    if c = sep then ([], cs, true)
    else
      match cut sep cs with
      | (a, b, f) => (c :: a, b, f)

/-- The loop of `getScheme` in `net/url`: `acc` is the prefix read so far,
`first` says whether the next character is the first one. -/
def getSchemeAux (raw : Str) : Bool → Str → Str → Option (Str × Str)
  | _, _, [] => some ([], raw)
  | first, acc, c :: cs =>
    if c.isAlpha then getSchemeAux raw false (acc ++ [c]) cs
    else if c.isDigit || c == '+' || c == '-' || c == '.' then
      if first then some ([], raw) else getSchemeAux raw false (acc ++ [c]) cs
    else if c == ':' then
      if first then none else some (acc, cs)
    else some ([], raw)

/-- Model of `getScheme`: splits a leading `scheme:` off; `none` is the error
"missing protocol scheme". -/
def getScheme (raw : Str) : Option (Str × Str) := getSchemeAux raw true [] raw

/-- Model of `stringContainsCTLByte`. -/
def containsCTL (s : Str) : Bool := s.any (fun c => c.toNat < 32 || c.toNat == 127)

/-- Model of the unexported `parse` of `net/url` (with `viaRequest = false`)
for strings without percent escapes, user information or bracketed hosts. -/
def parseNoFragment (raw : Str) : Option URL :=
  if containsCTL raw then none
  else if raw = ['*'] then some { path := ['*'] }
  else
    match getScheme raw with
    | none => none
    | some (scheme, rest) =>
      let scheme := scheme.map Char.toLower
      let force := hasSuffix rest ['?'] && rest.count '?' == 1
      let rest1 := if force then rest.dropLast else (cut '?' rest).1
      let query := if force then [] else (cut '?' rest).2.1
      if !hasPrefix rest1 ['/'] && scheme != [] then
        some { scheme := scheme, opaq := rest1, rawQuery := query, forceQuery := force }
      else if !hasPrefix rest1 ['/'] && (cut '/' rest1).1.contains ':' then none
      else if (scheme != [] || !hasPrefix rest1 ['/', '/', '/']) && hasPrefix rest1 ['/', '/'] then
        let c := cut '/' (rest1.drop 2)
        some { scheme := scheme, host := c.1, path := if c.2.2 then '/' :: c.2.1 else [],
               rawQuery := query, forceQuery := force }
      else
        some { scheme := scheme, path := rest1, rawQuery := query, forceQuery := force,
               omitHost := scheme != [] && hasPrefix rest1 ['/'] }

/-- Model of `url.Parse`: the fragment is cut off first. -/
def urlParse (raw : Str) : Option URL :=
  (parseNoFragment (cut '#' raw).1).map (fun u => { u with fragment := (cut '#' raw).2.1 })

/-- Model of `(*URL).String` for fields that need no escaping. -/
def urlString (u : URL) : Str :=
  let pre := if u.scheme != [] then u.scheme ++ [':'] else []
  let mid :=
    if u.opaq != [] then u.opaq
    else
      let auth :=
        if u.scheme != [] || u.host != [] then
          if u.omitHost && u.host == [] then []
          else (if u.host != [] || u.path != [] then ['/', '/'] else []) ++ u.host
        else []
      let slash := if u.path != [] && u.path.head? != some '/' && u.host != [] then ['/'] else []
      let dot :=
        if pre ++ auth ++ slash == [] && (cut '/' u.path).1.contains ':' then ['.', '/'] else []
      auth ++ slash ++ dot ++ u.path
  let q := if u.forceQuery || u.rawQuery != [] then '?' :: u.rawQuery else []
  let f := if u.fragment != [] then '#' :: u.fragment else []
  pre ++ mid ++ q ++ f

/-- The text before the last `/` of `s`, or `none` when `s` has no `/`. -/
def beforeLastSlash (s : Str) : Option Str :=
  if s.contains '/' then some ((s.reverse.dropWhile (fun c => c != '/')).reverse.dropLast)
  else none

/-- One turn of the element loop of `resolvePath`: `st.1` is the text written
so far (it starts with `/`), `st.2` the flag `first`. -/
def resolveStep (st : Str × Bool) (e : Str) : Str × Bool :=
  if e = ['.'] then (st.1, false)
  else if e = ['.', '.'] then
    match beforeLastSlash (st.1.drop 1) with
    | none => (['/'], true)
    | some keep => ('/' :: keep, st.2)
  else ((if st.2 then st.1 else st.1 ++ ['/']) ++ e, false)

/-- Model of `resolvePath` of `net/url`: merges the reference path with the
base path and removes the dot segments. -/
def resolvePath (base ref : Str) : Str :=
  let full :=
    if ref = [] then base
    else if ref.head? != some '/' then
      (base.reverse.dropWhile (fun c => c != '/')).reverse ++ ref
    else ref
  if full = [] then []
  else
    let els := splitOn '/' full
    let dst := (els.foldl resolveStep (['/'], true)).1
    let dst := if els.getLast? = some ['.'] ∨ els.getLast? = some ['.', '.'] then dst ++ ['/'] else dst
    if (dst.drop 1).head? = some '/' then dst.drop 1 else dst

/-- Model of `(*URL).ResolveReference` for URLs without user information. -/
def urlResolveReference (u ref : URL) : URL :=
  let url := if ref.scheme = [] then { ref with scheme := u.scheme } else ref
  if ref.scheme != [] || ref.host != [] then
    { url with path := resolvePath ref.path [] }
  else if ref.opaq != [] then
    { url with host := [], path := [] }
  else
    let url :=
      if ref.path = [] && !ref.forceQuery && ref.rawQuery = [] then
        { url with rawQuery := u.rawQuery,
                   fragment := if ref.fragment = [] then u.fragment else url.fragment }
      else url
    if ref.path = [] && u.opaq != [] then
      { url with opaq := u.opaq, host := [], path := [] }
    else
      { url with host := u.host, path := resolvePath u.path ref.path }

/-! ## `regexp`: the two patterns of `rewriteCSSURLs` -/

/-- The single quote character. -/
def squote : Char := Char.ofNat 39

/-- The double quote character. -/
def dquote : Char := Char.ofNat 34

/-- The backslash character. -/
def backslash : Char := Char.ofNat 92

/-- The class `['"]` of both patterns. -/
def isQuote (c : Char) : Bool := c == squote || c == dquote

/-- The class `\s` of Go's `regexp`: tab, line feed, form feed, carriage return,
space. -/
def isSpaceRE (c : Char) : Bool :=
  c == Char.ofNat 9 || c == Char.ofNat 10 || c == Char.ofNat 12 || c == Char.ofNat 13 || c == ' '

/-- The class `[^'")\s]` of the `url(...)` pattern. -/
def isURLChar (c : Char) : Bool := !(isQuote c || c == ')' || isSpaceRE c)

/-- Whether the string starts with a character of the given class. -/
def startsWith (p : Char → Bool) : Str → Bool
  | [] => false
  | c :: _ => p c

/-- A match of the pattern `url\(['"]?([^'")\s]+)['"]?\)` at the start of `s`:
the length of the match and the text of its group.  Every choice of the
pattern is forced: an optional quote is taken whenever a quote is there (the
class that follows excludes quotes), and the run of class characters is the
longest one (the character after a shorter run is in the class, so neither a
quote nor the closing parenthesis). -/
def matchURL (s : Str) : Option (Nat × Str) :=
  if hasPrefix s ['u', 'r', 'l', '('] then
    let t := s.drop 4
    let q1 := if startsWith isQuote t then 1 else 0
    let t1 := t.drop q1
    let run := t1.takeWhile isURLChar
    let t2 := t1.dropWhile isURLChar
    let q2 := if startsWith isQuote t2 then 1 else 0
    let t3 := t2.drop q2
    if run != [] && startsWith (fun c => c == ')') t3 then
      some (4 + q1 + run.length + q2 + 1, run)
    else none
  else none

/-- A match of the pattern `@import\s+['"]([^'"]+)['"]` at the start of `s`:
the length of the match and the text of its group. -/
def matchImport (s : Str) : Option (Nat × Str) :=
  if hasPrefix s ['@', 'i', 'm', 'p', 'o', 'r', 't'] then
    let t := s.drop 7
    let ws := t.takeWhile isSpaceRE
    let t1 := t.dropWhile isSpaceRE
    let t2 := t1.drop 1
    let run := t2.takeWhile (fun c => !isQuote c)
    let t3 := t2.dropWhile (fun c => !isQuote c)
    if ws != [] && startsWith isQuote t1 && run != [] && startsWith isQuote t3 then
      some (7 + ws.length + 1 + run.length + 1, run)
    else none
  else none

/-- Model of `FindStringSubmatch` for a pattern with one group, reduced to what
the callers use: the text of the group of the leftmost match, `none` when the
pattern matches nowhere. -/
def findStringSubmatch (matchAt : Str → Option (Nat × Str)) : Str → Option Str
  | [] => (matchAt []).map Prod.snd
  | c :: cs =>
    match matchAt (c :: cs) with
    | some r => some r.2
    | none => findStringSubmatch matchAt cs

/-- Model of `ReplaceAllStringFunc` with a callback that also updates a state:
the text is scanned from the left, each match is handed to the callback in
order and replaced by its result, and the scan goes on behind the match.  The
first argument counts the characters of the current match still to be
skipped. -/
def replaceAllStringFunc {σ : Type} (matchAt : Str → Option (Nat × Str))
    (repl : σ → Str → Str × σ) : Nat → Str → σ → Str × σ
  | _, [], st => ([], st)
  | k + 1, _ :: cs, st => replaceAllStringFunc matchAt repl k cs st
  | 0, c :: cs, st =>
    match matchAt (c :: cs) with
    | some r =>
      let out := repl st ((c :: cs).take r.1)
      let rest := replaceAllStringFunc matchAt repl (r.1 - 1) cs out.2
      (out.1 ++ rest.1, rest.2)
    | none =>
      let rest := replaceAllStringFunc matchAt repl 0 cs st
      (c :: rest.1, rest.2)

/-! ## `golang.org/x/net/html`: the node tree -/

/-- Go's `html.NodeType`. -/
inductive NodeType where
  | ErrorNode | TextNode | DocumentNode | ElementNode | CommentNode | DoctypeNode | RawNode
deriving DecidableEq, Repr

/-- Go's `html.Attribute` (the namespace is not used by the program). -/
structure Attribute where
  key : Str
  val : Str
deriving DecidableEq, Repr

/-- The fields `Data` and `Attr` of an `html.Node`, which are all that the
attribute helpers read and write. -/
structure Elem where
  data : Str
  attr : List Attribute
deriving DecidableEq, Repr

/-- An `html.Node` with the two pointers the tree walk follows, `FirstChild`
and `NextSibling`; `nil` is the nil pointer. -/
inductive Node where
  | nil : Node
  | node (type : NodeType) (el : Elem) (firstChild nextSibling : Node) : Node
deriving DecidableEq, Repr

/-! ## The mirrorer -/

/-- The immutable part of Go's `Mirrorer`: base URL, output directory and the
capacity of the semaphore channel. -/
structure Mirrorer where
  baseURL : URL
  outputDir : Str
  semaphoreCap : Nat
deriving DecidableEq, Repr

/-- A worker goroutine started by `downloadURL`: the values its closure
captures. -/
structure Task where
  urlStr : Str
  parsedURL : URL
  isHTML : Bool
deriving DecidableEq, Repr

/-- The mutable part of a run: the keys of the `visited` map, the counter of
the `pending` wait group, the workers started and still waiting for a slot of
the semaphore, and the workers holding a slot. -/
structure RunState where
  visited : List Str := []
  pending : Nat := 0
  queued : List Task := []
  inFlight : List Task := []
deriving DecidableEq, Repr

/-- Embedding of `NewMirrorer`; `none` is the error result. -/
def NewMirrorer {T : Type} (lib : Lib T) (baseURL outputDir : Str) : Option Mirrorer :=
  match lib.parse baseURL with
  | none => none
  | some u =>
    some { baseURL := if u.scheme = [] then { u with scheme := "https".toList } else u,
           outputDir := outputDir,
           semaphoreCap := 5 }

/-- Embedding of `downloadURL`.  The goroutine it starts is recorded in
`queued`; what the goroutine does afterwards is the step relation below. -/
def downloadURL {T : Type} (lib : Lib T) (m : Mirrorer) (s : RunState) (urlStr : Str)
    (isHTML : Bool) : RunState :=
  match lib.parse urlStr with
  | none => s
  | some parsed =>
    let parsedURL := if !parsed.IsAbs then lib.resolveReference m.baseURL parsed else parsed
    if parsedURL.host ≠ m.baseURL.host then s
    else
      let urlStr := lib.string parsedURL
      if urlStr ∈ s.visited then s
      else
        { s with
          visited := s.visited ++ [urlStr],
          pending := s.pending + 1,
          queued := s.queued ++ [{ urlStr := urlStr, parsedURL := parsedURL, isHTML := isHTML }] }

/-- Embedding of `urlToFilePath`. -/
def urlToFilePath (m : Mirrorer) (u : URL) : Str :=
  let p := u.path
  let p := if p = [] ∨ p = ['/'] then "/index.html".toList else p
  let p := if hasSuffix p ['/'] then Join [p, "index.html".toList] else p
  let p := if Ext p = [] then p ++ ".html".toList else p
  let p := trimPrefix p ['/']
  Join [m.outputDir, p]

/-- Embedding of `makeRelativePath`. -/
def makeRelativePath (m : Mirrorer) (src dst : URL) : Str :=
  match Rel (Dir (urlToFilePath m src)) (urlToFilePath m dst) with
  | none => dst.path
  | some rel => replaceChar backslash '/' rel

/-- Embedding of `getAttr`. -/
def getAttr (n : Elem) (key : Str) : Str :=
  match n.attr.find? (fun a => a.key == key) with
  | some a => a.val
  | none => []

/-- The loop of `setAttr` over the attribute list: the first attribute with
the key gets the value; `none` when no attribute has the key. -/
def setFirst (key val : Str) : List Attribute → Option (List Attribute)
  | [] => none
  | a :: rest =>
    if a.key == key then some ({ a with val := val } :: rest)
    else (setFirst key val rest).map (fun r => a :: r)

/-- Embedding of `setAttr`. -/
def setAttr (n : Elem) (key val : Str) : Elem :=
  match setFirst key val n.attr with
  | some attrs => { n with attr := attrs }
  | none => { n with attr := n.attr ++ [{ key := key, val := val }] }

/-- The test "Skip special URLs" of `processAttribute`. -/
def isSpecialURL (val : Str) : Bool :=
  hasPrefix val "#".toList || hasPrefix val "data:".toList ||
  hasPrefix val "javascript:".toList || hasPrefix val "mailto:".toList ||
  hasPrefix val "tel:".toList

/-- Embedding of `processAttribute`: the node after the call and the run state
after the call. -/
def processAttribute {T : Type} (lib : Lib T) (m : Mirrorer) (s : RunState) (n : Elem)
    (attr : Str) (pageURL : URL) : Elem × RunState :=
  let val := getAttr n attr
  if val = [] then (n, s)
  else if isSpecialURL val then (n, s)
  else
    match lib.parse val with
    | none => (n, s)
    | some parsedURL =>
      let absURL := lib.resolveReference pageURL parsedURL
      if absURL.host = m.baseURL.host then
        let isHTML := attr == "href".toList && (n.data == "a".toList || getAttr n "rel".toList == [])
        let isHTML :=
          if n.data = "link".toList then
            !containsStr (getAttr n "rel".toList) "stylesheet".toList &&
              !containsStr (getAttr n "rel".toList) "icon".toList
          else isHTML
        let s1 := downloadURL lib m s (lib.string absURL) isHTML
        (setAttr n attr (makeRelativePath m pageURL absURL), s1)
      else (n, s)

/-- Go's `unicode.IsSpace`. -/
def isSpace (c : Char) : Bool :=
  let n := c.toNat
  (9 ≤ n && n ≤ 13) || n == 32 || n == 0x85 || n == 0xA0 || n == 0x1680 ||
  (0x2000 ≤ n && n ≤ 0x200A) || n == 0x2028 || n == 0x2029 || n == 0x202F ||
  n == 0x205F || n == 0x3000

/-- Model of `strings.TrimSpace`. -/
def trimSpace (s : Str) : Str :=
  ((s.dropWhile isSpace).reverse.dropWhile isSpace).reverse

/-- Model of `strings.Fields`: the maximal runs of non-space characters. -/
def fields (s : Str) : List Str :=
  (s.splitBy (fun a b => !isSpace a && !isSpace b)).filter (fun w => !w.all isSpace)

/-- The body of the loop of `processSrcset` for one candidate: the candidate
to append (`none` for `continue` without appending) and the run state. -/
def processCandidate {T : Type} (lib : Lib T) (m : Mirrorer) (pageURL : URL)
    (s : RunState) (part : Str) : Option Str × RunState :=
  let part := trimSpace part
  match fields part with
  | [] => (none, s)
  | imgURL :: more =>
    match lib.parse imgURL with
    | none => (some part, s)
    | some parsedURL =>
      let absURL := lib.resolveReference pageURL parsedURL
      if absURL.host = m.baseURL.host then
        let s1 := downloadURL lib m s (lib.string absURL) false
        (some (joinWith ' ' (makeRelativePath m pageURL absURL :: more)), s1)
      else (some (joinWith ' ' (imgURL :: more)), s)

/-- The loop of `processSrcset` over the candidates. -/
def processCandidates {T : Type} (lib : Lib T) (m : Mirrorer) (pageURL : URL) :
    List Str → RunState → List Str × RunState
  | [], s => ([], s)
  | part :: rest, s =>
    let r := processCandidate lib m pageURL s part
    let rs := processCandidates lib m pageURL rest r.2
    (match r.1 with
     | some c => c :: rs.1
     | none => rs.1, rs.2)

/-- Model of `strings.Join(newParts, ", ")`. -/
def joinCommaSpace : List Str → Str
  | [] => []
  | [x] => x
  | x :: y :: rest => x ++ ',' :: ' ' :: joinCommaSpace (y :: rest)

/-- Embedding of `processSrcset`. -/
def processSrcset {T : Type} (lib : Lib T) (m : Mirrorer) (s : RunState) (n : Elem)
    (srcset : Str) (pageURL : URL) : Elem × RunState :=
  let r := processCandidates lib m pageURL (splitOn ',' srcset) s
  (setAttr n "srcset".toList (joinCommaSpace r.1), r.2)

/-- The callback `rewriteCSSURLs` hands to `ReplaceAllStringFunc` for the
`url(...)` pattern. -/
def rewriteURLMatch {T : Type} (lib : Lib T) (m : Mirrorer) (pageURL : URL)
    (s : RunState) (mtch : Str) : Str × RunState :=
  match findStringSubmatch matchURL mtch with
  | none => (mtch, s)
  | some urlStr =>
    if hasPrefix urlStr "data:".toList then (mtch, s)
    else
      match lib.parse urlStr with
      | none => (mtch, s)
      | some parsedURL =>
        let absURL := lib.resolveReference pageURL parsedURL
        if absURL.host = m.baseURL.host then
          let s1 := downloadURL lib m s (lib.string absURL) false
          ("url(".toList ++ squote :: makeRelativePath m pageURL absURL ++ [squote, ')'], s1)
        else (mtch, s)

/-- The callback `rewriteCSSURLs` hands to `ReplaceAllStringFunc` for the
`@import` pattern. -/
def rewriteImportMatch {T : Type} (lib : Lib T) (m : Mirrorer) (pageURL : URL)
    (s : RunState) (mtch : Str) : Str × RunState :=
  match findStringSubmatch matchImport mtch with
  | none => (mtch, s)
  | some urlStr =>
    match lib.parse urlStr with
    | none => (mtch, s)
    | some parsedURL =>
      let absURL := lib.resolveReference pageURL parsedURL
      if absURL.host = m.baseURL.host then
        let s1 := downloadURL lib m s (lib.string absURL) false
        ("@import ".toList ++ squote :: makeRelativePath m pageURL absURL ++ [squote], s1)
      else (mtch, s)

/-- Embedding of `rewriteCSSURLs`: the rewritten text and the run state after
the enqueue calls of both passes. -/
def rewriteCSSURLs {T : Type} (lib : Lib T) (m : Mirrorer) (s : RunState) (css : Str)
    (pageURL : URL) : Str × RunState :=
  let r1 := replaceAllStringFunc matchURL (rewriteURLMatch lib m pageURL) 0 css s
  replaceAllStringFunc matchImport (rewriteImportMatch lib m pageURL) 0 r1.1 r1.2

/-- Embedding of `processCSS`. -/
def processCSS {T : Type} (lib : Lib T) (m : Mirrorer) (s : RunState) (content : Str)
    (pageURL : URL) : Str × RunState :=
  rewriteCSSURLs lib m s content pageURL

/-- The attribute part of the closure `processNode` for an element node: the
`switch` on the element name, then `srcset`, then the inline `style`. -/
def processElem {T : Type} (lib : Lib T) (m : Mirrorer) (pageURL : URL) (s : RunState)
    (n : Elem) : Elem × RunState :=
  let r1 :=
    if n.data = "a".toList ∨ n.data = "link".toList then
      processAttribute lib m s n "href".toList pageURL
    else if n.data = "img".toList ∨ n.data = "script".toList ∨ n.data = "source".toList then
      processAttribute lib m s n "src".toList pageURL
    else if n.data = "video".toList ∨ n.data = "audio".toList then
      processAttribute lib m s n "src".toList pageURL
    else if n.data = "form".toList then
      processAttribute lib m s n "action".toList pageURL
    else (n, s)
  let r2 :=
    if getAttr r1.1 "srcset".toList ≠ [] then
      processSrcset lib m r1.2 r1.1 (getAttr r1.1 "srcset".toList) pageURL
    else r1
  if getAttr r2.1 "style".toList ≠ [] then
    let css := rewriteCSSURLs lib m r2.2 (getAttr r2.1 "style".toList) pageURL
    (setAttr r2.1 "style".toList css.1, css.2)
  else r2

/-- The closure `processNode` of `processHTML`, applied to a node and then to
the siblings that follow it (the loop `for c := n.FirstChild; c != nil;
c = c.NextSibling` of the parent).  `styleChild` says that the node is the
first child of a `style` element, whose text the parent rewrites before it
walks its children. -/
def processNode {T : Type} (lib : Lib T) (m : Mirrorer) (pageURL : URL) :
    Bool → Node → RunState → Node × RunState
  | _, .nil, s => (.nil, s)
  | styleChild, .node ty el fc ns, s =>
    let r0 : Elem × RunState :=
      if styleChild ∧ ty = NodeType.TextNode then
        let css := rewriteCSSURLs lib m s el.data pageURL
        ({ el with data := css.1 }, css.2)
      else (el, s)
    let r1 :=
      if ty = NodeType.ElementNode then processElem lib m pageURL r0.2 r0.1 else r0
    let rc := processNode lib m pageURL
      (decide (ty = NodeType.ElementNode ∧ r1.1.data = "style".toList)) fc r1.2
    let rn := processNode lib m pageURL false ns rc.2
    (.node ty r1.1 rc.1 rn.1, rn.2)

/-- Embedding of `processHTML`. -/
def processHTML (lib : Lib Node) (m : Mirrorer) (s : RunState) (content : Str)
    (pageURL : URL) : Str × RunState :=
  match lib.htmlParse content with
  | none => (content, s)
  | some doc =>
    let r := processNode lib m pageURL false doc s
    (lib.htmlRender r.1, r.2)

/-- What the transport hands to `download` after a request that did not fail:
status code, the value of the `Content-Type` header (empty when absent) and
the body (`none` when reading it fails). -/
structure Response where
  statusCode : Nat
  contentType : Str
  body : Option Str
deriving DecidableEq, Repr

/-- The ways `download` returns an error. -/
inductive DownloadError where
  | transport | status (code : Nat) | read | mkdir | write
deriving DecidableEq, Repr

/-- The branch of `download` that produces `processedContent`: `empty` is the
branch that leaves the variable nil. -/
inductive Processing where
  | html | css | empty | raw
deriving DecidableEq, Repr

/-- The choice `download` makes between `processHTML`, `processCSS` and the
unmodified content. -/
def chooseProcessing (contentType : Str) (isHTML : Bool) : Processing :=
  let needsProcessing :=
    containsStr contentType "text/html".toList || containsStr contentType "text/css".toList ||
      isHTML
  if needsProcessing then
    if containsStr contentType "text/html".toList || isHTML then Processing.html
    else if containsStr contentType "text/css".toList then Processing.css
    else Processing.empty
  else Processing.raw

/-- The outcome of `download`: the error returned, the file written (path and
content) and the run state after the enqueue calls of the rewriter. -/
structure DownloadResult where
  err : Option DownloadError
  written : Option (Str × Str)
  state : RunState
deriving DecidableEq, Repr

/-- Embedding of `download`.  `resp` is the result of `client.Get` (`none` for
a transport failure); `mkdirOk` and `writeOk` say whether `os.MkdirAll` and
`os.WriteFile` succeed. -/
def download (lib : Lib Node) (m : Mirrorer) (s : RunState) (u : URL) (isHTML : Bool)
    (resp : Option Response) (mkdirOk writeOk : Bool) : DownloadResult :=
  match resp with
  | none => { err := some DownloadError.transport, written := none, state := s }
  | some r =>
    if r.statusCode ≠ 200 then
      { err := some (DownloadError.status r.statusCode), written := none, state := s }
    else
      match r.body with
      | none => { err := some DownloadError.read, written := none, state := s }
      | some content =>
        let processed : Str × RunState :=
          match chooseProcessing r.contentType isHTML with
          | Processing.html => processHTML lib m s content u
          | Processing.css => processCSS lib m s content u
          | Processing.empty => ([], s)
          | Processing.raw => (content, s)
        if !mkdirOk then
          { err := some DownloadError.mkdir, written := none, state := processed.2 }
        else if !writeOk then
          { err := some DownloadError.write, written := none, state := processed.2 }
        else
          { err := none, written := some (urlToFilePath m u, processed.1), state := processed.2 }

/-- Embedding of `Start` up to the call of `pending.Wait`: the state the seed
call of `downloadURL` leaves; `none` when the output directory cannot be
created. -/
def Start {T : Type} (lib : Lib T) (m : Mirrorer) (startURL : Str) (mkdirOk : Bool) :
    Option RunState :=
  if mkdirOk then some (downloadURL lib m {} startURL true) else none

/-- The steps of a run after `Start` has made the seed call.  `enqueue` is a
call of `downloadURL` by the rewriter of a worker that holds a slot; `acquire`
is a waiting worker's send on the semaphore channel, possible while fewer than
`semaphoreCap` workers hold a slot; `finish` is a worker's return from
`download` (with or without an error) followed by its two deferred calls, the
release of the slot and `pending.Done`. -/
inductive Step {T : Type} (lib : Lib T) (m : Mirrorer) : RunState → RunState → Prop where
  | enqueue (s : RunState) (w : Task) (urlStr : Str) (isHTML : Bool) :
      w ∈ s.inFlight → Step lib m s (downloadURL lib m s urlStr isHTML)
  | acquire (s : RunState) (t : Task) (pre post : List Task) :
      s.queued = pre ++ t :: post → s.inFlight.length < m.semaphoreCap →
      Step lib m s { s with queued := pre ++ post, inFlight := s.inFlight ++ [t] }
  | finish (s : RunState) (t : Task) (failed : Bool) (pre post : List Task) :
      s.inFlight = pre ++ t :: post →
      Step lib m s { s with inFlight := pre ++ post, pending := s.pending - 1 }

/-- The states of a run: the state after the seed call of `Start`, and every
state a step leads to from there. -/
inductive Reachable {T : Type} (lib : Lib T) (m : Mirrorer) : RunState → Prop where
  | seed (startURL : Str) : Reachable lib m (downloadURL lib m {} startURL true)
  | step (s s' : RunState) : Reachable lib m s → Step lib m s s' → Reachable lib m s'

/-- A small stand-in for the HTML library, used only where a statement is
evaluated on a concrete input: the whole input becomes one text node under a
document node, and rendering writes the text nodes back. -/
def textOnlyRender : Node → Str
  | .nil => []
  | .node ty el fc ns =>
    (if ty = NodeType.TextNode then el.data else []) ++ textOnlyRender fc ++ textOnlyRender ns

/-- The concrete library model used for evaluation: the `net/url` model above
and the text-only HTML stand-in. -/
def goLib : Lib Node where
  parse := urlParse
  resolveReference := urlResolveReference
  string := urlString
  htmlParse := fun s =>
    some (.node NodeType.DocumentNode { data := [], attr := [] }
      (.node NodeType.TextNode { data := s, attr := [] } .nil .nil) .nil)
  htmlRender := textOnlyRender

/-- The mirrorer of the specification's example: base `http://x.test/`, output
directory `mirror`. -/
def exampleMirrorer : Mirrorer :=
  { baseURL := { scheme := "http".toList, host := "x.test".toList, path := "/".toList },
    outputDir := "mirror".toList,
    semaphoreCap := 5 }

/-! ## Notions used in the statements -/

/-- The URL `downloadURL` goes on with after parsing: a URL without a scheme is
resolved against the base URL. -/
def resolveAgainstBase {T : Type} (lib : Lib T) (m : Mirrorer) (parsed : URL) : URL :=
  if !parsed.IsAbs then lib.resolveReference m.baseURL parsed else parsed

/-- The canonical URL string of a call of `downloadURL`: the key the call looks
up in the visited set.  `none` when the call returns before the lookup (parse
error or foreign host). -/
def canonicalURL {T : Type} (lib : Lib T) (m : Mirrorer) (urlStr : Str) : Option Str :=
  match lib.parse urlStr with
  | none => none
  | some parsed =>
    if (resolveAgainstBase lib m parsed).host ≠ m.baseURL.host then none
    else some (lib.string (resolveAgainstBase lib m parsed))

/-- A sequence of `downloadURL` calls, made one after the other. -/
def runCalls {T : Type} (lib : Lib T) (m : Mirrorer) (s : RunState) (calls : List (Str × Bool)) :
    RunState :=
  calls.foldl (fun st c => downloadURL lib m st c.1 c.2) s

/-- Invariant of the dedup gate: every started worker's key is in the visited
set, and no two started workers share a key. -/
def DedupInv (s : RunState) : Prop :=
  (∀ t ∈ s.queued, t.urlStr ∈ s.visited) ∧ (s.queued.map Task.urlStr).Nodup

/-- The counter of the wait group equals the number of workers that wait for a
slot or hold one. -/
def CounterInv (s : RunState) : Prop :=
  s.pending = s.queued.length + s.inFlight.length

/-- The element `..`. -/
def dotdot : Str := ['.', '.']

/-- A path element `Clean` writes as it is: not empty, not `.`, not `..`, and
without a separator. -/
def Normal (e : Str) : Prop := e ≠ [] ∧ e ≠ ['.'] ∧ e ≠ dotdot ∧ '/' ∉ e

/-- The elements `Clean` does not skip. -/
def keepElem (e : Str) : Bool := e != [] && e != ['.']

/-- The shape of the element list of a cleaned path: a run of `..` (empty for
a rooted path) followed by normal elements. -/
def CleanForm (rooted : Bool) (els : List Str) : Prop :=
  ∃ k N, els = List.replicate k dotdot ++ N ∧ (rooted = true → k = 0) ∧ ∀ e ∈ N, Normal e

/-- The path `urlToFilePath` has built when it reaches `strings.TrimPrefix`:
the URL path after the index and extension rules. -/
def localName (path : Str) : Str :=
  let p := if path = [] ∨ path = ['/'] then "/index.html".toList else path
  let p := if hasSuffix p ['/'] then Join [p, "index.html".toList] else p
  if Ext p = [] then p ++ ".html".toList else p

/-- Rules (1) to (3) of the specification's `toLocalPath`, read literally: (1)
an empty path or `/` becomes `index.html`; (2) a path that ends in `/` gets
`index.html` appended; (3) when the resulting path has no file extension,
`.html` is appended. -/
def specName (path : Str) : Str :=
  let p := if path = [] ∨ path = ['/'] then "index.html".toList else path
  let p := if hasSuffix p ['/'] then p ++ "index.html".toList else p
  if Ext p = [] then p ++ ".html".toList else p

/-- The specification's `toLocalPath`, rules (1) to (5) read literally: rule
(4) strips the leading separator, rule (5) joins under the output root. -/
def toLocalPath (root path : Str) : Str :=
  Join [root, trimPrefix (specName path) ['/']]

/-- Whether a path has a `..` element. -/
def hasDotDot (p : Str) : Prop := dotdot ∈ splitOn '/' p

instance (p : Str) : Decidable (hasDotDot p) := by unfold hasDotDot; infer_instance

/-- The elements of a path, without the empty and the `.` elements. -/
def pathElems (p : Str) : List Str := (splitOn '/' p).filter keepElem

/-- Whether the cleaned path `p` lies under the directory `root` (or is that
directory): both are rooted or both relative, the elements of the cleaned
`root` are the first elements of `p`, and none of the elements that follow is
`..`. -/
def liesUnder (root p : Str) : Bool :=
  isRooted (Clean root) == isRooted p &&
  (pathElems (Clean root)).isPrefixOf (pathElems p) &&
  !((pathElems p).drop (pathElems (Clean root)).length).contains dotdot

/-- The attribute the `switch` of the closure `processNode` hands to
`processAttribute` for an element name; `none` for the names it has no case
for. -/
def dispatchedAttr (data : Str) : Option Str :=
  if data = "a".toList ∨ data = "link".toList then some "href".toList
  else if data = "img".toList ∨ data = "script".toList ∨ data = "source".toList then
    some "src".toList
  else if data = "video".toList ∨ data = "audio".toList then some "src".toList
  else if data = "form".toList then some "action".toList
  else none

/-- The page hint in the words of the specification: the element is an anchor,
or a `link` whose `rel` attribute contains neither `stylesheet` nor `icon`. -/
def pageHint (n : Elem) : Bool :=
  n.data == "a".toList ||
    (n.data == "link".toList &&
      (!containsStr (getAttr n "rel".toList) "stylesheet".toList &&
        !containsStr (getAttr n "rel".toList) "icon".toList))

/-- The output candidate for one comma-separated input candidate of a `srcset`
value, in the words of the specification: `none` for an empty candidate (one
without any token); otherwise the candidate's tokens joined by single spaces,
with the leading URL token replaced by the relative local path when it
resolves to the base host and kept otherwise (a candidate whose URL token does
not parse is kept as it is, trimmed). -/
def candidateText {T : Type} (lib : Lib T) (m : Mirrorer) (pageURL : URL) (part : Str) :
    Option Str :=
  match fields (trimSpace part) with
  | [] => none
  | imgURL :: descriptor =>
    match lib.parse imgURL with
    | none => some (trimSpace part)
    | some parsedURL =>
      some (joinWith ' '
        ((if (lib.resolveReference pageURL parsedURL).host = m.baseURL.host then
            makeRelativePath m pageURL (lib.resolveReference pageURL parsedURL)
          else imgURL) :: descriptor))

/-- The enqueue call for one input candidate of a `srcset` value: the resolved
URL of the leading token, with the asset hint, when it is on the base host. -/
def candidateEnqueue {T : Type} (lib : Lib T) (m : Mirrorer) (pageURL : URL) (s : RunState)
    (part : Str) : RunState :=
  match fields (trimSpace part) with
  | [] => s
  | imgURL :: _ =>
    match lib.parse imgURL with
    | none => s
    | some parsedURL =>
      if (lib.resolveReference pageURL parsedURL).host = m.baseURL.host then
        downloadURL lib m s (lib.string (lib.resolveReference pageURL parsedURL)) false
      else s

/-- An optional quote of the `url(...)` pattern: nothing, or one quote
character. -/
def OptQuote (q : Str) : Prop := q = [] ∨ ∃ c, isQuote c = true ∧ q = [c]

/-- A `url(...)` token `tok` with reference `r`: the text `url(`, an optional
quote, the non-empty reference made of characters other than quotes, the
closing parenthesis and white space, an optional quote, and `)`. -/
def URLToken (tok r : Str) : Prop :=
  ∃ q1 q2, OptQuote q1 ∧ OptQuote q2 ∧ r ≠ [] ∧ (∀ c ∈ r, isURLChar c = true) ∧
    tok = "url(".toList ++ (q1 ++ (r ++ (q2 ++ [')'])))

/-- An `@import` statement `tok` with reference `r`: the text `@import`, a
non-empty run of white space, a quote, the non-empty reference made of
characters other than quotes, and a quote. -/
def ImportToken (tok r : Str) : Prop :=
  ∃ ws q1 q2, ws ≠ [] ∧ (∀ c ∈ ws, isSpaceRE c = true) ∧ isQuote q1 = true ∧
    isQuote q2 = true ∧ r ≠ [] ∧ (∀ c ∈ r, isQuote c = false) ∧
    tok = "@import".toList ++ (ws ++ q1 :: (r ++ [q2]))

/-- What becomes of one `url(...)` token `tok` with reference `r` on the page
`pageURL`: a reference that starts with `data:`, does not parse or resolves to
another host leaves the token as it is; a reference that resolves to the base
host is enqueued as an asset and the token becomes `url('<rel>')`. -/
def urlToken {T : Type} (lib : Lib T) (m : Mirrorer) (pageURL : URL)
    (s : RunState) (tok r : Str) : Str × RunState :=
  if hasPrefix r "data:".toList then (tok, s)
  else
    match lib.parse r with
    | none => (tok, s)
    | some parsedURL =>
      let absURL := lib.resolveReference pageURL parsedURL
      if absURL.host = m.baseURL.host then
        ("url(".toList ++ squote :: makeRelativePath m pageURL absURL ++ [squote, ')'],
         downloadURL lib m s (lib.string absURL) false)
      else (tok, s)

/-- What becomes of one `@import` statement `tok` with reference `r` on the
page `pageURL`: a reference that does not parse or resolves to another host
leaves the statement as it is; a reference that resolves to the base host is
enqueued as an asset and the statement becomes `@import '<rel>'`. -/
def importToken {T : Type} (lib : Lib T) (m : Mirrorer) (pageURL : URL)
    (s : RunState) (tok r : Str) : Str × RunState :=
  match lib.parse r with
  | none => (tok, s)
  | some parsedURL =>
    let absURL := lib.resolveReference pageURL parsedURL
    if absURL.host = m.baseURL.host then
      ("@import ".toList ++ squote :: makeRelativePath m pageURL absURL ++ [squote],
       downloadURL lib m s (lib.string absURL) false)
    else (tok, s)

/-- One pass over a text from the left: `Scan isTok f text s out t` says that
rewriting every token of `text` by `f`, in order and starting in state `s`,
gives the text `out` and the state `t`.  Where a token starts it is rewritten
and the pass goes on behind it; any other character is copied. -/
inductive Scan {σ : Type} (isTok : Str → Str → Prop) (f : σ → Str → Str → Str × σ) :
    Str → σ → Str → σ → Prop
  | done (s : σ) : Scan isTok f [] s [] s
  | skip (c : Char) (cs : Str) (s : σ) (out : Str) (t : σ) :
      (∀ tok r rest, isTok tok r → c :: cs ≠ tok ++ rest) →
      Scan isTok f cs s out t → Scan isTok f (c :: cs) s (c :: out) t
  | hit (tok r rest : Str) (s : σ) (out : Str) (t : σ) :
      isTok tok r → Scan isTok f rest (f s tok r).2 out t →
      Scan isTok f (tok ++ rest) s ((f s tok r).1 ++ out) t

/-- The first pass of `rewriteCSSURLs`: `ReplaceAllStringFunc` for the
`url(...)` pattern with its callback. -/
def urlPass {T : Type} (lib : Lib T) (m : Mirrorer) (pageURL : URL) (css : Str)
    (s : RunState) : Str × RunState :=
  replaceAllStringFunc matchURL (rewriteURLMatch lib m pageURL) 0 css s

/-- The second pass of `rewriteCSSURLs`: `ReplaceAllStringFunc` for the
`@import` pattern with its callback. -/
def importPass {T : Type} (lib : Lib T) (m : Mirrorer) (pageURL : URL) (css : Str)
    (s : RunState) : Str × RunState :=
  replaceAllStringFunc matchImport (rewriteImportMatch lib m pageURL) 0 css s

/-- A `url()` token with white space around its reference: `url(`, the white
space `ws1`, the reference `r`, the white space `ws2`, and `)`. -/
def spacedToken (ws1 r ws2 : Str) : Str :=
  "url(".toList ++ (ws1 ++ (r ++ (ws2 ++ [')'])))

/-! ## Theorems -/

/-! ### The library models on documented cases -/

/-- The model of `path.Clean` on cases of the Go documentation and test
table. -/
theorem Clean_documented_cases :
    Clean [] = ".".toList ∧
    Clean "abc/def".toList = "abc/def".toList ∧
    Clean "../../abc".toList = "../../abc".toList ∧
    Clean "/".toList = "/".toList ∧
    Clean "abc/".toList = "abc".toList ∧
    Clean "//abc//".toList = "/abc".toList ∧
    Clean "abc/./def".toList = "abc/def".toList ∧
    Clean "abc/def/../ghi/../jkl".toList = "abc/jkl".toList ∧
    Clean "abc/def/../..".toList = ".".toList ∧
    Clean "/abc/def/../../..".toList = "/".toList ∧
    Clean "abc/def/../../../ghi/jkl/../../../mno".toList = "../../mno".toList ∧
    Clean "abc/../../././../def".toList = "../../def".toList := by decide

/-- The model of `filepath.Rel` on cases of the Go test table. -/
theorem Rel_documented_cases :
    Rel "a/b".toList "a/b".toList = some ".".toList ∧
    Rel "ab/cd".toList "ab/cde".toList = some "../cde".toList ∧
    Rel "a/b".toList "a/b/c/d".toList = some "c/d".toList ∧
    Rel "a/b/c".toList "a/c/d".toList = some "../../c/d".toList ∧
    Rel "a/b/c/d".toList "a/b".toList = some "../..".toList ∧
    Rel "../../a/b".toList "../../a/b/c/d".toList = some "c/d".toList ∧
    Rel "/a/b/../c".toList "/a/b".toList = some "../b".toList ∧
    Rel "/a/b".toList "/c/d".toList = some "../../c/d".toList ∧
    Rel ".".toList "a/b".toList = some "a/b".toList ∧
    Rel ".".toList "..".toList = some "..".toList ∧
    Rel "..".toList ".".toList = none ∧
    Rel "..".toList "a".toList = none ∧
    Rel "a".toList "/a".toList = none ∧
    Rel "/a".toList "a".toList = none := by decide

/-- The models of `filepath.Ext`, `filepath.Dir` and `filepath.Join` on simple
cases. -/
theorem Ext_Dir_Join_documented_cases :
    Ext "index".toList = [] ∧
    Ext "index.js".toList = ".js".toList ∧
    Ext "main.test.js".toList = ".js".toList ∧
    Ext "/a.b/c".toList = [] ∧
    Dir "/foo/bar/baz.js".toList = "/foo/bar".toList ∧
    Dir "/foo/bar/".toList = "/foo/bar".toList ∧
    Dir "dev.txt".toList = ".".toList ∧
    Dir "/".toList = "/".toList ∧
    Dir [] = ".".toList ∧
    Join ["a".toList, "b/c".toList] = "a/b/c".toList ∧
    Join ["a".toList, "../../xyz".toList] = "../xyz".toList ∧
    Join [[], "a".toList] = "a".toList ∧
    Join ["a".toList, []] = "a".toList ∧
    Join [[], []] = [] := by decide

/-- The model of `url.Parse` on simple cases. -/
theorem urlParse_documented_cases :
    urlParse "http://x.test/a/b?q=1#f".toList =
      some { scheme := "http".toList, host := "x.test".toList, path := "/a/b".toList,
             rawQuery := "q=1".toList, fragment := "f".toList } ∧
    urlParse "mailto:a@b.com".toList =
      some { scheme := "mailto".toList, opaq := "a@b.com".toList } ∧
    urlParse "#g".toList = some { fragment := "g".toList } ∧
    urlParse "//h/p".toList = some { host := "h".toList, path := "/p".toList } ∧
    urlParse "x/a:b".toList = some { path := "x/a:b".toList } ∧
    urlParse "a:b".toList = some { scheme := "a".toList, opaq := "b".toList } ∧
    urlParse "1a:b".toList = none ∧
    urlParse ":b".toList = none := by decide

/-- The models of `resolvePath` and `ResolveReference` on cases of RFC 3986,
section 5.4, against the base `http://a/b/c/d`. -/
theorem urlResolveReference_documented_cases :
    resolvePath "/b/c/d".toList "g".toList = "/b/c/g".toList ∧
    resolvePath "/b/c/d".toList "./g".toList = "/b/c/g".toList ∧
    resolvePath "/b/c/d".toList "g/".toList = "/b/c/g/".toList ∧
    resolvePath "/b/c/d".toList "/g".toList = "/g".toList ∧
    resolvePath "/b/c/d".toList ".".toList = "/b/c/".toList ∧
    resolvePath "/b/c/d".toList "..".toList = "/b/".toList ∧
    resolvePath "/b/c/d".toList "../g".toList = "/b/g".toList ∧
    resolvePath "/b/c/d".toList "../../g".toList = "/g".toList ∧
    resolvePath "/b/c/d".toList "../../../g".toList = "/g".toList ∧
    (urlParse "http://a/b/c/d".toList).bind (fun base =>
      (urlParse "../g?y#s".toList).map (fun ref =>
        urlString (urlResolveReference base ref))) = some "http://a/b/g?y#s".toList ∧
    (urlParse "http://a/b/c/d".toList).bind (fun base =>
      (urlParse "#s".toList).map (fun ref =>
        urlString (urlResolveReference base ref))) = some "http://a/b/c/d#s".toList ∧
    (urlParse "http://a/b/c/d".toList).bind (fun base =>
      (urlParse "//x.test/p".toList).map (fun ref =>
        urlString (urlResolveReference base ref))) = some "http://x.test/p".toList := by
  decide

/-- The example of the specification: the mirrorer for `http://x.test/` and the
local paths of its five resources. -/
theorem example_site_paths :
    NewMirrorer goLib "http://x.test/".toList "mirror".toList = some exampleMirrorer ∧
    urlToFilePath exampleMirrorer { path := "/".toList } = "mirror/index.html".toList ∧
    urlToFilePath exampleMirrorer { path := "/p".toList } = "mirror/p.html".toList ∧
    urlToFilePath exampleMirrorer { path := "/s.css".toList } = "mirror/s.css".toList ∧
    urlToFilePath exampleMirrorer { path := "/pic.png".toList } = "mirror/pic.png".toList ∧
    makeRelativePath exampleMirrorer { path := "/p".toList } { path := "/".toList }
      = "index.html".toList := by decide

/-! ### The dedup gate and the counter -/

theorem downloadURL_eq {T : Type} (lib : Lib T) (m : Mirrorer) (s : RunState)
    (urlStr : Str) (isHTML : Bool) :
    downloadURL lib m s urlStr isHTML =
      match canonicalURL lib m urlStr, (lib.parse urlStr).map (resolveAgainstBase lib m) with
      | some c, some u =>
        if c ∈ s.visited then s
        else { s with
               visited := s.visited ++ [c],
               pending := s.pending + 1,
               queued := s.queued ++ [{ urlStr := c, parsedURL := u, isHTML := isHTML }] }
      | _, _ => s := by
  unfold downloadURL canonicalURL
  cases hp : lib.parse urlStr with
  | none => rfl
  | some parsed =>
    simp only [Option.map_some']
    change (if (resolveAgainstBase lib m parsed).host ≠ m.baseURL.host then s else
      if lib.string (resolveAgainstBase lib m parsed) ∈ s.visited then s else _) = _
    by_cases hh : (resolveAgainstBase lib m parsed).host ≠ m.baseURL.host
    · rw [if_pos hh, if_pos hh]
    · rw [if_neg hh, if_neg hh]
      rfl

theorem canonicalURL_some {T : Type} (lib : Lib T) (m : Mirrorer)
    (urlStr : Str) (c : Str) (h : canonicalURL lib m urlStr = some c) :
    ∃ u, lib.parse urlStr = some u ∧
      (resolveAgainstBase lib m u).host = m.baseURL.host ∧
      lib.string (resolveAgainstBase lib m u) = c := by
  unfold canonicalURL at h
  cases hp : lib.parse urlStr with
  | none => simp [hp] at h
  | some parsed =>
    simp only [hp] at h
    by_cases hh : (resolveAgainstBase lib m parsed).host ≠ m.baseURL.host
    · rw [if_pos hh] at h
      cases h
    · rw [if_neg hh] at h
      injection h with h
      exact ⟨parsed, rfl, not_not.mp hh, h⟩

theorem downloadURL_of_canonical_none {T : Type} (lib : Lib T) (m : Mirrorer) (s : RunState)
    (urlStr : Str) (isHTML : Bool) (h : canonicalURL lib m urlStr = none) :
    downloadURL lib m s urlStr isHTML = s := by
  rw [downloadURL_eq, h]

theorem downloadURL_of_canonical_some {T : Type} (lib : Lib T) (m : Mirrorer) (s : RunState)
    (urlStr : Str) (isHTML : Bool) (c : Str) (h : canonicalURL lib m urlStr = some c) :
    ∃ u, u.host = m.baseURL.host ∧ lib.string u = c ∧
      downloadURL lib m s urlStr isHTML =
        if c ∈ s.visited then s
        else { s with
               visited := s.visited ++ [c],
               pending := s.pending + 1,
               queued := s.queued ++ [{ urlStr := c, parsedURL := u, isHTML := isHTML }] } := by
  obtain ⟨u, hp, hh, hs⟩ := canonicalURL_some lib m urlStr c h
  refine ⟨resolveAgainstBase lib m u, hh, hs, ?_⟩
  rw [downloadURL_eq, h, hp]
  rfl

theorem DedupInv_downloadURL {T : Type} (lib : Lib T) (m : Mirrorer) (s : RunState)
    (urlStr : Str) (isHTML : Bool) (h : DedupInv s) :
    DedupInv (downloadURL lib m s urlStr isHTML) := by
  cases hc : canonicalURL lib m urlStr with
  | none => rw [downloadURL_of_canonical_none lib m s urlStr isHTML hc]; exact h
  | some c =>
    obtain ⟨u, -, -, he⟩ := downloadURL_of_canonical_some lib m s urlStr isHTML c hc
    rw [he]
    by_cases hv : c ∈ s.visited
    · simpa [hv] using h
    · simp only [hv, if_false]
      refine ⟨?_, ?_⟩
      · intro t ht
        simp only [List.mem_append, List.mem_singleton] at ht ⊢
        rcases ht with ht | ht
        · exact Or.inl (h.1 t ht)
        · right; rw [ht]
      · simp only [List.map_append, List.map_cons, List.map_nil]
        rw [List.nodup_append]
        refine ⟨h.2, List.nodup_singleton _, ?_⟩
        intro a ha hb
        simp only [List.mem_singleton] at hb
        subst hb
        obtain ⟨t, ht, rfl⟩ := List.mem_map.mp ha
        exact hv (h.1 t ht)

theorem DedupInv_runCalls {T : Type} (lib : Lib T) (m : Mirrorer) (calls : List (Str × Bool))
    (s : RunState) (h : DedupInv s) : DedupInv (runCalls lib m s calls) := by
  induction calls generalizing s with
  | nil => exact h
  | cons c rest ih =>
    exact ih _ (DedupInv_downloadURL lib m s c.1 c.2 h)

/-- C4: across any sequence of `downloadURL` calls of one run no two started
workers share a canonical URL string; and a call whose URL parses and is on
the base host starts a worker exactly when its canonical string was not yet in
the visited set (it is appended to the started workers then, and the state is
unchanged otherwise), with the string in the visited set afterwards. -/
theorem downloadURL_schedules_once {T : Type} (lib : Lib T) (m : Mirrorer)
    (calls : List (Str × Bool)) (urlStr : Str) (isHTML : Bool) (c : Str)
    (hc : canonicalURL lib m urlStr = some c) :
    ((runCalls lib m {} calls).queued.map Task.urlStr).Nodup ∧
    (∀ s : RunState,
      (c ∉ s.visited →
        ∃ t : Task, t.urlStr = c ∧ t.isHTML = isHTML ∧
          (downloadURL lib m s urlStr isHTML).queued = s.queued ++ [t]) ∧
      (c ∈ s.visited → downloadURL lib m s urlStr isHTML = s) ∧
      c ∈ (downloadURL lib m s urlStr isHTML).visited) := by
  refine ⟨(DedupInv_runCalls lib m calls {} ⟨by simp, by simp⟩).2, ?_⟩
  intro s
  obtain ⟨u, -, -, he⟩ := downloadURL_of_canonical_some lib m s urlStr isHTML c hc
  rw [he]
  by_cases hv : c ∈ s.visited
  · simp [hv]
  · simp [hv]

/-- C5: `downloadURL` changes the run state (visited set, counter, started
workers) only when the URL parses and the host of the resolved URL equals the
host of the base URL; for any other host the call returns the state unchanged,
and every worker a call starts is for a URL on the base host. -/
theorem downloadURL_same_host_only {T : Type} (lib : Lib T) (m : Mirrorer) (s : RunState)
    (urlStr : Str) (isHTML : Bool) :
    (downloadURL lib m s urlStr isHTML ≠ s →
      ∃ parsed, lib.parse urlStr = some parsed ∧
        (resolveAgainstBase lib m parsed).host = m.baseURL.host) ∧
    (∀ parsed, lib.parse urlStr = some parsed →
      (resolveAgainstBase lib m parsed).host ≠ m.baseURL.host →
      downloadURL lib m s urlStr isHTML = s) ∧
    (∀ t ∈ (downloadURL lib m s urlStr isHTML).queued, t ∉ s.queued →
      t.parsedURL.host = m.baseURL.host) := by
  refine ⟨?_, ?_, ?_⟩
  · intro hne
    cases hc : canonicalURL lib m urlStr with
    | none => exact absurd (downloadURL_of_canonical_none lib m s urlStr isHTML hc) hne
    | some c =>
      obtain ⟨u, hp, hh, -⟩ := canonicalURL_some lib m urlStr c hc
      exact ⟨u, hp, hh⟩
  · intro parsed hp hh
    apply downloadURL_of_canonical_none
    unfold canonicalURL
    rw [hp]
    exact if_pos hh
  · intro t ht hnot
    cases hc : canonicalURL lib m urlStr with
    | none =>
      rw [downloadURL_of_canonical_none lib m s urlStr isHTML hc] at ht
      exact absurd ht hnot
    | some c =>
      obtain ⟨u, hh, -, he⟩ := downloadURL_of_canonical_some lib m s urlStr isHTML c hc
      rw [he] at ht
      by_cases hv : c ∈ s.visited
      · rw [if_pos hv] at ht
        exact absurd ht hnot
      · rw [if_neg hv] at ht
        simp only [List.mem_append, List.mem_singleton] at ht
        rcases ht with ht | ht
        · exact absurd ht hnot
        · rw [ht]; exact hh

theorem downloadURL_inFlight {T : Type} (lib : Lib T) (m : Mirrorer) (s : RunState)
    (urlStr : Str) (isHTML : Bool) :
    (downloadURL lib m s urlStr isHTML).inFlight = s.inFlight := by
  rw [downloadURL_eq]
  split
  · split <;> rfl
  · rfl

theorem downloadURL_pending {T : Type} (lib : Lib T) (m : Mirrorer) (s : RunState)
    (urlStr : Str) (isHTML : Bool) :
    (downloadURL lib m s urlStr isHTML).pending + s.queued.length =
      s.pending + (downloadURL lib m s urlStr isHTML).queued.length := by
  rw [downloadURL_eq]
  split
  · split
    · rfl
    · simp only [List.length_append, List.length_singleton]; omega
  · rfl

theorem downloadURL_queued_le {T : Type} (lib : Lib T) (m : Mirrorer) (s : RunState)
    (urlStr : Str) (isHTML : Bool) :
    s.queued.length ≤ (downloadURL lib m s urlStr isHTML).queued.length := by
  rw [downloadURL_eq]
  split
  · split
    · exact Nat.le_refl _
    · simp only [List.length_append, List.length_singleton]; omega
  · exact Nat.le_refl _

theorem CounterInv_downloadURL {T : Type} (lib : Lib T) (m : Mirrorer) (s : RunState)
    (urlStr : Str) (isHTML : Bool) (h : CounterInv s) :
    CounterInv (downloadURL lib m s urlStr isHTML) := by
  unfold CounterInv at *
  have h1 := downloadURL_pending lib m s urlStr isHTML
  have h2 := congrArg List.length (downloadURL_inFlight lib m s urlStr isHTML)
  omega

theorem CounterInv_step {T : Type} (lib : Lib T) (m : Mirrorer) (s s' : RunState)
    (h : CounterInv s) (hs : Step lib m s s') : CounterInv s' := by
  cases hs with
  | enqueue w urlStr isHTML hw => exact CounterInv_downloadURL lib m s urlStr isHTML h
  | acquire t pre post hq hcap =>
    unfold CounterInv at *
    simp only [hq, List.length_append, List.length_cons, List.length_nil] at h ⊢
    omega
  | finish t failed pre post hf =>
    unfold CounterInv at *
    simp only [hf, List.length_append, List.length_cons] at h ⊢
    omega

theorem CounterInv_reachable {T : Type} (lib : Lib T) (m : Mirrorer) (s : RunState)
    (h : Reachable lib m s) : CounterInv s := by
  induction h with
  | seed startURL => exact CounterInv_downloadURL lib m {} startURL true rfl
  | step s s' _ hs ih => exact CounterInv_step lib m s s' ih hs

/-- C6: in every reachable state the counter of the wait group equals the
number of workers that wait for a slot or hold one, so it is zero exactly when
there is no such worker; a call of `downloadURL` by a worker that holds a slot
returns with the new worker already counted while the caller still holds its
slot (its decrement is still to come); and every step keeps the equality. -/
theorem pending_counts_live_tasks {T : Type} (lib : Lib T) (m : Mirrorer) (s : RunState)
    (h : Reachable lib m s) :
    s.pending = s.queued.length + s.inFlight.length ∧
    (s.pending = 0 ↔ s.queued = [] ∧ s.inFlight = []) ∧
    (∀ (w : Task) (urlStr : Str) (isHTML : Bool), w ∈ s.inFlight →
      w ∈ (downloadURL lib m s urlStr isHTML).inFlight ∧
      (downloadURL lib m s urlStr isHTML).pending =
        s.pending + ((downloadURL lib m s urlStr isHTML).queued.length - s.queued.length) ∧
      (downloadURL lib m s urlStr isHTML).pending =
        (downloadURL lib m s urlStr isHTML).queued.length +
          (downloadURL lib m s urlStr isHTML).inFlight.length ∧
      0 < (downloadURL lib m s urlStr isHTML).pending) ∧
    (∀ s', Step lib m s s' → s'.pending = s'.queued.length + s'.inFlight.length) := by
  have hinv : CounterInv s := CounterInv_reachable lib m s h
  refine ⟨hinv, ?_, ?_, ?_⟩
  · unfold CounterInv at hinv
    rw [hinv]
    constructor
    · intro h0
      exact ⟨List.length_eq_zero.mp (by omega), List.length_eq_zero.mp (by omega)⟩
    · rintro ⟨h1, h2⟩
      simp [h1, h2]
  · intro w urlStr isHTML hw
    have h1 := downloadURL_pending lib m s urlStr isHTML
    have h2 := downloadURL_inFlight lib m s urlStr isHTML
    have h5 := downloadURL_queued_le lib m s urlStr isHTML
    have h6 := congrArg List.length h2
    have h3 : CounterInv (downloadURL lib m s urlStr isHTML) :=
      CounterInv_downloadURL lib m s urlStr isHTML hinv
    have h4 : 0 < s.inFlight.length := List.length_pos_of_mem hw
    unfold CounterInv at h3 hinv
    refine ⟨by rw [h2]; exact hw, by omega, h3, by omega⟩
  · intro s' hs
    exact CounterInv_step lib m s s' hinv hs

/-- C8: when the attribute value starts with `#`, `data:`, `javascript:`,
`mailto:` or `tel:`, `processAttribute` returns the node and the run state
unchanged: no enqueue call, attributes identical. -/
theorem processAttribute_skips_special {T : Type} (lib : Lib T) (m : Mirrorer) (s : RunState)
    (n : Elem) (attr : Str) (pageURL : URL)
    (h : hasPrefix (getAttr n attr) "#".toList = true ∨
         hasPrefix (getAttr n attr) "data:".toList = true ∨
         hasPrefix (getAttr n attr) "javascript:".toList = true ∨
         hasPrefix (getAttr n attr) "mailto:".toList = true ∨
         hasPrefix (getAttr n attr) "tel:".toList = true) :
    processAttribute lib m s n attr pageURL = (n, s) := by
  have hs : isSpecialURL (getAttr n attr) = true := by
    unfold isSpecialURL
    simp only [Bool.or_eq_true]
    tauto
  unfold processAttribute
  simp only [hs, if_true]
  split <;> rfl

theorem chooseProcessing_eq (contentType : Str) (isHTML : Bool) :
    chooseProcessing contentType isHTML =
      if isHTML = true ∨ containsStr contentType "text/html".toList = true then Processing.html
      else if containsStr contentType "text/css".toList = true then Processing.css
      else Processing.raw := by
  unfold chooseProcessing
  cases isHTML <;> cases containsStr contentType "text/html".toList <;>
    cases containsStr contentType "text/css".toList <;> rfl

/-- C3, as amended: for a response with status 200 whose body can be read,
`download` rewrites the content as HTML when the hint `isHTML` is set or the
Content-Type contains `text/html`; otherwise as CSS when the Content-Type
contains `text/css`; otherwise it stores the bytes unmodified.  The
Content-Type decides alone only when the hint is not set. -/
theorem download_processing (lib : Lib Node) (m : Mirrorer) (s : RunState) (u : URL)
    (isHTML : Bool) (r : Response) (content : Str)
    (hstatus : r.statusCode = 200) (hbody : r.body = some content) :
    download lib m s u isHTML (some r) true true =
      (if isHTML = true ∨ containsStr r.contentType "text/html".toList = true then
        { err := none,
          written := some (urlToFilePath m u, (processHTML lib m s content u).1),
          state := (processHTML lib m s content u).2 }
      else if containsStr r.contentType "text/css".toList = true then
        { err := none,
          written := some (urlToFilePath m u, (processCSS lib m s content u).1),
          state := (processCSS lib m s content u).2 }
      else { err := none, written := some (urlToFilePath m u, content), state := s }) := by
  unfold download
  simp only [hstatus, hbody, ne_eq, not_true_eq_false, if_false, Bool.not_true,
    Bool.false_eq_true]
  rw [chooseProcessing_eq]
  by_cases h1 : isHTML = true ∨ containsStr r.contentType "text/html".toList = true
  · rw [if_pos h1, if_pos h1]
  · rw [if_neg h1, if_neg h1]
    by_cases h2 : containsStr r.contentType "text/css".toList = true
    · rw [if_pos h2, if_pos h2]
    · rw [if_neg h2, if_neg h2]

/-- C3, counterexample: with the hint `isHTML` set, a `text/css` response and an
`image/png` response are both processed as HTML, while without the hint they
are processed as CSS and stored unmodified. -/
theorem download_hint_overrides_content_type :
    chooseProcessing "text/css".toList true = Processing.html ∧
    chooseProcessing "text/css".toList false = Processing.css ∧
    chooseProcessing "image/png".toList true = Processing.html ∧
    chooseProcessing "image/png".toList false = Processing.raw := by decide

/-- C4, witness: the reference `/p` on the example site, among three calls of
which two name the same page. -/
theorem downloadURL_schedules_once_witness :
    canonicalURL goLib exampleMirrorer "/p".toList = some "http://x.test/p".toList ∧
    ((runCalls goLib exampleMirrorer {}
        [("http://x.test/".toList, true), ("/p".toList, true), ("http://x.test/p".toList, false)]
      ).queued.map Task.urlStr).Nodup ∧
    (∀ s : RunState,
      ("http://x.test/p".toList ∉ s.visited →
        ∃ t : Task, t.urlStr = "http://x.test/p".toList ∧ t.isHTML = true ∧
          (downloadURL goLib exampleMirrorer s "/p".toList true).queued = s.queued ++ [t]) ∧
      ("http://x.test/p".toList ∈ s.visited →
        downloadURL goLib exampleMirrorer s "/p".toList true = s) ∧
      "http://x.test/p".toList ∈ (downloadURL goLib exampleMirrorer s "/p".toList true).visited) :=
  ⟨by decide,
   downloadURL_schedules_once goLib exampleMirrorer
     [("http://x.test/".toList, true), ("/p".toList, true), ("http://x.test/p".toList, false)]
     "/p".toList true "http://x.test/p".toList (by decide)⟩

/-- C5, witness: a URL on another host leaves the empty run state as it is, a
URL on the base host starts one worker. -/
theorem downloadURL_same_host_only_witness :
    (downloadURL goLib exampleMirrorer {} "http://other.test/a".toList true = {}) ∧
    (downloadURL goLib exampleMirrorer {} "http://x.test/a".toList true).pending = 1 :=
  ⟨(downloadURL_same_host_only goLib exampleMirrorer {} "http://other.test/a".toList true).2.1
      { scheme := "http".toList, host := "other.test".toList, path := "/a".toList }
      (by decide) (by decide),
   by decide⟩

/-- C6, witness: after the seed worker of the example site has taken a slot, an
enqueue call by its rewriter raises the counter from 1 to 2. -/
theorem pending_counts_live_tasks_witness :
    Reachable goLib exampleMirrorer
      { visited := ["http://x.test/".toList], pending := 1, queued := [],
        inFlight := [{ urlStr := "http://x.test/".toList,
                       parsedURL := { scheme := "http".toList, host := "x.test".toList,
                                      path := "/".toList },
                       isHTML := true }] } ∧
    (downloadURL goLib exampleMirrorer
      { visited := ["http://x.test/".toList], pending := 1, queued := [],
        inFlight := [{ urlStr := "http://x.test/".toList,
                       parsedURL := { scheme := "http".toList, host := "x.test".toList,
                                      path := "/".toList },
                       isHTML := true }] } "/p".toList true).pending = 2 :=
  have hr : Reachable goLib exampleMirrorer
      { visited := ["http://x.test/".toList], pending := 1, queued := [],
        inFlight := [{ urlStr := "http://x.test/".toList,
                       parsedURL := { scheme := "http".toList, host := "x.test".toList,
                                      path := "/".toList },
                       isHTML := true }] } :=
    Reachable.step _ _ (Reachable.seed "http://x.test/".toList)
      (Step.acquire (downloadURL goLib exampleMirrorer {} "http://x.test/".toList true)
        { urlStr := "http://x.test/".toList,
          parsedURL := { scheme := "http".toList, host := "x.test".toList, path := "/".toList },
          isHTML := true } [] [] (by decide) (by decide))
  ⟨hr, by
    have h := (pending_counts_live_tasks goLib exampleMirrorer _ hr).2.2.1
      { urlStr := "http://x.test/".toList,
        parsedURL := { scheme := "http".toList, host := "x.test".toList, path := "/".toList },
        isHTML := true } "/p".toList true (by decide)
    rw [h.2.1]
    decide⟩

/-- C8, witness: an anchor with a `mailto:` reference. -/
theorem processAttribute_skips_special_witness :
    processAttribute goLib exampleMirrorer {}
      { data := "a".toList, attr := [{ key := "href".toList, val := "mailto:a@b.com".toList }] }
      "href".toList { scheme := "http".toList, host := "x.test".toList, path := "/".toList } =
    ({ data := "a".toList, attr := [{ key := "href".toList, val := "mailto:a@b.com".toList }] },
     {}) :=
  processAttribute_skips_special goLib exampleMirrorer {} _ _ _ (by decide)

/-- C3, witness: an `image/png` response fetched without the hint is stored
unmodified under `mirror/bg.png`. -/
theorem download_processing_witness :
    download goLib exampleMirrorer {}
      { scheme := "http".toList, host := "x.test".toList, path := "/bg.png".toList } false
      (some { statusCode := 200, contentType := "image/png".toList, body := some "PNG".toList })
      true true =
    { err := none, written := some ("mirror/bg.png".toList, "PNG".toList), state := {} } := by
  have h := download_processing goLib exampleMirrorer {}
      { scheme := "http".toList, host := "x.test".toList, path := "/bg.png".toList } false
      { statusCode := 200, contentType := "image/png".toList, body := some "PNG".toList }
      "PNG".toList rfl rfl
  rw [h]
  decide

theorem startsWith_eq_false {p : Char → Bool} {l : Str} (h : ∀ c ∈ l, p c = false) :
    startsWith p l = false := by
  cases l with
  | nil => rfl
  | cons c cs => exact h c (List.mem_cons_self _ _)

theorem replaceAllStringFunc_no_match {σ : Type} (matchAt : Str → Option (Nat × Str))
    (repl : σ → Str → Str × σ) (text : Str) (st : σ)
    (h : ∀ t, t <:+ text → matchAt t = none) :
    replaceAllStringFunc matchAt repl 0 text st = (text, st) := by
  induction text with
  | nil => rfl
  | cons c cs ih =>
    have h0 : matchAt (c :: cs) = none := h _ (List.suffix_refl _)
    have ih' := ih (fun t ht => h t (List.suffix_cons_iff.mpr (Or.inr ht)))
    simp only [replaceAllStringFunc, h0, ih']

theorem matchImport_eq_none {t : Str} (h : ∀ c ∈ t, isQuote c = false) : matchImport t = none := by
  unfold matchImport
  split
  · have h1 : startsWith isQuote (List.dropWhile isSpaceRE (List.drop 7 t)) = false := by
      apply startsWith_eq_false
      intro c hc
      exact h c (List.mem_of_mem_drop ((List.dropWhile_suffix _).subset hc))
    simp [h1]
  · rfl

theorem matchURL_eq_none_of_no_paren {t : Str} (h : ∀ c ∈ t, c ≠ '(') : matchURL t = none := by
  unfold matchURL
  have : hasPrefix t ['u', 'r', 'l', '('] = false := by
    unfold hasPrefix
    match t, h with
    | [], _ => rfl
    | [_], _ => simp [List.isPrefixOf]
    | [_, _], _ => simp [List.isPrefixOf]
    | [_, _, _], _ => simp [List.isPrefixOf]
    | a :: b :: c :: d :: rest, h =>
      have hd : d ≠ '(' := h d (by simp)
      simp only [List.isPrefixOf, Bool.and_eq_false_imp, beq_iff_eq, Bool.and_true, beq_eq_false_iff_ne]
      intro _ _ _ h'
      exact hd h'.symm
  simp [this]


theorem isQuote_of_isSpaceRE {c : Char} (h : isSpaceRE c = true) : isQuote c = false := by
  unfold isSpaceRE at h
  simp only [Bool.or_eq_true, beq_iff_eq] at h
  rcases h with (((h | h) | h) | h) | h <;> subst h <;> decide

theorem isURLChar_of_isSpaceRE {c : Char} (h : isSpaceRE c = true) : isURLChar c = false := by
  unfold isURLChar
  simp [h]

theorem not_paren_of_isSpaceRE {c : Char} (h : isSpaceRE c = true) : (c == ')') = false := by
  unfold isSpaceRE at h
  simp only [Bool.or_eq_true, beq_iff_eq] at h
  rcases h with (((h | h) | h) | h) | h <;> subst h <;> decide

theorem not_open_of_isSpaceRE {c : Char} (h : isSpaceRE c = true) : c ≠ '(' := by
  unfold isSpaceRE at h
  simp only [Bool.or_eq_true, beq_iff_eq] at h
  rcases h with (((h | h) | h) | h) | h <;> subst h <;> decide

theorem isQuote_of_isURLChar {c : Char} (h : isURLChar c = true) : isQuote c = false := by
  unfold isURLChar at h
  cases hq : isQuote c
  · rfl
  · simp [hq] at h

theorem takeWhile_append_stop {p : Char → Bool} (r : Str) (w : Char) (rest : Str)
    (hr : ∀ c ∈ r, p c = true) (hw : p w = false) :
    (r ++ w :: rest).takeWhile p = r := by
  induction r with
  | nil => simp [List.takeWhile, hw]
  | cons a r ih =>
    have ha : p a = true := hr a (List.mem_cons_self _ _)
    simp only [List.cons_append, List.takeWhile_cons, ha, if_true]
    rw [ih (fun c hc => hr c (List.mem_cons_of_mem _ hc))]

theorem dropWhile_append_stop {p : Char → Bool} (r : Str) (w : Char) (rest : Str)
    (hr : ∀ c ∈ r, p c = true) (hw : p w = false) :
    (r ++ w :: rest).dropWhile p = w :: rest := by
  induction r with
  | nil => simp [List.dropWhile, hw]
  | cons a r ih =>
    have ha : p a = true := hr a (List.mem_cons_self _ _)
    simp only [List.cons_append, List.dropWhile_cons, ha, if_true]
    rw [ih (fun c hc => hr c (List.mem_cons_of_mem _ hc))]

theorem matchURL_space_first (w : Char) (rest : Str) (hw : isSpaceRE w = true) :
    matchURL ('u' :: 'r' :: 'l' :: '(' :: w :: rest) = none := by
  simp [matchURL, hasPrefix, List.isPrefixOf, startsWith, isQuote_of_isSpaceRE hw,
    List.takeWhile_cons, isURLChar_of_isSpaceRE hw]

theorem matchURL_space_after (r : Str) (w : Char) (rest : Str)
    (hr : ∀ c ∈ r, isURLChar c = true) (hw : isSpaceRE w = true) :
    matchURL ('u' :: 'r' :: 'l' :: '(' :: (r ++ w :: rest)) = none := by
  have hq : startsWith isQuote (r ++ w :: rest) = false := by
    cases r with
    | nil => exact isQuote_of_isSpaceRE hw
    | cons a r' => exact isQuote_of_isURLChar (hr a (List.mem_cons_self _ _))
  have hp : hasPrefix ('u' :: 'r' :: 'l' :: '(' :: (r ++ w :: rest)) ['u', 'r', 'l', '(']
      = true := by
    simp [hasPrefix, List.isPrefixOf]
  have h2 : startsWith isQuote (w :: rest) = false := isQuote_of_isSpaceRE hw
  have h3 : startsWith (fun c => c == ')') (w :: rest) = false := not_paren_of_isSpaceRE hw
  unfold matchURL
  rw [if_pos hp]
  simp only [List.drop_succ_cons, List.drop_zero, hq, Bool.false_eq_true, if_false,
    takeWhile_append_stop r w rest hr (isURLChar_of_isSpaceRE hw),
    dropWhile_append_stop r w rest hr (isURLChar_of_isSpaceRE hw), h2, h3, Bool.and_false]

/-- The `url(...)` pattern does not match a token with white space next to
either parenthesis. -/
theorem matchURL_spaced_token (ws1 r ws2 post : Str)
    (hws1 : ∀ c ∈ ws1, isSpaceRE c = true) (hws2 : ∀ c ∈ ws2, isSpaceRE c = true)
    (hr : ∀ c ∈ r, isURLChar c = true) (hne : ws1 ≠ [] ∨ ws2 ≠ []) :
    matchURL ('u' :: 'r' :: 'l' :: '(' :: (ws1 ++ (r ++ (ws2 ++ ')' :: post)))) = none := by
  cases ws1 with
  | cons w ws1' =>
    exact matchURL_space_first w _ (hws1 w (List.mem_cons_self _ _))
  | nil =>
    cases ws2 with
    | nil => simp at hne
    | cons w ws2' =>
      exact matchURL_space_after r w _ hr (hws2 w (List.mem_cons_self _ _))

theorem matchURL_before_token (c : Char) (pre body : Str)
    (hpre : ∀ x ∈ pre, x ≠ '(') :
    matchURL (c :: (pre ++ 'u' :: 'r' :: 'l' :: '(' :: body)) = none := by
  unfold matchURL
  have : hasPrefix (c :: (pre ++ 'u' :: 'r' :: 'l' :: '(' :: body)) ['u', 'r', 'l', '(']
      = false := by
    unfold hasPrefix
    match pre, hpre with
    | [], _ => simp [List.isPrefixOf]
    | [_], _ => simp [List.isPrefixOf]
    | [_, _], _ => simp [List.isPrefixOf]
    | a :: b :: d :: rest, h =>
      have hd : d ≠ '(' := h d (by simp)
      simp only [List.cons_append, List.isPrefixOf, Bool.and_eq_false_imp, beq_iff_eq,
        Bool.and_true, beq_eq_false_iff_ne]
      intro _ _ _ h'
      exact hd h'.symm
  simp [this]

theorem replaceAll_matchURL_before_token {σ : Type} (repl : σ → Str → Str × σ) (st : σ)
    (pre body : Str) (hpre : ∀ x ∈ pre, x ≠ '(') :
    replaceAllStringFunc matchURL repl 0 (pre ++ 'u' :: 'r' :: 'l' :: '(' :: body) st =
      (pre ++ (replaceAllStringFunc matchURL repl 0 ('u' :: 'r' :: 'l' :: '(' :: body) st).1,
       (replaceAllStringFunc matchURL repl 0 ('u' :: 'r' :: 'l' :: '(' :: body) st).2) := by
  induction pre with
  | nil => rfl
  | cons c pre ih =>
    have h0 := matchURL_before_token c pre body
      (fun x hx => hpre x (List.mem_cons_of_mem _ hx))
    have ih' := ih (fun x hx => hpre x (List.mem_cons_of_mem _ hx))
    simp only [List.cons_append]
    simp only [replaceAllStringFunc, h0, ih']

theorem replaceAll_matchURL_token {σ : Type} (repl : σ → Str → Str × σ) (st : σ) (body : Str)
    (hbody : ∀ x ∈ body, x ≠ '(')
    (htok : matchURL ('u' :: 'r' :: 'l' :: '(' :: body) = none) :
    replaceAllStringFunc matchURL repl 0 ('u' :: 'r' :: 'l' :: '(' :: body) st =
      ('u' :: 'r' :: 'l' :: '(' :: body, st) := by
  have hb : replaceAllStringFunc matchURL repl 0 body st = (body, st) :=
    replaceAllStringFunc_no_match matchURL repl body st
      (fun t ht => matchURL_eq_none_of_no_paren (fun c hc => hbody c (ht.subset hc)))
  have h1 : matchURL ('r' :: 'l' :: '(' :: body) = none := by
    simp [matchURL, hasPrefix, List.isPrefixOf]
  have h2 : matchURL ('l' :: '(' :: body) = none := by
    simp [matchURL, hasPrefix, List.isPrefixOf]
  have h3 : matchURL ('(' :: body) = none := by
    simp [matchURL, hasPrefix, List.isPrefixOf]
  simp only [replaceAllStringFunc, htok, h1, h2, h3, hb]

/-- C10, counterexample: `url(/bg.png)` is rewritten and its target enqueued,
`url( /bg.png )` is left as it is and nothing is enqueued. -/
theorem rewriteCSSURLs_spaced_url_not_rewritten :
    rewriteCSSURLs goLib exampleMirrorer {} "background:url(/bg.png)".toList
        { scheme := "http".toList, host := "x.test".toList, path := "/s.css".toList } =
      ("background:url('bg.png')".toList,
       { visited := ["http://x.test/bg.png".toList], pending := 1,
         queued := [{ urlStr := "http://x.test/bg.png".toList,
                      parsedURL := { scheme := "http".toList, host := "x.test".toList,
                                     path := "/bg.png".toList },
                      isHTML := false }],
         inFlight := [] }) ∧
    rewriteCSSURLs goLib exampleMirrorer {} "background:url( /bg.png )".toList
        { scheme := "http".toList, host := "x.test".toList, path := "/s.css".toList } =
      ("background:url( /bg.png )".toList, {}) := by
  decide

/-- C9, evaluation at the failing input: on the page
`http://x.test/s.css` the fragment-only token `url(#g)` is rewritten to
`url('s.css')` and the URL `http://x.test/s.css#g` is enqueued. -/
theorem rewriteCSSURLs_fragment_only_rewritten :
    rewriteCSSURLs goLib exampleMirrorer {} "fill:url(#g)".toList
        { scheme := "http".toList, host := "x.test".toList, path := "/s.css".toList } =
      ("fill:url('s.css')".toList,
       { visited := ["http://x.test/s.css#g".toList], pending := 1,
         queued := [{ urlStr := "http://x.test/s.css#g".toList,
                      parsedURL := { scheme := "http".toList, host := "x.test".toList,
                                     path := "/s.css".toList, fragment := "g".toList },
                      isHTML := false }],
         inFlight := [] }) := by
  decide

/-! ### Splitting and joining -/

theorem splitOn_ne_nil (sep : Char) (s : Str) : splitOn sep s ≠ [] := by
  cases s with
  | nil => simp [splitOn]
  | cons c cs =>
    unfold splitOn
    split
    · simp
    · split <;> simp

theorem splitOn_cons_sep (sep : Char) (cs : Str) :
    splitOn sep (sep :: cs) = [] :: splitOn sep cs := by
  rw [splitOn, if_pos rfl]

theorem splitOn_cons_ne (sep c : Char) (cs : Str) (x : Str) (xs : List Str) (h : c ≠ sep)
    (hs : splitOn sep cs = x :: xs) :
    splitOn sep (c :: cs) = (c :: x) :: xs := by
  rw [splitOn, if_neg h, hs]

theorem splitOn_append_sep (sep : Char) (a b : Str) :
    splitOn sep (a ++ sep :: b) = splitOn sep a ++ splitOn sep b := by
  induction a with
  | nil => simp [splitOn]
  | cons c a ih =>
    by_cases h : c = sep
    · subst h
      rw [List.cons_append, splitOn_cons_sep, splitOn_cons_sep, ih, List.cons_append]
    · obtain ⟨x, xs, hx⟩ := List.exists_cons_of_ne_nil (splitOn_ne_nil sep a)
      rw [List.cons_append, splitOn_cons_ne sep c _ x (xs ++ splitOn sep b) h (by rw [ih, hx]; rfl),
        splitOn_cons_ne sep c a x xs h hx]
      rfl

theorem splitOn_of_not_mem (sep : Char) (e : Str) (h : sep ∉ e) : splitOn sep e = [e] := by
  induction e with
  | nil => rfl
  | cons c e ih =>
    have hc : c ≠ sep := fun hc => h (hc ▸ List.mem_cons_self _ _)
    exact splitOn_cons_ne sep c e e [] hc (ih (fun hm => h (List.mem_cons_of_mem _ hm)))

theorem splitOn_joinWith (sep : Char) (l : List Str) (hne : l ≠ [])
    (h : ∀ e ∈ l, sep ∉ e) : splitOn sep (joinWith sep l) = l := by
  induction l with
  | nil => exact absurd rfl hne
  | cons x rest ih =>
    cases rest with
    | nil => exact splitOn_of_not_mem sep x (h x (List.mem_cons_self _ _))
    | cons y rest =>
      rw [joinWith, splitOn_append_sep, splitOn_of_not_mem sep x (h x (List.mem_cons_self _ _)),
        ih (by simp) (fun e he => h e (List.mem_cons_of_mem _ he))]
      rfl

theorem not_mem_of_mem_splitOn (sep : Char) (s e : Str) (he : e ∈ splitOn sep s) : sep ∉ e := by
  induction s generalizing e with
  | nil =>
    simp only [splitOn, List.mem_singleton] at he
    subst he
    simp
  | cons c cs ih =>
    by_cases h : c = sep
    · subst h
      rw [splitOn_cons_sep] at he
      rcases List.mem_cons.mp he with he | he
      · subst he; simp
      · exact ih e he
    · obtain ⟨x, xs, hx⟩ := List.exists_cons_of_ne_nil (splitOn_ne_nil sep cs)
      rw [splitOn_cons_ne sep c cs x xs h hx] at he
      rcases List.mem_cons.mp he with he | he
      · subst he
        intro hm
        rcases List.mem_cons.mp hm with hm | hm
        · exact h hm.symm
        · exact ih x (by rw [hx]; exact List.mem_cons_self _ _) hm
      · exact ih e (by rw [hx]; exact List.mem_cons_of_mem _ he)

theorem mem_of_mem_splitOn (sep : Char) (s e : Str) (he : e ∈ splitOn sep s) :
    ∀ c ∈ e, c ∈ s := by
  induction s generalizing e with
  | nil =>
    simp only [splitOn, List.mem_singleton] at he
    subst he
    simp
  | cons c cs ih =>
    by_cases h : c = sep
    · subst h
      rw [splitOn_cons_sep] at he
      rcases List.mem_cons.mp he with he | he
      · subst he; simp
      · exact fun d hd => List.mem_cons_of_mem _ (ih e he d hd)
    · obtain ⟨x, xs, hx⟩ := List.exists_cons_of_ne_nil (splitOn_ne_nil sep cs)
      rw [splitOn_cons_ne sep c cs x xs h hx] at he
      rcases List.mem_cons.mp he with he | he
      · subst he
        intro d hd
        rcases List.mem_cons.mp hd with hd | hd
        · subst hd; exact List.mem_cons_self _ _
        · exact List.mem_cons_of_mem _ (ih x (by rw [hx]; exact List.mem_cons_self _ _) d hd)
      · exact fun d hd =>
          List.mem_cons_of_mem _ (ih e (by rw [hx]; exact List.mem_cons_of_mem _ he) d hd)

theorem splitOn_append_of_not_mem (sep : Char) (a y : Str) (hy : sep ∉ y) :
    ∃ init l, splitOn sep a = init ++ [l] ∧ splitOn sep (a ++ y) = init ++ [l ++ y] := by
  induction a with
  | nil => exact ⟨[], [], rfl, by simpa using splitOn_of_not_mem sep y hy⟩
  | cons c a ih =>
    obtain ⟨init, l, h1, h2⟩ := ih
    by_cases h : c = sep
    · subst h
      exact ⟨[] :: init, l, by rw [splitOn_cons_sep, h1]; rfl,
        by rw [List.cons_append, splitOn_cons_sep, h2]; rfl⟩
    · cases init with
      | nil =>
        exact ⟨[], c :: l, splitOn_cons_ne sep c a l [] h h1,
          splitOn_cons_ne sep c (a ++ y) (l ++ y) [] h h2⟩
      | cons i is =>
        exact ⟨(c :: i) :: is, l, splitOn_cons_ne sep c a i (is ++ [l]) h h1,
          splitOn_cons_ne sep c (a ++ y) i (is ++ [l ++ y]) h h2⟩

theorem mem_joinWith (sep : Char) (l : List Str) (c : Char) (hc : c ∈ joinWith sep l) :
    c = sep ∨ ∃ e ∈ l, c ∈ e := by
  induction l with
  | nil => simp [joinWith] at hc
  | cons x rest ih =>
    cases rest with
    | nil => exact Or.inr ⟨x, List.mem_cons_self _ _, hc⟩
    | cons y rest =>
      rw [joinWith] at hc
      rcases List.mem_append.mp hc with hc | hc
      · exact Or.inr ⟨x, List.mem_cons_self _ _, hc⟩
      · rcases List.mem_cons.mp hc with hc | hc
        · exact Or.inl hc
        · rcases ih hc with h | ⟨e, he, hce⟩
          · exact Or.inl h
          · exact Or.inr ⟨e, List.mem_cons_of_mem _ he, hce⟩

theorem cleanStep_nil (r : Bool) (out : List Str) : cleanStep r out [] = out := by
  simp [cleanStep]

theorem cleanStep_dot (r : Bool) (out : List Str) : cleanStep r out ['.'] = out := by
  simp [cleanStep]

theorem cleanStep_keep (r : Bool) (out : List Str) (e : Str)
    (h1 : e ≠ []) (h2 : e ≠ ['.']) (h3 : e ≠ dotdot) : cleanStep r out e = e :: out := by
  unfold dotdot at h3
  simp [cleanStep, h1, h2, h3]

theorem cleanStep_normal (r : Bool) (out : List Str) (e : Str) (h : Normal e) :
    cleanStep r out e = e :: out :=
  cleanStep_keep r out e h.1 h.2.1 h.2.2.1

theorem cleanStep_pop (r : Bool) (top : Str) (rest : List Str) (h : top ≠ dotdot) :
    cleanStep r (top :: rest) dotdot = rest := by
  unfold dotdot at h
  simp [cleanStep, dotdot, h]

theorem cleanStep_dotdot_nil (r : Bool) :
    cleanStep r [] dotdot = if r then [] else [dotdot] := by
  simp [cleanStep, dotdot]

theorem cleanStep_dotdot_dotdot (rest : List Str) :
    cleanStep false (dotdot :: rest) dotdot = dotdot :: dotdot :: rest := by
  simp [cleanStep, dotdot]

theorem foldl_cleanStep_filter (r : Bool) (X : List Str) (acc : List Str)
    (h : dotdot ∉ X) :
    X.foldl (cleanStep r) acc = (X.filter keepElem).reverse ++ acc := by
  induction X generalizing acc with
  | nil => rfl
  | cons e X ih =>
    have he : e ≠ dotdot := fun he => h (he ▸ List.mem_cons_self _ _)
    have hX : dotdot ∉ X := fun hm => h (List.mem_cons_of_mem _ hm)
    rw [List.foldl_cons, ih _ hX]
    by_cases h1 : e = []
    · subst h1
      simp [cleanStep_nil, keepElem]
    · by_cases h2 : e = ['.']
      · subst h2
        simp [cleanStep_dot, keepElem]
      · rw [cleanStep_keep r acc e h1 h2 he]
        simp [keepElem, h1, h2]

theorem foldl_cleanStep_normal (r : Bool) (N : List Str) (acc : List Str)
    (h : ∀ e ∈ N, Normal e) : N.foldl (cleanStep r) acc = N.reverse ++ acc := by
  induction N generalizing acc with
  | nil => rfl
  | cons e N ih =>
    rw [List.foldl_cons, cleanStep_normal r acc e (h e (List.mem_cons_self _ _)),
      ih _ (fun x hx => h x (List.mem_cons_of_mem _ hx))]
    simp

theorem foldl_cleanStep_pop (r : Bool) (S acc : List Str) (h : ∀ e ∈ S, e ≠ dotdot) :
    (List.replicate S.length dotdot).foldl (cleanStep r) (S ++ acc) = acc := by
  induction S with
  | nil => rfl
  | cons x S ih =>
    rw [List.length_cons, List.replicate_succ, List.foldl_cons, List.cons_append,
      cleanStep_pop r x _ (h x (List.mem_cons_self _ _))]
    exact ih (fun e he => h e (List.mem_cons_of_mem _ he))

theorem foldl_cleanStep_dotdots (j k : Nat) :
    (List.replicate k dotdot).foldl (cleanStep false) (List.replicate j dotdot) =
      List.replicate (j + k) dotdot := by
  induction k generalizing j with
  | zero => rfl
  | succ k ih =>
    rw [List.replicate_succ, List.foldl_cons]
    cases j with
    | zero =>
      rw [List.replicate_zero, cleanStep_dotdot_nil]
      have := ih 1
      simp only [List.replicate_succ, List.replicate_zero] at this
      simp only [Bool.false_eq_true, if_false, this]
      congr 1
      omega
    | succ j =>
      rw [List.replicate_succ, cleanStep_dotdot_dotdot]
      have := ih (j + 2)
      simp only [List.replicate_succ] at this ⊢
      rw [this]
      have h1 : j + 2 + k = j + 1 + k + 1 := by omega
      have h2 : j + 1 + (k + 1) = j + 1 + k + 1 := by omega
      rw [h1, h2, List.replicate_succ]

theorem foldl_cleanStep_cleanForm (r : Bool) (E : List Str) (h : CleanForm r E) :
    E.foldl (cleanStep r) [] = E.reverse := by
  obtain ⟨k, N, rfl, hk, hN⟩ := h
  rw [List.foldl_append, foldl_cleanStep_normal r N _ hN, List.reverse_append]
  congr 1
  cases r with
  | true => rw [hk rfl]; rfl
  | false =>
    have := foldl_cleanStep_dotdots 0 k
    simp only [List.replicate_zero, Nat.zero_add] at this
    rw [this, List.reverse_replicate]

theorem cleanElems_cleanForm (r : Bool) (E : List Str) (h : CleanForm r E) :
    cleanElems r E = E := by
  rw [cleanElems, foldl_cleanStep_cleanForm r E h, List.reverse_reverse]

/-- The stack of the element loop, read from the bottom, keeps the shape of a
cleaned path. -/
theorem cleanForm_foldl (r : Bool) (X : List Str) (hX : ∀ e ∈ X, '/' ∉ e) (acc : List Str)
    (hacc : CleanForm r acc.reverse) : CleanForm r (X.foldl (cleanStep r) acc).reverse := by
  induction X generalizing acc with
  | nil => exact hacc
  | cons e X ih =>
    rw [List.foldl_cons]
    apply ih (fun x hx => hX x (List.mem_cons_of_mem _ hx))
    have hes : '/' ∉ e := hX e (List.mem_cons_self _ _)
    by_cases h1 : e = []
    · subst h1; rw [cleanStep_nil]; exact hacc
    by_cases h2 : e = ['.']
    · subst h2; rw [cleanStep_dot]; exact hacc
    by_cases h3 : e = dotdot
    · subst h3
      obtain ⟨k, N, hE, hk, hN⟩ := hacc
      cases acc with
      | nil =>
        rw [cleanStep_dotdot_nil]
        cases r with
        | true => exact ⟨0, [], rfl, fun _ => rfl, by simp⟩
        | false => exact ⟨1, [], rfl, by simp, by simp⟩
      | cons top rest =>
        by_cases ht : top = dotdot
        · subst ht
          -- the stack is a run of `..` only
          have hNnil : N = [] := by
            rcases List.eq_nil_or_concat N with hN0 | ⟨N', x, hN'⟩
            · exact hN0
            · exfalso
              subst hN'
              rw [List.reverse_cons, List.concat_eq_append, ← List.append_assoc] at hE
              have := List.append_inj_right' hE rfl
              have hx : x = dotdot := by simpa using this.symm
              exact (hN x (by simp)).2.2.1 hx
          subst hNnil
          cases r with
          | true =>
            have hk0 := hk rfl
            subst hk0
            simp at hE
          | false =>
            rw [cleanStep_dotdot_dotdot]
            refine ⟨k + 1, [], ?_, by simp, by simp⟩
            rw [List.reverse_cons, hE, List.append_nil, List.append_nil,
              ← List.replicate_succ']
        · rw [cleanStep_pop r top rest ht]
          rcases List.eq_nil_or_concat N with hN0 | ⟨N', x, hN'⟩
          · exfalso
            subst hN0
            rw [List.reverse_cons, List.append_nil] at hE
            have hmem : top ∈ List.replicate k dotdot := by
              rw [← hE]; simp
            exact ht (List.eq_of_mem_replicate hmem)
          · subst hN'
            rw [List.reverse_cons, List.concat_eq_append, ← List.append_assoc] at hE
            have h1 := List.append_inj_left' hE rfl
            exact ⟨k, N', h1, hk, fun e he => hN e (by simp [he])⟩
    · rw [cleanStep_keep r acc e h1 h2 h3]
      obtain ⟨k, N, hE, hk, hN⟩ := hacc
      refine ⟨k, N ++ [e], ?_, hk, ?_⟩
      · rw [List.reverse_cons, hE, List.append_assoc]
      · intro x hx
        rcases List.mem_append.mp hx with hx | hx
        · exact hN x hx
        · rw [List.mem_singleton.mp hx]; exact ⟨h1, h2, h3, hes⟩

theorem cleanForm_cleanElems (r : Bool) (X : List Str) (hX : ∀ e ∈ X, '/' ∉ e) :
    CleanForm r (cleanElems r X) :=
  cleanForm_foldl r X hX [] ⟨0, [], rfl, fun _ => rfl, by simp⟩

/-! ### Rendering and cleaning -/

theorem joinWith_cons_eq_append (sep : Char) (e : Str) (rest : List Str) :
    ∃ t, joinWith sep (e :: rest) = e ++ t := by
  cases rest with
  | nil => exact ⟨[], by simp [joinWith]⟩
  | cons y rest => exact ⟨sep :: joinWith sep (y :: rest), by rw [joinWith]⟩

theorem joinWith_append_singleton (sep : Char) (init : List Str) (e : Str) (h : init ≠ []) :
    joinWith sep (init ++ [e]) = joinWith sep init ++ sep :: e := by
  induction init with
  | nil => exact absurd rfl h
  | cons x rest ih =>
    cases rest with
    | nil => simp [joinWith]
    | cons y rest =>
      have := ih (by simp)
      simp only [List.cons_append] at this ⊢
      rw [joinWith, this, joinWith, List.append_assoc]
      rfl

theorem isRooted_append (a b : Str) (h : a ≠ []) : isRooted (a ++ b) = isRooted a := by
  cases a with
  | nil => exact absurd rfl h
  | cons c a => rfl

theorem isRooted_of_not_mem (e : Str) (h : '/' ∉ e) : isRooted e = false := by
  cases e with
  | nil => rfl
  | cons c e =>
    have hc : c ≠ '/' := fun hc => h (hc ▸ List.mem_cons_self _ _)
    simp [isRooted, hc]

theorem isRooted_render (r : Bool) (E : List Str) (h : ∀ e ∈ E, e ≠ [] ∧ '/' ∉ e) :
    isRooted (render r E) = r := by
  cases r with
  | true => rfl
  | false =>
    cases E with
    | nil => rfl
    | cons e rest =>
      obtain ⟨t, ht⟩ := joinWith_cons_eq_append '/' e rest
      have he := h e (List.mem_cons_self _ _)
      simp only [render, Bool.false_eq_true, if_false, reduceCtorEq]
      rw [ht, isRooted_append e t he.1]
      exact isRooted_of_not_mem e he.2

theorem render_ne_nil (r : Bool) (E : List Str) (h : ∀ e ∈ E, e ≠ []) : render r E ≠ [] := by
  cases r with
  | true => simp [render]
  | false =>
    cases E with
    | nil => simp [render]
    | cons e rest =>
      obtain ⟨t, ht⟩ := joinWith_cons_eq_append '/' e rest
      simp only [render, Bool.false_eq_true, if_false, reduceCtorEq]
      rw [ht]
      intro hn
      exact h e (List.mem_cons_self _ _) (List.append_eq_nil.mp hn).1

theorem foldl_splitOn_joinWith (r : Bool) (acc : List Str) (L : List Str)
    (h : ∀ e ∈ L, '/' ∉ e) :
    (splitOn '/' (joinWith '/' L)).foldl (cleanStep r) acc = L.foldl (cleanStep r) acc := by
  cases L with
  | nil => simp [joinWith, splitOn, cleanStep_nil]
  | cons e rest => rw [splitOn_joinWith '/' (e :: rest) (by simp) h]

theorem foldl_splitOn_render (r r' : Bool) (acc : List Str) (E : List Str)
    (h : ∀ e ∈ E, '/' ∉ e) :
    (splitOn '/' (render r E)).foldl (cleanStep r') acc = E.foldl (cleanStep r') acc := by
  cases r with
  | true =>
    simp only [render, if_true]
    rw [splitOn_cons_sep, List.foldl_cons, cleanStep_nil, foldl_splitOn_joinWith r' acc E h]
  | false =>
    cases E with
    | nil => simp [render, splitOn, cleanStep_dot]
    | cons e rest =>
      simp only [render, Bool.false_eq_true, if_false, reduceCtorEq]
      exact foldl_splitOn_joinWith r' acc (e :: rest) h

theorem normal_or_dotdot_of_cleanForm (r : Bool) (E : List Str) (h : CleanForm r E) :
    ∀ e ∈ E, e ≠ [] ∧ e ≠ ['.'] ∧ '/' ∉ e := by
  obtain ⟨k, N, rfl, -, hN⟩ := h
  intro e he
  rcases List.mem_append.mp he with he | he
  · rw [List.eq_of_mem_replicate he]
    exact ⟨by decide, by decide, by decide⟩
  · exact ⟨(hN e he).1, (hN e he).2.1, (hN e he).2.2.2⟩

theorem Clean_of_ne_nil (p : Str) (h : p ≠ []) :
    Clean p = render (isRooted p) (cleanElems (isRooted p) (splitOn '/' p)) := by
  rw [Clean, if_neg h]

theorem Clean_render (r : Bool) (E : List Str) (h : CleanForm r E) :
    Clean (render r E) = render r E := by
  have hE := normal_or_dotdot_of_cleanForm r E h
  rw [Clean_of_ne_nil _ (render_ne_nil r E (fun e he => (hE e he).1)),
    isRooted_render r E (fun e he => ⟨(hE e he).1, (hE e he).2.2⟩), cleanElems,
    foldl_splitOn_render r r [] E (fun e he => (hE e he).2.2),
    foldl_cleanStep_cleanForm r E h, List.reverse_reverse]

theorem Join_pair (a b : Str) (h : a ≠ []) : Join [a, b] = Clean (a ++ '/' :: b) := by
  rw [Join, if_neg h]
  rfl

theorem Clean_append_sep (a b : Str) (h : a ≠ []) :
    Clean (a ++ '/' :: b) =
      render (isRooted a)
        (((splitOn '/' b).foldl (cleanStep (isRooted a))
          ((splitOn '/' a).foldl (cleanStep (isRooted a)) [])).reverse) := by
  rw [Clean_of_ne_nil _ (by simp), isRooted_append a _ h, cleanElems, splitOn_append_sep,
    List.foldl_append]

theorem Join_render (r : Bool) (E : List Str) (b : Str) (h : CleanForm r E) :
    Join [render r E, b] =
      render r (((splitOn '/' b).foldl (cleanStep r) E.reverse).reverse) := by
  have hE := normal_or_dotdot_of_cleanForm r E h
  rw [Join_pair _ _ (render_ne_nil r E (fun e he => (hE e he).1)),
    Clean_append_sep _ _ (render_ne_nil r E (fun e he => (hE e he).1)),
    isRooted_render r E (fun e he => ⟨(hE e he).1, (hE e he).2.2⟩),
    foldl_splitOn_render r r [] E (fun e he => (hE e he).2.2),
    foldl_cleanStep_cleanForm r E h]

theorem cleanForm_append_normal (r : Bool) (E N : List Str) (h : CleanForm r E)
    (hN : ∀ e ∈ N, Normal e) : CleanForm r (E ++ N) := by
  obtain ⟨k, M, rfl, hk, hM⟩ := h
  refine ⟨k, M ++ N, by rw [List.append_assoc], hk, ?_⟩
  intro e he
  rcases List.mem_append.mp he with he | he
  · exact hM e he
  · exact hN e he

theorem cleanForm_dropLast (r : Bool) (E : List Str) (h : CleanForm r E) :
    CleanForm r E.dropLast := by
  obtain ⟨k, N, rfl, hk, hN⟩ := h
  rcases List.eq_nil_or_concat N with hN0 | ⟨N', x, hN'⟩
  · subst hN0
    rw [List.append_nil]
    cases k with
    | zero => exact ⟨0, [], rfl, fun _ => rfl, by simp⟩
    | succ k =>
      refine ⟨k, [], ?_, fun hr => by simpa using hk hr, by simp⟩
      rw [List.replicate_succ', List.dropLast_concat, List.append_nil]
  · subst hN'
    refine ⟨k, N', ?_, hk, fun e he => hN e (by simp [he])⟩
    rw [List.concat_eq_append, ← List.append_assoc, List.dropLast_concat]

/-- What `filepath.Dir` cleans: the path up to and including its last
separator. -/
theorem dirPrefix_append (x y : Str) (hy : '/' ∉ y) :
    ((x ++ '/' :: y).reverse.dropWhile (fun c => c != '/')).reverse = x ++ ['/'] := by
  rw [List.reverse_append, List.reverse_cons, List.append_assoc]
  have h1 : ∀ c ∈ y.reverse, (fun c => c != '/') c = true := by
    intro c hc
    have : c ≠ '/' := fun h => hy (h ▸ List.mem_reverse.mp hc)
    simpa using this
  rw [List.singleton_append, dropWhile_append_stop y.reverse '/' x.reverse h1 (by simp)]
  simp

theorem dirPrefix_of_not_mem (y : Str) (hy : '/' ∉ y) :
    (y.reverse.dropWhile (fun c => c != '/')).reverse = [] := by
  have h1 : ∀ c ∈ y.reverse, (fun c => c != '/') c = true := by
    intro c hc
    have : c ≠ '/' := fun h => hy (h ▸ List.mem_reverse.mp hc)
    simpa using this
  rw [List.dropWhile_eq_nil_iff.mpr h1]
  rfl

theorem Clean_append_slash (a : Str) (h : a ≠ []) : Clean (a ++ ['/']) = Clean a := by
  rw [Clean_append_sep a [] h, Clean_of_ne_nil a h, cleanElems]
  simp [splitOn, cleanStep_nil]

theorem Dir_render (r : Bool) (E : List Str) (h : CleanForm r E) :
    Dir (render r E) = render r E.dropLast := by
  have hE := normal_or_dotdot_of_cleanForm r E h
  unfold Dir
  rcases List.eq_nil_or_concat E with hE0 | ⟨init, e, hE'⟩
  · subst hE0
    cases r <;> decide
  · subst hE'
    rw [List.concat_eq_append] at hE h ⊢
    have he : '/' ∉ e := (hE e (by simp)).2.2
    have hinit : CleanForm r init := by
      have := cleanForm_dropLast r _ h
      rwa [List.dropLast_concat] at this
    rw [List.dropLast_concat]
    cases init with
    | nil =>
      cases r with
      | true =>
        have : render true ([] ++ [e]) = [] ++ '/' :: e := rfl
        rw [this, dirPrefix_append [] e he]
        decide
      | false =>
        have : render false ([] ++ [e]) = e := rfl
        rw [this, dirPrefix_of_not_mem e he]
        decide
    | cons i is =>
      have hne : render r (i :: is) ≠ [] :=
        render_ne_nil r _ (fun x hx => (hE x (List.mem_append_left _ hx)).1)
      have hr : render r (i :: is ++ [e]) = render r (i :: is) ++ '/' :: e := by
        cases r with
        | true =>
          simp only [render, if_true]
          rw [joinWith_append_singleton '/' (i :: is) e (by simp)]
          rfl
        | false =>
          simp only [render, Bool.false_eq_true, if_false, List.cons_append, reduceCtorEq]
          exact joinWith_append_singleton '/' (i :: is) e (by simp)
      rw [hr, dirPrefix_append _ e he, Clean_append_slash _ hne, Clean_render r _ hinit]

/-! ### The local path -/

theorem urlToFilePath_eq (m : Mirrorer) (u : URL) :
    urlToFilePath m u = Join [m.outputDir, trimPrefix (localName u.path) ['/']] := rfl

theorem Join_root (root p : Str) (hroot : root ≠ []) (hp : ¬ hasDotDot p) :
    Join [root, p] =
      render (isRooted root)
        (cleanElems (isRooted root) (splitOn '/' root) ++ (splitOn '/' p).filter keepElem) := by
  rw [Join_pair root p hroot, Clean_append_sep root p hroot, foldl_cleanStep_filter _ _ _ hp,
    List.reverse_append, List.reverse_reverse, cleanElems]

theorem trimPrefix_slash_cons (x : Str) : trimPrefix ('/' :: x) ['/'] = x := by
  simp [trimPrefix, hasPrefix, List.isPrefixOf]

theorem trimPrefix_slash_of_not_rooted (p : Str) (h : isRooted p = false) :
    trimPrefix p ['/'] = p := by
  cases p with
  | nil => rfl
  | cons c p =>
    have hc : c ≠ '/' := by
      intro hc
      subst hc
      simp [isRooted] at h
    simp [trimPrefix, hasPrefix, List.isPrefixOf, hc.symm]

theorem trimPrefix_slash_cases (p : Str) :
    (∃ x, p = '/' :: x ∧ trimPrefix p ['/'] = x) ∨ (isRooted p = false ∧ trimPrefix p ['/'] = p) := by
  cases p with
  | nil => exact Or.inr ⟨rfl, rfl⟩
  | cons c p =>
    by_cases hc : c = '/'
    · subst hc
      exact Or.inl ⟨p, rfl, trimPrefix_slash_cons p⟩
    · have : isRooted (c :: p) = false := by simp [isRooted, hc]
      exact Or.inr ⟨this, trimPrefix_slash_of_not_rooted _ this⟩

theorem trimPrefix_slash_elems (p : Str) :
    (hasDotDot (trimPrefix p ['/']) → hasDotDot p) ∧
    (splitOn '/' (trimPrefix p ['/'])).filter keepElem = (splitOn '/' p).filter keepElem := by
  rcases trimPrefix_slash_cases p with ⟨x, hx, ht⟩ | ⟨-, ht⟩
  · rw [ht, hx, hasDotDot, hasDotDot, splitOn_cons_sep]
    exact ⟨fun h => List.mem_cons_of_mem _ h, by simp [List.filter, keepElem]⟩
  · rw [ht]
    exact ⟨id, rfl⟩

theorem hasSuffix_slash (p : Str) (h : hasSuffix p ['/'] = true) : ∃ q, p = q ++ ['/'] := by
  unfold hasSuffix at h
  cases hr : p.reverse with
  | nil => rw [hr] at h; simp [List.isPrefixOf] at h
  | cons c rest =>
    rw [hr] at h
    simp only [List.reverse_cons, List.reverse_nil, List.nil_append, List.isPrefixOf,
      Bool.and_true, beq_iff_eq] at h
    refine ⟨rest.reverse, ?_⟩
    have := congrArg List.reverse hr
    rw [List.reverse_reverse, List.reverse_cons] at this
    rw [this, h]

theorem Ext_append_index (x : Str) : Ext (x ++ "index.html".toList) = ".html".toList := by
  simp [Ext, extScan]

theorem not_hasDotDot_append_html (p : Str) (h : ¬ hasDotDot p) :
    ¬ hasDotDot (p ++ ".html".toList) := by
  obtain ⟨init, l, h1, h2⟩ := splitOn_append_of_not_mem '/' p ".html".toList (by decide)
  unfold hasDotDot at h ⊢
  rw [h1] at h
  rw [h2]
  intro hm
  rcases List.mem_append.mp hm with hm | hm
  · exact h (List.mem_append_left _ hm)
  · have hl := congrArg List.length (List.mem_singleton.mp hm)
    simp [dotdot] at hl

theorem keepElem_filter_mem (X : List Str) (hX : ∀ e ∈ X, '/' ∉ e) (hdd : dotdot ∉ X) :
    ∀ e ∈ X.filter keepElem, Normal e := by
  intro e he
  obtain ⟨hm, hk⟩ := List.mem_filter.mp he
  simp only [keepElem, Bool.and_eq_true, bne_iff_ne, ne_eq] at hk
  exact ⟨hk.1, hk.2, fun h => hdd (h ▸ hm), hX e hm⟩

/-- The name built for a path that ends in a separator: the kept elements of
the path followed by `index.html`. -/
theorem Join_index (P : Str) (hP : P ≠ []) (hdd : ¬ hasDotDot P) :
    Join [P, "index.html".toList] =
      render (isRooted P) ((splitOn '/' P).filter keepElem ++ ["index.html".toList]) := by
  rw [Join_pair P _ hP, Clean_append_sep P _ hP,
    splitOn_of_not_mem '/' "index.html".toList (by decide),
    foldl_cleanStep_filter _ _ _ hdd, List.foldl_cons, List.foldl_nil,
    cleanStep_keep _ _ _ (by decide) (by decide) (by decide)]
  simp

theorem render_append_index (r : Bool) (F : List Str) :
    ∃ x, render r (F ++ ["index.html".toList]) = x ++ "index.html".toList := by
  cases F with
  | nil => cases r <;> [exact ⟨[], rfl⟩; exact ⟨['/'], rfl⟩]
  | cons f F =>
    cases r with
    | true =>
      refine ⟨'/' :: joinWith '/' (f :: F) ++ ['/'], ?_⟩
      simp only [render, if_true]
      rw [joinWith_append_singleton '/' (f :: F) _ (by simp)]
      simp
    | false =>
      refine ⟨joinWith '/' (f :: F) ++ ['/'], ?_⟩
      simp only [render, Bool.false_eq_true, if_false, List.cons_append, reduceCtorEq]
      have := joinWith_append_singleton '/' (f :: F) "index.html".toList (by simp)
      simp only [List.cons_append] at this
      rw [this]
      simp

theorem splitOn_render_filter (r : Bool) (E : List Str)
    (hE : ∀ e ∈ E, e ≠ [] ∧ e ≠ ['.'] ∧ '/' ∉ e) :
    (splitOn '/' (render r E)).filter keepElem = E ∧
    ∀ e ∈ splitOn '/' (render r E), e = [] ∨ e = ['.'] ∨ e ∈ E := by
  have hfilter : E.filter keepElem = E := by
    apply List.filter_eq_self.mpr
    intro e he
    simp [keepElem, (hE e he).1, (hE e he).2.1]
  cases E with
  | nil => cases r <;> exact ⟨by decide, by decide⟩
  | cons e rest =>
    have hs := splitOn_joinWith '/' (e :: rest) (by simp) (fun x hx => (hE x hx).2.2)
    cases r with
    | true =>
      simp only [render, if_true]
      rw [splitOn_cons_sep, hs]
      refine ⟨?_, ?_⟩
      · rw [List.filter_cons_of_neg (by simp [keepElem]), hfilter]
      · intro x hx
        rcases List.mem_cons.mp hx with hx | hx
        · exact Or.inl hx
        · exact Or.inr (Or.inr hx)
    | false =>
      simp only [render, Bool.false_eq_true, if_false, reduceCtorEq]
      rw [hs]
      exact ⟨hfilter, fun x hx => Or.inr (Or.inr hx)⟩

/-- The elements of the name that `urlToFilePath` and the specification's
rules build from a path without `..`: both have the same kept elements, and
neither has a `..` element. -/
theorem localName_specName (P : Str) (hdd : ¬ hasDotDot P) :
    ¬ hasDotDot (localName P) ∧ ¬ hasDotDot (specName P) ∧
    (splitOn '/' (localName P)).filter keepElem = (splitOn '/' (specName P)).filter keepElem := by
  by_cases h1 : P = [] ∨ P = ['/']
  · rcases h1 with h1 | h1 <;> subst h1 <;> decide
  · have hP : P ≠ [] := fun h => h1 (Or.inl h)
    by_cases h2 : hasSuffix P ['/'] = true
    · obtain ⟨q, hq⟩ := hasSuffix_slash P h2
      have hcode : localName P =
          render (isRooted P) ((splitOn '/' P).filter keepElem ++ ["index.html".toList]) := by
        obtain ⟨x, hx⟩ := render_append_index (isRooted P) ((splitOn '/' P).filter keepElem)
        unfold localName
        simp only [h1, if_false, h2, if_true]
        rw [Join_index P hP hdd, hx, Ext_append_index]
        simp
      have hspec : specName P = q ++ '/' :: "index.html".toList := by
        unfold specName
        simp only [h1, if_false, h2, if_true]
        rw [Ext_append_index, hq]
        simp
      have hsplitP : splitOn '/' P = splitOn '/' q ++ [[]] := by
        rw [hq]
        exact splitOn_append_sep '/' q []
      have hq' : dotdot ∉ splitOn '/' q := by
        intro hm
        apply hdd
        unfold hasDotDot
        rw [hsplitP]
        exact List.mem_append_left _ hm
      have hN : ∀ e ∈ (splitOn '/' P).filter keepElem ++ ["index.html".toList],
          e ≠ [] ∧ e ≠ ['.'] ∧ '/' ∉ e := by
        intro e he
        rcases List.mem_append.mp he with he | he
        · have := keepElem_filter_mem _ (fun x hx => not_mem_of_mem_splitOn '/' P x hx) hdd e he
          exact ⟨this.1, this.2.1, this.2.2.2⟩
        · rw [List.mem_singleton.mp he]
          exact ⟨by decide, by decide, by decide⟩
      obtain ⟨hf, hmem⟩ := splitOn_render_filter (isRooted P) _ hN
      have hspecsplit : splitOn '/' (specName P) = splitOn '/' q ++ ["index.html".toList] := by
        rw [hspec, splitOn_append_sep, splitOn_of_not_mem '/' "index.html".toList (by decide)]
      refine ⟨?_, ?_, ?_⟩
      · rw [hcode]
        intro hm
        rcases hmem _ hm with h | h | h
        · exact absurd h (by decide)
        · exact absurd h (by decide)
        · rcases List.mem_append.mp h with h | h
          · exact hdd (List.mem_filter.mp h).1
          · exact absurd (List.mem_singleton.mp h) (by decide)
      · unfold hasDotDot
        rw [hspecsplit]
        intro hm
        rcases List.mem_append.mp hm with h | h
        · exact hq' h
        · exact absurd (List.mem_singleton.mp h) (by decide)
      · have f1 : List.filter keepElem [([] : Str)] = [] := by decide
        have f2 : List.filter keepElem ["index.html".toList] = ["index.html".toList] := by
          decide
        rw [hcode, hf, hspecsplit, hsplitP, List.filter_append, List.filter_append, f1, f2,
          List.append_nil]
    · have hcode : localName P = if Ext P = [] then P ++ ".html".toList else P := by
        unfold localName
        simp only [h1, if_false, h2, Bool.false_eq_true]
      have hspec : specName P = if Ext P = [] then P ++ ".html".toList else P := by
        unfold specName
        simp only [h1, if_false, h2, Bool.false_eq_true]
      rw [hcode, hspec]
      refine ⟨?_, ?_, rfl⟩ <;>
      · split
        · exact not_hasDotDot_append_html P hdd
        · exact hdd

/-- The file path of a URL whose path has no `..` element, under a non-empty
output directory: the cleaned elements of the directory followed by the kept
elements of the name. -/
theorem urlToFilePath_render (m : Mirrorer) (u : URL) (hroot : m.outputDir ≠ [])
    (hdd : ¬ hasDotDot u.path) :
    urlToFilePath m u =
      render (isRooted m.outputDir)
        (cleanElems (isRooted m.outputDir) (splitOn '/' m.outputDir) ++
          (splitOn '/' (localName u.path)).filter keepElem) ∧
    ∀ e ∈ (splitOn '/' (localName u.path)).filter keepElem, Normal e := by
  obtain ⟨h1, -, -⟩ := localName_specName u.path hdd
  obtain ⟨h2, h3⟩ := trimPrefix_slash_elems (localName u.path)
  refine ⟨?_, ?_⟩
  · rw [urlToFilePath_eq, Join_root _ _ hroot (fun h => h1 (h2 h)), h3]
  · exact keepElem_filter_mem _ (fun x hx => not_mem_of_mem_splitOn '/' _ x hx) h1

/-- C1, as amended: for a non-empty output root and a URL whose path has no
`..` element, `urlToFilePath` equals the rules (1) to (5) of the specification
applied in order. -/
theorem urlToFilePath_follows_rules (m : Mirrorer) (u : URL) (hroot : m.outputDir ≠ [])
    (hdd : ¬ hasDotDot u.path) :
    urlToFilePath m u = toLocalPath m.outputDir u.path := by
  obtain ⟨h1, h1', he⟩ := localName_specName u.path hdd
  obtain ⟨h2, h3⟩ := trimPrefix_slash_elems (localName u.path)
  obtain ⟨h2', h3'⟩ := trimPrefix_slash_elems (specName u.path)
  rw [urlToFilePath_eq, toLocalPath, Join_root _ _ hroot (fun h => h1 (h2 h)),
    Join_root _ _ hroot (fun h => h1' (h2' h)), h3, h3', he]

/-- C1, witness: the path `/docs/` under the root `mirror`. -/
theorem urlToFilePath_follows_rules_witness :
    urlToFilePath exampleMirrorer { path := "/docs/".toList } = "mirror/docs/index.html".toList ∧
    toLocalPath "mirror".toList "/docs/".toList = "mirror/docs/index.html".toList :=
  ⟨by decide,
   (urlToFilePath_follows_rules exampleMirrorer { path := "/docs/".toList }
      (by decide) (by decide)) ▸ (by decide)⟩

/-- C1, counterexample: for the path `/../` under the root `mirror` the code
returns `mirror/index.html` (its `path.Join` drops the `..` at the root of the
URL path) while the rules give `index.html`; and for the path `//` under the
empty root the code returns `index.html` while the rules give `/index.html`. -/
theorem urlToFilePath_dotdot_differs :
    urlToFilePath exampleMirrorer { path := "/../".toList } = "mirror/index.html".toList ∧
    toLocalPath "mirror".toList "/../".toList = "index.html".toList ∧
    urlToFilePath { exampleMirrorer with outputDir := [] } { path := "//".toList }
      = "index.html".toList ∧
    toLocalPath [] "//".toList = "/index.html".toList := by decide

/-- Containment where it does hold: for a non-empty output root and a URL
whose path has no `..` element, the path `urlToFilePath` returns lies under
the output root. -/
theorem urlToFilePath_under_root (m : Mirrorer) (u : URL) (hroot : m.outputDir ≠ [])
    (hdd : ¬ hasDotDot u.path) :
    liesUnder m.outputDir (urlToFilePath m u) = true := by
  obtain ⟨hf, hA⟩ := urlToFilePath_render m u hroot hdd
  have hR : CleanForm (isRooted m.outputDir)
      (cleanElems (isRooted m.outputDir) (splitOn '/' m.outputDir)) :=
    cleanForm_cleanElems _ _ (fun e he => not_mem_of_mem_splitOn '/' _ e he)
  have hRA := cleanForm_append_normal _ _ _ hR hA
  have hclean : Clean m.outputDir = render (isRooted m.outputDir)
      (cleanElems (isRooted m.outputDir) (splitOn '/' m.outputDir)) := Clean_of_ne_nil _ hroot
  have e1 := normal_or_dotdot_of_cleanForm _ _ hR
  have e2 := normal_or_dotdot_of_cleanForm _ _ hRA
  unfold liesUnder pathElems
  rw [hclean, hf, (splitOn_render_filter _ _ e1).1, (splitOn_render_filter _ _ e2).1,
    isRooted_render _ _ (fun e he => ⟨(e1 e he).1, (e1 e he).2.2⟩),
    isRooted_render _ _ (fun e he => ⟨(e2 e he).1, (e2 e he).2.2⟩)]
  simp only [beq_self_eq_true, Bool.true_and, List.drop_left, Bool.and_eq_true,
    Bool.not_eq_true', List.contains_eq_any_beq, List.any_eq_false, beq_iff_eq]
  refine ⟨?_, ?_⟩
  · rw [List.isPrefixOf_iff_prefix]
    exact List.prefix_append _ _
  · intro x hx h
    exact (hA x hx).2.2.1 h.symm

/-- An instance of the containment: the path `/a/b` under the root `mirror`. -/
theorem urlToFilePath_under_root_witness :
    liesUnder "mirror".toList (urlToFilePath exampleMirrorer { path := "/a/b".toList }) = true ∧
    urlToFilePath exampleMirrorer { path := "/a/b".toList } = "mirror/a/b.html".toList :=
  ⟨urlToFilePath_under_root exampleMirrorer { path := "/a/b".toList } (by decide) (by decide),
   by decide⟩

/-- C7, evaluation at the failing input: a run seeded with
`http://x.test/a/../../b` and the output root `mirror` starts a worker for the
URL path `/a/../../b`, and `urlToFilePath` maps it to `b.html`, which is not
under `mirror`; the URL path `/../../etc/x` is mapped to `../etc/x.html`.  The
same reference met as the relative reference `/a/../../b` is resolved to `/b`
by `downloadURL` first and is mapped to `mirror/b.html`, under the root. -/
theorem urlToFilePath_escapes_root :
    (NewMirrorer goLib "http://x.test/a/../../b".toList "mirror".toList).map
        (fun m => (Start goLib m (goLib.string m.baseURL) true).map
          (fun s => s.queued.map
            (fun t => (t.parsedURL.path, urlToFilePath m t.parsedURL,
              liesUnder m.outputDir (urlToFilePath m t.parsedURL))))) =
      some (some [("/a/../../b".toList, "b.html".toList, false)]) ∧
    urlToFilePath exampleMirrorer { path := "/../../etc/x".toList } = "../etc/x.html".toList ∧
    liesUnder "mirror".toList (urlToFilePath exampleMirrorer { path := "/../../etc/x".toList })
      = false ∧
    (downloadURL goLib exampleMirrorer {} "/a/../../b".toList false).queued.map
        (fun t => (t.parsedURL.path, urlToFilePath exampleMirrorer t.parsedURL,
          liesUnder "mirror".toList (urlToFilePath exampleMirrorer t.parsedURL))) =
      [("/b".toList, "mirror/b.html".toList, true)] := by decide

/-! ### `filepath.Rel` on cleaned paths -/

theorem relLoop_append_same (c bs ts : List Str) :
    relLoop (c ++ bs) (c ++ ts) = relLoop bs ts := by
  induction c with
  | nil => rfl
  | cons x c ih => rw [List.cons_append, List.cons_append, relLoop, if_pos rfl, ih]

theorem relLoop_spec (bs ts : List Str) :
    ∃ c, bs = c ++ (relLoop bs ts).1 ∧ ts = c ++ (relLoop bs ts).2.1 := by
  induction bs generalizing ts with
  | nil => exact ⟨[], by simp [relLoop], by simp [relLoop]⟩
  | cons b bs ih =>
    cases ts with
    | nil => exact ⟨[], by simp [relLoop], by simp [relLoop]⟩
    | cons t ts =>
      by_cases h : b = t
      · subst h
        obtain ⟨c, h1, h2⟩ := ih ts
        refine ⟨b :: c, ?_, ?_⟩
        · rw [relLoop, if_pos rfl, List.cons_append, ← h1]
        · rw [relLoop, if_pos rfl, List.cons_append, ← h2]
      · exact ⟨[], by rw [relLoop, if_neg h]; rfl, by rw [relLoop, if_neg h]; rfl⟩

theorem getLast?_ne_nil_elem (E : List Str) (h : ∀ e ∈ E, e ≠ []) : E.getLast? ≠ some [] := by
  intro hl
  exact h [] (List.mem_of_getLast?_eq_some hl) rfl

theorem relElems_of_last (els : List Str) (p : Str) (hs : splitOn '/' p = els)
    (h : els.getLast? ≠ some []) : relElems p = els := by
  unfold relElems
  simp only [hs, h, if_false]

theorem relElems_render_true (E : List Str) (h : ∀ e ∈ E, e ≠ [] ∧ '/' ∉ e) :
    relElems (render true E) = [] :: E := by
  cases E with
  | nil => decide
  | cons e rest =>
    apply relElems_of_last
    · simp only [render, if_true]
      rw [splitOn_cons_sep, splitOn_joinWith '/' (e :: rest) (by simp) (fun x hx => (h x hx).2)]
    · rw [List.getLast?_cons_cons]
      exact getLast?_ne_nil_elem _ (fun x hx => (h x hx).1)

theorem relElems_render_false (E : List Str) (hne : E ≠ []) (h : ∀ e ∈ E, e ≠ [] ∧ '/' ∉ e) :
    relElems (render false E) = E := by
  apply relElems_of_last
  · simp only [render, Bool.false_eq_true, if_false, hne]
    exact splitOn_joinWith '/' E hne (fun x hx => (h x hx).2)
  · exact getLast?_ne_nil_elem _ (fun x hx => (h x hx).1)

theorem render_eq_dot (r : Bool) (E : List Str) (h : ∀ e ∈ E, e ≠ [] ∧ e ≠ ['.'] ∧ '/' ∉ e) :
    render r E = ['.'] ↔ r = false ∧ E = [] := by
  constructor
  · intro hd
    cases r with
    | true => simp [render] at hd
    | false =>
      refine ⟨rfl, ?_⟩
      by_contra hne
      have hs := splitOn_joinWith '/' E hne (fun x hx => (h x hx).2.2)
      simp only [render, Bool.false_eq_true, if_false, hne] at hd
      rw [hd] at hs
      have : ['.'] ∈ E := by rw [← hs]; decide
      exact (h _ this).2.1 rfl
  · rintro ⟨rfl, rfl⟩
    rfl

/-- The elements `Rel` walks over on the base side. -/
theorem relElems_base (r : Bool) (E : List Str) (h : ∀ e ∈ E, e ≠ [] ∧ e ≠ ['.'] ∧ '/' ∉ e) :
    relElems (if render r E = ['.'] then [] else render r E) =
      (if r then [[]] else []) ++ E ∧
    isRooted (if render r E = ['.'] then [] else render r E) = r := by
  have h' : ∀ e ∈ E, e ≠ [] ∧ '/' ∉ e := fun e he => ⟨(h e he).1, (h e he).2.2⟩
  by_cases hd : render r E = ['.']
  · obtain ⟨rfl, rfl⟩ := (render_eq_dot r E h).mp hd
    exact ⟨by decide, by decide⟩
  · rw [if_neg hd]
    refine ⟨?_, isRooted_render r E h'⟩
    cases r with
    | true => exact relElems_render_true E h'
    | false =>
      have hne : E ≠ [] := fun hE => hd ((render_eq_dot false E h).mpr ⟨rfl, hE⟩)
      exact relElems_render_false E hne h'

/-- The elements `Rel` walks over on the target side. -/
theorem relElems_targ (r : Bool) (E : List Str) (h : ∀ e ∈ E, e ≠ [] ∧ e ≠ ['.'] ∧ '/' ∉ e) :
    relElems (render r E) =
      (if r then [[]] else []) ++ (if r = false ∧ E = [] then [['.']] else E) := by
  have h' : ∀ e ∈ E, e ≠ [] ∧ '/' ∉ e := fun e he => ⟨(h e he).1, (h e he).2.2⟩
  cases r with
  | true => simpa using relElems_render_true E h'
  | false =>
    by_cases hE : E = []
    · subst hE; decide
    · simpa [hE] using relElems_render_false E hE h'

theorem cleanForm_dotdots_append (r : Bool) (j : Nat) (hj : r = true → j = 0) (N : List Str)
    (hN : ∀ e ∈ N, Normal e) : CleanForm r (List.replicate j dotdot ++ N) :=
  ⟨j, N, rfl, hj, hN⟩

/-- Relative path, then join: `Rel` followed by `Join` gives the target back,
for a base and a target
that share their leading run of `..` and where the base has only normal
elements after that run. -/
theorem Rel_Join_render (r : Bool) (j : Nat) (hj : r = true → j = 0) (DR TR : List Str)
    (hDR : ∀ e ∈ DR, Normal e) (hT : CleanForm r (List.replicate j dotdot ++ TR)) :
    ∃ rel, Rel (render r (List.replicate j dotdot ++ DR))
        (render r (List.replicate j dotdot ++ TR)) = some rel ∧
      Join [render r (List.replicate j dotdot ++ DR), rel] =
        render r (List.replicate j dotdot ++ TR) ∧
      ∀ c ∈ rel, c = '.' ∨ c = '/' ∨ ∃ e ∈ TR, c ∈ e := by
  have hD : CleanForm r (List.replicate j dotdot ++ DR) := cleanForm_dotdots_append r j hj DR hDR
  have eD := normal_or_dotdot_of_cleanForm _ _ hD
  have eT := normal_or_dotdot_of_cleanForm _ _ hT
  have hTR : ∀ e ∈ TR, '/' ∉ e := fun e he => (eT e (List.mem_append_right _ he)).2.2
  unfold Rel
  simp only [Clean_render r _ hD, Clean_render r _ hT]
  by_cases hTD : render r (List.replicate j dotdot ++ TR) = render r (List.replicate j dotdot ++ DR)
  · refine ⟨['.'], by rw [if_pos hTD], ?_, ?_⟩
    · rw [Join_render r _ _ hD, hTD]
      simp [splitOn, cleanStep_dot]
    · intro c hc
      exact Or.inl (List.mem_singleton.mp hc)
  · rw [if_neg hTD]
    obtain ⟨hb1, hb2⟩ := relElems_base r _ eD
    have ht1 := relElems_targ r _ eT
    have hroot : (isRooted (if render r (List.replicate j dotdot ++ DR) = ['.'] then []
        else render r (List.replicate j dotdot ++ DR)) !=
        isRooted (render r (List.replicate j dotdot ++ TR))) = false := by
      rw [hb2, isRooted_render r _ (fun e he => ⟨(eT e he).1, (eT e he).2.2⟩)]
      simp
    simp only [hroot, Bool.false_eq_true, if_false, hb1, ht1]
    -- the remaining target elements, with the `.` of an empty relative target
    obtain ⟨TR2, hTR2, hloop, hmemTR2⟩ : ∃ TR2 : List Str,
        (TR2 = TR ∨ (TR2 = [['.']] ∧ j = 0 ∧ TR = [])) ∧
        relLoop ((if r = true then [[]] else []) ++ (List.replicate j dotdot ++ DR))
          ((if r = true then [[]] else []) ++
            (if r = false ∧ List.replicate j dotdot ++ TR = [] then [['.']]
              else List.replicate j dotdot ++ TR)) = relLoop DR TR2 ∧
        ∀ e ∈ TR2, '/' ∉ e := by
      by_cases hcase : r = false ∧ List.replicate j dotdot ++ TR = []
      · obtain ⟨hr, hnil⟩ := hcase
        obtain ⟨hj0, hTR0⟩ := List.append_eq_nil.mp hnil
        have hj0' : j = 0 := by
          cases j with
          | zero => rfl
          | succ j => simp [List.replicate_succ] at hj0
        subst hr hj0' hTR0
        refine ⟨[['.']], Or.inr ⟨rfl, rfl, rfl⟩, by simp, ?_⟩
        intro e he
        rw [List.mem_singleton.mp he]
        decide
      · refine ⟨TR, Or.inl rfl, ?_, hTR⟩
        rw [if_neg hcase, relLoop_append_same, relLoop_append_same]
    rw [hloop]
    obtain ⟨c, hc1, hc2⟩ := relLoop_spec DR TR2
    generalize hloopres : relLoop DR TR2 = res at hc1 hc2
    obtain ⟨bs, ts, broke⟩ := res
    simp only at hc1 hc2 ⊢
    have hbs : ∀ e ∈ bs, Normal e := fun e he => hDR e (hc1 ▸ List.mem_append_right _ he)
    have hcn : ∀ e ∈ c, Normal e := fun e he => hDR e (hc1 ▸ List.mem_append_left _ he)
    have hhead : (broke && bs.head? == some ['.', '.']) = false := by
      cases bs with
      | nil => simp
      | cons b bs =>
        have : b ≠ ['.', '.'] := (hbs b (List.mem_cons_self _ _)).2.2.1
        simp [this]
    simp only [hhead, Bool.false_eq_true, if_false]
    have hts : ∀ e ∈ ts, '/' ∉ e := fun e he => hmemTR2 e (hc2 ▸ List.mem_append_right _ he)
    have hrelsl : ∀ e ∈ List.replicate bs.length ['.', '.'] ++ ts, '/' ∉ e := by
      intro e he
      rcases List.mem_append.mp he with he | he
      · rw [List.eq_of_mem_replicate he]; decide
      · exact hts e he
    refine ⟨_, rfl, ?_, ?_⟩
    · rw [Join_render r _ _ hD, foldl_splitOn_joinWith r _ _ hrelsl, List.foldl_append]
      have hpop : (List.replicate bs.length ['.', '.']).foldl (cleanStep r)
          (List.replicate j dotdot ++ DR).reverse = (List.replicate j dotdot ++ c).reverse := by
        have := foldl_cleanStep_pop r bs.reverse (List.replicate j dotdot ++ c).reverse
          (fun e he => (hbs e (List.mem_reverse.mp he)).2.2.1)
        rw [List.length_reverse] at this
        rw [← this, hc1]
        simp [dotdot]
      rw [hpop]
      have hUc : CleanForm r (List.replicate j dotdot ++ c) :=
        cleanForm_dotdots_append r j hj c hcn
      rw [← foldl_cleanStep_cleanForm r _ hUc, ← List.foldl_append]
      rcases hTR2 with hTR2 | ⟨hTR2, hj0, hTR0⟩
      · rw [List.append_assoc, ← hc2, hTR2, foldl_cleanStep_cleanForm r _ hT,
          List.reverse_reverse]
      · subst hj0 hTR0
        rw [hTR2] at hc2
        have hc0 : c = [] := by
          cases c with
          | nil => rfl
          | cons x c =>
            exfalso
            have hx : x = ['.'] := by
              have := List.head_eq_of_cons_eq hc2
              exact this.symm
            exact (hcn x (List.mem_cons_self _ _)).2.1 hx
        subst hc0
        rw [List.nil_append] at hc2
        rw [← hc2]
        simp [cleanStep_dot]
    · intro x hx
      rcases mem_joinWith '/' _ x hx with hx | ⟨e, he, hxe⟩
      · exact Or.inr (Or.inl hx)
      · rcases List.mem_append.mp he with he | he
        · rw [List.eq_of_mem_replicate he] at hxe
          simp only [List.mem_cons, List.mem_singleton, List.not_mem_nil, or_false, or_self] at hxe
          exact Or.inl hxe
        · have he2 : e ∈ TR2 := hc2 ▸ List.mem_append_right _ he
          rcases hTR2 with hTR2 | ⟨hTR2, -, -⟩
          · exact Or.inr (Or.inr ⟨e, hTR2 ▸ he2, hxe⟩)
          · rw [hTR2, List.mem_singleton] at he2
            rw [he2] at hxe
            exact Or.inl (List.mem_singleton.mp hxe)

/-! ### Characters of the computed paths -/

theorem mem_foldl_cleanStep (r : Bool) (X acc : List Str) (e : Str)
    (he : e ∈ X.foldl (cleanStep r) acc) : e ∈ acc ∨ e ∈ X := by
  induction X generalizing acc with
  | nil => exact Or.inl he
  | cons x X ih =>
    rw [List.foldl_cons] at he
    rcases ih _ he with h | h
    · have : e ∈ acc ∨ e = x := by
        unfold cleanStep at h
        split at h
        · exact Or.inl h
        · split at h
          · split at h
            · split at h
              · simp at h
              · exact Or.inr (List.mem_singleton.mp h)
            · split at h
              · split at h
                · exact Or.inl h
                · rcases List.mem_cons.mp h with h | h
                  · exact Or.inr h
                  · exact Or.inl h
              · exact Or.inl (List.mem_cons_of_mem _ h)
          · rcases List.mem_cons.mp h with h | h
            · exact Or.inr h
            · exact Or.inl h
      rcases this with h | h
      · exact Or.inl h
      · exact Or.inr (h ▸ List.mem_cons_self _ _)
    · exact Or.inr (List.mem_cons_of_mem _ h)

theorem mem_cleanElems (r : Bool) (X : List Str) (e : Str) (he : e ∈ cleanElems r X) : e ∈ X := by
  unfold cleanElems at he
  rcases mem_foldl_cleanStep r X [] e (List.mem_reverse.mp he) with h | h
  · simp at h
  · exact h

theorem mem_render (r : Bool) (E : List Str) (c : Char) (hc : c ∈ render r E) :
    c = '/' ∨ c = '.' ∨ ∃ e ∈ E, c ∈ e := by
  unfold render at hc
  split at hc
  · rcases List.mem_cons.mp hc with h | h
    · exact Or.inl h
    · rcases mem_joinWith '/' E c h with h | h
      · exact Or.inl h
      · exact Or.inr (Or.inr h)
  · split at hc
    · exact Or.inr (Or.inl (List.mem_singleton.mp hc))
    · rcases mem_joinWith '/' E c hc with h | h
      · exact Or.inl h
      · exact Or.inr (Or.inr h)

theorem mem_Clean (p : Str) (c : Char) (hc : c ∈ Clean p) : c = '/' ∨ c = '.' ∨ c ∈ p := by
  unfold Clean at hc
  split at hc
  · exact Or.inr (Or.inl (List.mem_singleton.mp hc))
  · rcases mem_render _ _ c hc with h | h | ⟨e, he, hce⟩
    · exact Or.inl h
    · exact Or.inr (Or.inl h)
    · exact Or.inr (Or.inr (mem_of_mem_splitOn '/' p e (mem_cleanElems _ _ e he) c hce))

theorem mem_Join_pair (a b : Str) (c : Char) (hc : c ∈ Join [a, b]) :
    c = '/' ∨ c = '.' ∨ c ∈ a ∨ c ∈ b := by
  by_cases ha : a = []
  · subst ha
    by_cases hb : b = []
    · subst hb
      simp [Join] at hc
    · have : Join [[], b] = Clean b := by simp [Join, hb, joinWith]
      rw [this] at hc
      rcases mem_Clean b c hc with h | h | h
      · exact Or.inl h
      · exact Or.inr (Or.inl h)
      · exact Or.inr (Or.inr (Or.inr h))
  · rw [Join_pair a b ha] at hc
    rcases mem_Clean _ c hc with h | h | h
    · exact Or.inl h
    · exact Or.inr (Or.inl h)
    · rcases List.mem_append.mp h with h | h
      · exact Or.inr (Or.inr (Or.inl h))
      · rcases List.mem_cons.mp h with h | h
        · exact Or.inl h
        · exact Or.inr (Or.inr (Or.inr h))

theorem mem_localName (P : Str) (c : Char) (hc : c ∈ localName P) :
    c ∈ P ∨ c ∈ "/index.html".toList := by
  have step1 : ∀ x, x ∈ (if P = [] ∨ P = ['/'] then "/index.html".toList else P) →
      x ∈ P ∨ x ∈ "/index.html".toList := by
    intro x hx
    by_cases h : P = [] ∨ P = ['/']
    · rw [if_pos h] at hx; exact Or.inr hx
    · rw [if_neg h] at hx; exact Or.inl hx
  have step2 : ∀ p0 : Str, (∀ x, x ∈ p0 → x ∈ P ∨ x ∈ "/index.html".toList) →
      ∀ x, x ∈ (if hasSuffix p0 ['/'] = true then Join [p0, "index.html".toList] else p0) →
      x ∈ P ∨ x ∈ "/index.html".toList := by
    intro p0 h0 x hx
    by_cases h : hasSuffix p0 ['/'] = true
    · rw [if_pos h] at hx
      rcases mem_Join_pair _ _ x hx with h | h | h | h
      · subst h; exact Or.inr (by decide)
      · subst h; exact Or.inr (by decide)
      · exact h0 x h
      · exact Or.inr (List.mem_cons_of_mem _ h)
    · rw [if_neg h] at hx
      exact h0 x hx
  have step3 : ∀ p1 : Str, (∀ x, x ∈ p1 → x ∈ P ∨ x ∈ "/index.html".toList) →
      ∀ x, x ∈ (if Ext p1 = [] then p1 ++ ".html".toList else p1) →
      x ∈ P ∨ x ∈ "/index.html".toList := by
    intro p1 h1 x hx
    by_cases h : Ext p1 = []
    · rw [if_pos h] at hx
      rcases List.mem_append.mp hx with h | h
      · exact h1 x h
      · refine Or.inr ?_
        have hsub : ∀ y ∈ ".html".toList, y ∈ "/index.html".toList := by decide
        exact hsub x h
    · rw [if_neg h] at hx
      exact h1 x hx
  exact step3 _ (step2 _ step1) c hc

theorem replaceChar_of_not_mem (old new : Char) (s : Str) (h : old ∉ s) :
    replaceChar old new s = s := by
  unfold replaceChar
  induction s with
  | nil => rfl
  | cons c s ih =>
    have hc : c ≠ old := fun hc => h (hc ▸ List.mem_cons_self _ _)
    rw [List.map_cons, if_neg hc, ih (fun hm => h (List.mem_cons_of_mem _ hm))]

/-- C2, as amended: for an output root that is non-empty and has no
backslash, a URL `a` whose path has no `..` element and a URL `b` whose path
has neither a `..` element nor a backslash, joining `makeRelativePath a b`
with the directory of `urlToFilePath a` gives `urlToFilePath b` back. -/
theorem makeRelativePath_resolves (m : Mirrorer) (a b : URL)
    (hroot : m.outputDir ≠ []) (hrootbs : backslash ∉ m.outputDir)
    (ha : ¬ hasDotDot a.path) (hb : ¬ hasDotDot b.path) (hbbs : backslash ∉ b.path) :
    Join [Dir (urlToFilePath m a), makeRelativePath m a b] = urlToFilePath m b := by
  obtain ⟨hF, hA⟩ := urlToFilePath_render m a hroot ha
  obtain ⟨hT, hB⟩ := urlToFilePath_render m b hroot hb
  have hR : CleanForm (isRooted m.outputDir)
      (cleanElems (isRooted m.outputDir) (splitOn '/' m.outputDir)) :=
    cleanForm_cleanElems _ _ (fun e he => not_mem_of_mem_splitOn '/' _ e he)
  have hRA := cleanForm_append_normal _ _ _ hR hA
  have hRB := cleanForm_append_normal _ _ _ hR hB
  have hRmem : ∀ e ∈ cleanElems (isRooted m.outputDir) (splitOn '/' m.outputDir),
      backslash ∉ e := fun e he hbs =>
    hrootbs (mem_of_mem_splitOn '/' _ e (mem_cleanElems _ _ e he) _ hbs)
  have hBmem : ∀ e ∈ (splitOn '/' (localName b.path)).filter keepElem, backslash ∉ e := by
    intro e he hbs
    rcases mem_localName b.path _
      (mem_of_mem_splitOn '/' _ e (List.mem_filter.mp he).1 _ hbs) with h | h
    · exact hbbs h
    · revert h; decide
  generalize hRdef : cleanElems (isRooted m.outputDir) (splitOn '/' m.outputDir) = R at *
  generalize hAdef : (splitOn '/' (localName a.path)).filter keepElem = A at *
  generalize hBdef : (splitOn '/' (localName b.path)).filter keepElem = B at *
  generalize hrdef : isRooted m.outputDir = r at *
  obtain ⟨k, R', hRk, hk, hR'⟩ := hR
  -- a common run of `..`, then normal elements on the base side
  obtain ⟨j, DR, TR, hj, hDE, hTE, hDR, hTRmem⟩ : ∃ (j : Nat) (DR TR : List Str),
      (r = true → j = 0) ∧ (R ++ A).dropLast = List.replicate j dotdot ++ DR ∧
      R ++ B = List.replicate j dotdot ++ TR ∧ (∀ e ∈ DR, Normal e) ∧
      (∀ e ∈ TR, e = dotdot ∨ e ∈ R ∨ e ∈ B) := by
    by_cases hne : R' ++ A = []
    · obtain ⟨hR0, hA0⟩ := List.append_eq_nil.mp hne
      subst hR0 hA0
      rw [List.append_nil] at hRk
      cases k with
      | zero =>
        refine ⟨0, [], B, fun _ => rfl, by rw [hRk]; rfl, by rw [hRk], by simp, ?_⟩
        exact fun e he => Or.inr (Or.inr he)
      | succ k =>
        refine ⟨k, [], dotdot :: B, fun hr => by simpa using hk hr, ?_, ?_, by simp, ?_⟩
        · rw [hRk, List.append_nil, List.append_nil, List.replicate_succ',
            List.dropLast_concat]
        · rw [hRk, List.replicate_succ', List.append_assoc]
          rfl
        · intro e he
          rcases List.mem_cons.mp he with h | h
          · exact Or.inl h
          · exact Or.inr (Or.inr h)
    · refine ⟨k, (R' ++ A).dropLast, R' ++ B, hk, ?_, by rw [hRk, List.append_assoc], ?_, ?_⟩
      · rw [hRk, List.append_assoc, List.dropLast_append_of_ne_nil _ hne]
      · intro e he
        rcases List.mem_append.mp (List.dropLast_subset _ he) with h | h
        · exact hR' e h
        · exact hA e h
      · intro e he
        rcases List.mem_append.mp he with h | h
        · exact Or.inr (Or.inl (by rw [hRk]; exact List.mem_append_right _ h))
        · exact Or.inr (Or.inr h)
  have hTform : CleanForm r (List.replicate j dotdot ++ TR) := hTE ▸ hRB
  obtain ⟨rel, hrel, hjoin, hchars⟩ := Rel_Join_render r j hj DR TR hDR hTform
  have hDir : Dir (urlToFilePath m a) = render r (List.replicate j dotdot ++ DR) := by
    rw [hF, Dir_render r _ hRA, hDE]
  have hTeq : urlToFilePath m b = render r (List.replicate j dotdot ++ TR) := by
    rw [hT, hTE]
  have hrelbs : backslash ∉ rel := by
    intro hbs
    rcases hchars _ hbs with h | h | ⟨e, he, hce⟩
    · revert h; decide
    · revert h; decide
    · rcases hTRmem e he with h | h | h
      · rw [h] at hce; revert hce; decide
      · exact hRmem e h hce
      · exact hBmem e h hce
  unfold makeRelativePath
  rw [hDir, hTeq, hrel]
  simp only
  rw [replaceChar_of_not_mem _ _ _ hrelbs, hjoin]

/-- C2, witness: from `/a/b` to `/s.css` under the root `mirror`. -/
theorem makeRelativePath_resolves_witness :
    makeRelativePath exampleMirrorer { path := "/a/b".toList } { path := "/s.css".toList }
      = "../s.css".toList ∧
    Join [Dir (urlToFilePath exampleMirrorer { path := "/a/b".toList }),
      makeRelativePath exampleMirrorer { path := "/a/b".toList } { path := "/s.css".toList }]
      = urlToFilePath exampleMirrorer { path := "/s.css".toList } :=
  ⟨by decide,
   makeRelativePath_resolves exampleMirrorer { path := "/a/b".toList }
     { path := "/s.css".toList } (by decide) (by decide) (by decide) (by decide) (by decide)⟩

/-- C2, counterexample: the relative path does not resolve back to the target
when the target path has a backslash (it is replaced by `/`), when the source
path climbs above the root with `..` (`Rel` fails and the URL path is
returned), when the output root is empty, and when the output root has a
backslash. -/
theorem makeRelativePath_not_resolving :
    (makeRelativePath exampleMirrorer { path := "/a".toList }
        { path := "/b".toList ++ backslash :: "c.png".toList } = "b/c.png".toList ∧
      Join [Dir (urlToFilePath exampleMirrorer { path := "/a".toList }),
        makeRelativePath exampleMirrorer { path := "/a".toList }
          { path := "/b".toList ++ backslash :: "c.png".toList }] ≠
        urlToFilePath exampleMirrorer { path := "/b".toList ++ backslash :: "c.png".toList }) ∧
    (makeRelativePath exampleMirrorer { path := "/../../a/b".toList } { path := "/x".toList }
        = "/x".toList ∧
      Join [Dir (urlToFilePath exampleMirrorer { path := "/../../a/b".toList }),
        makeRelativePath exampleMirrorer { path := "/../../a/b".toList }
          { path := "/x".toList }] ≠
        urlToFilePath exampleMirrorer { path := "/x".toList }) ∧
    (Join [Dir (urlToFilePath { exampleMirrorer with outputDir := [] } { path := "/y".toList }),
        makeRelativePath { exampleMirrorer with outputDir := [] } { path := "/y".toList }
          { path := "//x".toList }] ≠
        urlToFilePath { exampleMirrorer with outputDir := [] } { path := "//x".toList }) ∧
    (Join [Dir (urlToFilePath { exampleMirrorer with outputDir := 'm' :: backslash :: ['x'] }
          { path := "/.".toList }),
        makeRelativePath { exampleMirrorer with outputDir := 'm' :: backslash :: ['x'] }
          { path := "/.".toList } { path := "/y".toList }] ≠
        urlToFilePath { exampleMirrorer with outputDir := 'm' :: backslash :: ['x'] }
          { path := "/y".toList }) := by
  decide

/-! ### Status errors -/

/-- C14, as amended: `download` reports a status error exactly when the status
code of the response is not 200; in that case it writes no file and leaves the
run state as it is, and the error carries the status code.  A response with
status 200 never yields a status error. -/
theorem download_status_error (lib : Lib Node) (m : Mirrorer) (s : RunState) (u : URL)
    (isHTML : Bool) (r : Response) (mkdirOk writeOk : Bool) :
    ((download lib m s u isHTML (some r) mkdirOk writeOk).err =
        some (DownloadError.status r.statusCode) ↔ r.statusCode ≠ 200) ∧
    (r.statusCode ≠ 200 →
      (download lib m s u isHTML (some r) mkdirOk writeOk).written = none ∧
      (download lib m s u isHTML (some r) mkdirOk writeOk).state = s) ∧
    (∀ code, (download lib m s u isHTML (some r) mkdirOk writeOk).err =
        some (DownloadError.status code) → code = r.statusCode ∧ code ≠ 200) := by
  by_cases h : r.statusCode ≠ 200
  · have hd : download lib m s u isHTML (some r) mkdirOk writeOk =
        { err := some (DownloadError.status r.statusCode), written := none, state := s } := by
      unfold download
      simp only [h, if_true, ne_eq, not_false_eq_true]
    rw [hd]
    refine ⟨⟨fun _ => h, fun _ => rfl⟩, fun _ => ⟨rfl, rfl⟩, ?_⟩
    intro code hc
    simp only [Option.some.injEq, DownloadError.status.injEq] at hc
    exact ⟨hc.symm, hc ▸ h⟩
  · have h200 : r.statusCode = 200 := not_not.mp h
    have hne : ∀ code, (download lib m s u isHTML (some r) mkdirOk writeOk).err ≠
        some (DownloadError.status code) := by
      intro code
      unfold download
      simp only [h200, ne_eq, not_true_eq_false, if_false]
      cases r.body with
      | none => simp
      | some content =>
        cases mkdirOk <;> cases writeOk <;> simp
    refine ⟨⟨fun he => absurd he (hne _), fun hc => absurd hc h⟩, fun hc => absurd hc h, ?_⟩
    intro code hc
    exact absurd hc (hne code)

/-- C14, witness: a response with status 404 for `/p`. -/
theorem download_status_error_witness :
    download goLib exampleMirrorer {}
      { scheme := "http".toList, host := "x.test".toList, path := "/p".toList } true
      (some { statusCode := 404, contentType := "text/html".toList, body := some [] })
      true true =
    { err := some (DownloadError.status 404), written := none, state := {} } ∧
    (404 : Nat) ≠ 200 := by
  have h := download_status_error goLib exampleMirrorer {}
    { scheme := "http".toList, host := "x.test".toList, path := "/p".toList } true
    { statusCode := 404, contentType := "text/html".toList, body := some [] } true true
  exact ⟨by decide, (h.2.2 404 (by decide)).2⟩

/-- C14, counterexample: a response with status 204, which is a 2xx status,
yields a status error and no file. -/
theorem download_204_is_status_error :
    download goLib exampleMirrorer {}
      { scheme := "http".toList, host := "x.test".toList, path := "/p".toList } true
      (some { statusCode := 204, contentType := "text/html".toList, body := some [] })
      true true =
    { err := some (DownloadError.status 204), written := none, state := {} } := by decide

/-! ### The pool of slots -/

theorem NewMirrorer_semaphoreCap {T : Type} (lib : Lib T) (baseURL outputDir : Str)
    (m : Mirrorer) (h : NewMirrorer lib baseURL outputDir = some m) : m.semaphoreCap = 5 := by
  unfold NewMirrorer at h
  cases hp : lib.parse baseURL with
  | none => rw [hp] at h; cases h
  | some u =>
    rw [hp] at h
    injection h with h
    rw [← h]

theorem inFlight_le_cap {T : Type} (lib : Lib T) (m : Mirrorer) (s : RunState)
    (h : Reachable lib m s) : s.inFlight.length ≤ m.semaphoreCap := by
  induction h with
  | seed startURL =>
    rw [downloadURL_inFlight]
    exact Nat.zero_le _
  | step s s' _ hs ih =>
    cases hs with
    | enqueue w urlStr isHTML hw => rw [downloadURL_inFlight]; exact ih
    | acquire t pre post hq hcap =>
      simp only [List.length_append, List.length_cons, List.length_nil]
      omega
    | finish t failed pre post hf =>
      simp only [hf, List.length_append, List.length_cons] at ih ⊢
      omega

/-- C16: for a mirrorer made by `NewMirrorer`, in every reachable state at most
5 workers hold a slot; and every step other than a worker taking a slot (an
enqueue call made inside `download`, or the return from `download`) is the
step of a worker that holds a slot. -/
theorem inFlight_at_most_five {T : Type} (lib : Lib T) (baseURL outputDir : Str)
    (m : Mirrorer) (s : RunState) (hm : NewMirrorer lib baseURL outputDir = some m)
    (h : Reachable lib m s) :
    s.inFlight.length ≤ 5 ∧
    (∀ s', Step lib m s s' →
      (∃ t pre post, s.queued = pre ++ t :: post ∧ s.inFlight.length < 5 ∧
        s' = { s with queued := pre ++ post, inFlight := s.inFlight ++ [t] }) ∨
      (∃ w, w ∈ s.inFlight ∧
        ((∃ urlStr isHTML, s' = downloadURL lib m s urlStr isHTML) ∨
         (∃ pre post, s.inFlight = pre ++ w :: post ∧
           s' = { s with inFlight := pre ++ post, pending := s.pending - 1 })))) := by
  have hcap := NewMirrorer_semaphoreCap lib baseURL outputDir m hm
  refine ⟨hcap ▸ inFlight_le_cap lib m s h, ?_⟩
  intro s' hs
  cases hs with
  | enqueue w urlStr isHTML hw => exact Or.inr ⟨w, hw, Or.inl ⟨urlStr, isHTML, rfl⟩⟩
  | acquire t pre post hq hc => exact Or.inl ⟨t, pre, post, hq, hcap ▸ hc, rfl⟩
  | finish t failed pre post hf =>
    exact Or.inr ⟨t, by rw [hf]; simp, Or.inr ⟨pre, post, hf, rfl⟩⟩

/-- C16, witness: the state of the example site after its seed worker has
taken a slot. -/
theorem inFlight_at_most_five_witness :
    NewMirrorer goLib "http://x.test/".toList "mirror".toList = some exampleMirrorer ∧
    ({ visited := ["http://x.test/".toList], pending := 1, queued := [],
       inFlight := [{ urlStr := "http://x.test/".toList,
                      parsedURL := { scheme := "http".toList, host := "x.test".toList,
                                     path := "/".toList },
                      isHTML := true }] } : RunState).inFlight.length ≤ 5 :=
  ⟨by decide,
   (inFlight_at_most_five goLib "http://x.test/".toList "mirror".toList exampleMirrorer _
      (by decide)
      (Reachable.step _ _ (Reachable.seed "http://x.test/".toList)
        (Step.acquire (downloadURL goLib exampleMirrorer {} "http://x.test/".toList true)
          { urlStr := "http://x.test/".toList,
            parsedURL := { scheme := "http".toList, host := "x.test".toList,
                           path := "/".toList },
            isHTML := true } [] [] (by decide) (by decide)))).1⟩

/-! ### Attributes -/

/-- The first stage of `processElem` is the `switch` on the element name: for
an element without `srcset` and `style` attributes, `processElem` is the call
of `processAttribute` with the attribute of the element's case, and does
nothing for an element name without a case. -/
theorem processElem_dispatch {T : Type} (lib : Lib T) (m : Mirrorer) (pageURL : URL)
    (s : RunState) (n : Elem) :
    (dispatchedAttr n.data = none →
      getAttr n "srcset".toList = [] → getAttr n "style".toList = [] →
      processElem lib m pageURL s n = (n, s)) ∧
    (∀ attr, dispatchedAttr n.data = some attr →
      getAttr (processAttribute lib m s n attr pageURL).1 "srcset".toList = [] →
      getAttr (processAttribute lib m s n attr pageURL).1 "style".toList = [] →
      processElem lib m pageURL s n = processAttribute lib m s n attr pageURL) := by
  unfold dispatchedAttr processElem
  by_cases h1 : n.data = "a".toList ∨ n.data = "link".toList
  · simp only [h1, if_true]
    refine ⟨fun h => (by cases h), ?_⟩
    intro attr hattr h2 h3
    injection hattr with hattr
    subst hattr
    simp only [h2, h3, ne_eq, not_true_eq_false, if_false]
  · simp only [h1, if_false]
    by_cases h2 : n.data = "img".toList ∨ n.data = "script".toList ∨ n.data = "source".toList
    · simp only [h2, if_true]
      refine ⟨fun h => (by cases h), ?_⟩
      intro attr hattr h3 h4
      injection hattr with hattr
      subst hattr
      simp only [h3, h4, ne_eq, not_true_eq_false, if_false]
    · simp only [h2, if_false]
      by_cases h3 : n.data = "video".toList ∨ n.data = "audio".toList
      · simp only [h3, if_true]
        refine ⟨fun h => (by cases h), ?_⟩
        intro attr hattr h4 h5
        injection hattr with hattr
        subst hattr
        simp only [h4, h5, ne_eq, not_true_eq_false, if_false]
      · simp only [h3, if_false]
        by_cases h4 : n.data = "form".toList
        · simp only [h4, if_true]
          refine ⟨fun h => (by cases h), ?_⟩
          intro attr hattr h5 h6
          injection hattr with hattr
          subst hattr
          simp only [h5, h6, ne_eq, not_true_eq_false, if_false]
        · simp only [h4, if_false]
          refine ⟨?_, fun attr h => (by cases h)⟩
          intro _ h5 h6
          simp only [h5, h6, ne_eq, not_true_eq_false, if_false]

/-- What `processAttribute` does with a reference it enqueues, whatever the
element and the attribute. -/
theorem processAttribute_enqueue {T : Type} (lib : Lib T) (m : Mirrorer) (s : RunState)
    (n : Elem) (attr : Str) (pageURL parsedURL : URL)
    (hval : getAttr n attr ≠ []) (hsp : isSpecialURL (getAttr n attr) = false)
    (hp : lib.parse (getAttr n attr) = some parsedURL)
    (hh : (lib.resolveReference pageURL parsedURL).host = m.baseURL.host) :
    processAttribute lib m s n attr pageURL =
      (setAttr n attr (makeRelativePath m pageURL (lib.resolveReference pageURL parsedURL)),
       downloadURL lib m s (lib.string (lib.resolveReference pageURL parsedURL))
         (if n.data = "link".toList then
            !containsStr (getAttr n "rel".toList) "stylesheet".toList &&
              !containsStr (getAttr n "rel".toList) "icon".toList
          else attr == "href".toList &&
            (n.data == "a".toList || getAttr n "rel".toList == []))) := by
  unfold processAttribute
  simp only [hval, if_false, hsp, Bool.false_eq_true, hp, hh, if_true]

/-- C12: for an element and attribute that the tree walk hands to
`processAttribute` (anchor or `link` with `href`; `img`, `script`, `source`,
`video`, `audio` with `src`; `form` with `action`) and a reference that is
enqueued, the hint passed to `downloadURL` is the page hint, which is set
exactly for an anchor (with `href`) and for a `link` whose `rel` attribute
contains neither `stylesheet` nor `icon`; for every other element and
attribute of the walk it is the asset hint. -/
theorem processAttribute_hint {T : Type} (lib : Lib T) (m : Mirrorer) (s : RunState)
    (n : Elem) (attr : Str) (pageURL parsedURL : URL)
    (hd : dispatchedAttr n.data = some attr)
    (hval : getAttr n attr ≠ []) (hsp : isSpecialURL (getAttr n attr) = false)
    (hp : lib.parse (getAttr n attr) = some parsedURL)
    (hh : (lib.resolveReference pageURL parsedURL).host = m.baseURL.host) :
    processAttribute lib m s n attr pageURL =
      (setAttr n attr (makeRelativePath m pageURL (lib.resolveReference pageURL parsedURL)),
       downloadURL lib m s (lib.string (lib.resolveReference pageURL parsedURL))
         (pageHint n)) ∧
    (pageHint n = true ↔
      (n.data = "a".toList ∧ attr = "href".toList) ∨
      (n.data = "link".toList ∧ attr = "href".toList ∧
        containsStr (getAttr n "rel".toList) "stylesheet".toList = false ∧
        containsStr (getAttr n "rel".toList) "icon".toList = false)) := by
  rw [processAttribute_enqueue lib m s n attr pageURL parsedURL hval hsp hp hh]
  unfold dispatchedAttr at hd
  unfold pageHint
  by_cases h1 : n.data = "a".toList ∨ n.data = "link".toList
  · rw [if_pos h1] at hd
    injection hd with hd
    subst hd
    rcases h1 with h1 | h1
    · rw [h1]
      exact ⟨by simp, by simp⟩
    · rw [h1]
      exact ⟨by simp, by simp⟩
  · rw [if_neg h1] at hd
    have ha : n.data ≠ "a".toList := fun h => h1 (Or.inl h)
    have hl : n.data ≠ "link".toList := fun h => h1 (Or.inr h)
    have hattr : attr ≠ "href".toList := by
      intro hattr
      subst hattr
      split at hd
      · exact absurd (Option.some.inj hd) (by decide)
      · split at hd
        · exact absurd (Option.some.inj hd) (by decide)
        · split at hd
          · exact absurd (Option.some.inj hd) (by decide)
          · cases hd
    have e1 : (attr == "href".toList) = false := beq_eq_false_iff_ne.mpr hattr
    have e2 : (n.data == "a".toList) = false := beq_eq_false_iff_ne.mpr ha
    have e3 : (n.data == "link".toList) = false := beq_eq_false_iff_ne.mpr hl
    rw [if_neg hl, e1, e2, e3]
    refine ⟨rfl, ?_⟩
    simp only [Bool.false_and, Bool.or_self, Bool.false_eq_true, false_iff, not_or, not_and]
    exact ⟨fun h => absurd h ha, fun h => absurd h hl⟩

/-- C12, witness: a stylesheet `link` on the example site gets the asset
hint. -/
theorem processAttribute_hint_witness :
    processAttribute goLib exampleMirrorer {}
      { data := "link".toList,
        attr := [{ key := "rel".toList, val := "stylesheet".toList },
                 { key := "href".toList, val := "/s.css".toList }] }
      "href".toList { scheme := "http".toList, host := "x.test".toList, path := "/p".toList } =
    ({ data := "link".toList,
       attr := [{ key := "rel".toList, val := "stylesheet".toList },
                { key := "href".toList, val := "s.css".toList }] },
     { visited := ["http://x.test/s.css".toList], pending := 1,
       queued := [{ urlStr := "http://x.test/s.css".toList,
                    parsedURL := { scheme := "http".toList, host := "x.test".toList,
                                   path := "/s.css".toList },
                    isHTML := false }],
       inFlight := [] }) := by
  have h := (processAttribute_hint goLib exampleMirrorer {}
    { data := "link".toList,
      attr := [{ key := "rel".toList, val := "stylesheet".toList },
               { key := "href".toList, val := "/s.css".toList }] }
    "href".toList { scheme := "http".toList, host := "x.test".toList, path := "/p".toList }
    { path := "/s.css".toList } (by decide) (by decide) (by decide) (by decide) (by decide)).1
  rw [h]
  decide

/-! ### `getAttr` and `setAttr` -/

theorem setFirst_none_iff (key val : Str) (attrs : List Attribute) :
    setFirst key val attrs = none ↔ attrs.find? (fun a => a.key == key) = none := by
  induction attrs with
  | nil => simp [setFirst]
  | cons a rest ih =>
    by_cases h : (a.key == key) = true
    · simp [setFirst, h, List.find?]
    · simp only [Bool.not_eq_true] at h
      simp only [setFirst, h, Bool.false_eq_true, if_false, Option.map_eq_none', ih,
        List.find?_cons]

theorem find?_setFirst (key val : Str) (attrs r : List Attribute)
    (h : setFirst key val attrs = some r) :
    ∃ a, r.find? (fun a => a.key == key) = some a ∧ a.val = val := by
  induction attrs generalizing r with
  | nil => simp [setFirst] at h
  | cons a rest ih =>
    by_cases hk : (a.key == key) = true
    · simp only [setFirst, hk, if_true, Option.some.injEq] at h
      subst h
      exact ⟨{ a with val := val }, by simp [List.find?, hk], rfl⟩
    · simp only [Bool.not_eq_true] at hk
      simp only [setFirst, hk, Bool.false_eq_true, if_false, Option.map_eq_some'] at h
      obtain ⟨r', hr', rfl⟩ := h
      obtain ⟨b, hb, hv⟩ := ih r' hr'
      exact ⟨b, by simp only [List.find?_cons, hk, hb], hv⟩

theorem setFirst_setFirst (key v w : Str) (attrs r : List Attribute)
    (h : setFirst key v attrs = some r) : setFirst key w r = setFirst key w attrs := by
  induction attrs generalizing r with
  | nil => simp [setFirst] at h
  | cons a rest ih =>
    by_cases hk : (a.key == key) = true
    · simp only [setFirst, hk, if_true, Option.some.injEq] at h
      subst h
      simp [setFirst, hk]
    · simp only [Bool.not_eq_true] at hk
      simp only [setFirst, hk, Bool.false_eq_true, if_false, Option.map_eq_some'] at h
      obtain ⟨r', hr', rfl⟩ := h
      simp only [setFirst, hk, Bool.false_eq_true, if_false]
      rw [ih r' hr']

theorem setFirst_append_new (key v w : Str) (l : List Attribute)
    (h : l.find? (fun a => a.key == key) = none) :
    setFirst key w (l ++ [{ key := key, val := v }]) = some (l ++ [{ key := key, val := w }]) := by
  induction l with
  | nil => simp [setFirst]
  | cons a rest ih =>
    have ha : (a.key == key) = false := by
      by_cases hk : (a.key == key) = true
      · simp [List.find?, hk] at h
      · simpa using hk
    have hrest : rest.find? (fun a => a.key == key) = none := by
      simpa [List.find?, ha] using h
    rw [List.cons_append, setFirst, ha]
    simp only [Bool.false_eq_true, if_false]
    rw [ih hrest]
    rfl

theorem getAttr_setAttr (n : Elem) (key val : Str) : getAttr (setAttr n key val) key = val := by
  unfold getAttr setAttr
  cases hs : setFirst key val n.attr with
  | none =>
    have hf := (setFirst_none_iff key val n.attr).mp hs
    simp [List.find?_append, hf]
  | some attrs =>
    obtain ⟨a, ha, hv⟩ := find?_setFirst key val n.attr attrs hs
    simp only [ha, hv]

theorem setAttr_setAttr (n : Elem) (key v w : Str) :
    setAttr (setAttr n key v) key w = setAttr n key w := by
  unfold setAttr
  cases hs : setFirst key v n.attr with
  | some r =>
    simp only
    rw [setFirst_setFirst key v w n.attr r hs]
    cases hw : setFirst key w n.attr with
    | some r' => rfl
    | none =>
      exfalso
      have h1 := (setFirst_none_iff key w n.attr).mp hw
      have h2 := (setFirst_none_iff key v n.attr).mpr h1
      rw [h2] at hs
      cases hs
  | none =>
    simp only
    have hf := (setFirst_none_iff key v n.attr).mp hs
    have hw : setFirst key w n.attr = none := (setFirst_none_iff key w n.attr).mpr hf
    rw [hw, setFirst_append_new key v w n.attr hf]

theorem setAttr_data (n : Elem) (key v : Str) : (setAttr n key v).data = n.data := by
  unfold setAttr
  cases setFirst key v n.attr <;> rfl

/-- C17: `makeRelativePath` does not look at the query string or the fragment
of the target; so two references whose resolved URLs are on the base host and
have the same path are rewritten by `processAttribute` to the same attribute
value, and on the example site the anchors `/p#sec`, `/p?x=1` and `/p` all
become `p.html`. -/
theorem makeRelativePath_ignores_query_fragment {T : Type} (lib : Lib T) (m : Mirrorer) :
    (∀ (src dst : URL) (q f : Str) (fq : Bool),
      makeRelativePath m src { dst with rawQuery := q, fragment := f, forceQuery := fq } =
        makeRelativePath m src dst) ∧
    (∀ (s s' : RunState) (n : Elem) (attr v v' : Str) (pageURL u u' : URL),
      v ≠ [] → v' ≠ [] → isSpecialURL v = false → isSpecialURL v' = false →
      lib.parse v = some u → lib.parse v' = some u' →
      (lib.resolveReference pageURL u).host = m.baseURL.host →
      (lib.resolveReference pageURL u').host = m.baseURL.host →
      (lib.resolveReference pageURL u).path = (lib.resolveReference pageURL u').path →
      (processAttribute lib m s (setAttr n attr v) attr pageURL).1 =
        (processAttribute lib m s' (setAttr n attr v') attr pageURL).1 ∧
      getAttr (processAttribute lib m s (setAttr n attr v) attr pageURL).1 attr =
        makeRelativePath m pageURL (lib.resolveReference pageURL u)) ∧
    (processAttribute goLib exampleMirrorer {}
        { data := "a".toList, attr := [{ key := "href".toList, val := "/p#sec".toList }] }
        "href".toList { scheme := "http".toList, host := "x.test".toList, path := "/".toList }).1
      = { data := "a".toList, attr := [{ key := "href".toList, val := "p.html".toList }] } ∧
    (processAttribute goLib exampleMirrorer {}
        { data := "a".toList, attr := [{ key := "href".toList, val := "/p?x=1".toList }] }
        "href".toList { scheme := "http".toList, host := "x.test".toList, path := "/".toList }).1
      = { data := "a".toList, attr := [{ key := "href".toList, val := "p.html".toList }] } ∧
    (processAttribute goLib exampleMirrorer {}
        { data := "a".toList, attr := [{ key := "href".toList, val := "/p".toList }] }
        "href".toList { scheme := "http".toList, host := "x.test".toList, path := "/".toList }).1
      = { data := "a".toList, attr := [{ key := "href".toList, val := "p.html".toList }] } := by
  refine ⟨fun _ _ _ _ _ => rfl, ?_, by decide, by decide, by decide⟩
  intro s s' n attr v v' pageURL u u' hv hv' hsp hsp' hp hp' hh hh' hpath
  have e1 := processAttribute_enqueue lib m s (setAttr n attr v) attr pageURL u
    (by rw [getAttr_setAttr]; exact hv) (by rw [getAttr_setAttr]; exact hsp)
    (by rw [getAttr_setAttr]; exact hp) hh
  have e2 := processAttribute_enqueue lib m s' (setAttr n attr v') attr pageURL u'
    (by rw [getAttr_setAttr]; exact hv') (by rw [getAttr_setAttr]; exact hsp')
    (by rw [getAttr_setAttr]; exact hp') hh'
  have hrel : makeRelativePath m pageURL (lib.resolveReference pageURL u) =
      makeRelativePath m pageURL (lib.resolveReference pageURL u') := by
    unfold makeRelativePath urlToFilePath
    rw [hpath]
  rw [e1, e2]
  simp only
  rw [setAttr_setAttr, setAttr_setAttr, getAttr_setAttr, hrel]
  exact ⟨rfl, rfl⟩

/-- C17, witness: `/p#sec` and `/p?x=1` on the example site. -/
theorem makeRelativePath_ignores_query_fragment_witness :
    (processAttribute goLib exampleMirrorer {}
        (setAttr { data := "a".toList, attr := [] } "href".toList "/p#sec".toList)
        "href".toList { scheme := "http".toList, host := "x.test".toList, path := "/".toList }).1
      = (processAttribute goLib exampleMirrorer {}
        (setAttr { data := "a".toList, attr := [] } "href".toList "/p?x=1".toList)
        "href".toList { scheme := "http".toList, host := "x.test".toList, path := "/".toList }).1 :=
  ((makeRelativePath_ignores_query_fragment goLib exampleMirrorer).2.1 {} {}
    { data := "a".toList, attr := [] } "href".toList "/p#sec".toList "/p?x=1".toList
    { scheme := "http".toList, host := "x.test".toList, path := "/".toList }
    { path := "/p".toList, fragment := "sec".toList }
    { path := "/p".toList, rawQuery := "x=1".toList }
    (by decide) (by decide) (by decide) (by decide) (by decide) (by decide) (by decide)
    (by decide) (by decide)).1

/-! ### `srcset` -/

theorem processCandidate_eq {T : Type} (lib : Lib T) (m : Mirrorer) (pageURL : URL)
    (s : RunState) (part : Str) :
    processCandidate lib m pageURL s part =
      (candidateText lib m pageURL part, candidateEnqueue lib m pageURL s part) := by
  unfold processCandidate candidateText candidateEnqueue
  dsimp only
  generalize fields (trimSpace part) = fs
  cases fs with
  | nil => rfl
  | cons imgURL more =>
    dsimp only
    cases lib.parse imgURL with
    | none => rfl
    | some parsedURL =>
      dsimp only
      by_cases hh : (lib.resolveReference pageURL parsedURL).host = m.baseURL.host
      · simp only [hh, if_true]
      · simp only [hh, if_false]

theorem processCandidates_eq {T : Type} (lib : Lib T) (m : Mirrorer) (pageURL : URL)
    (parts : List Str) (s : RunState) :
    processCandidates lib m pageURL parts s =
      (parts.filterMap (candidateText lib m pageURL),
       parts.foldl (candidateEnqueue lib m pageURL) s) := by
  induction parts generalizing s with
  | nil => rfl
  | cons part rest ih =>
    rw [processCandidates, processCandidate_eq, ih, List.foldl_cons, List.filterMap_cons]
    cases candidateText lib m pageURL part <;> rfl

/-- C13: `processSrcset` sets the `srcset` attribute to the output candidates
joined by a comma and a space, where there is one output candidate for each
non-empty comma-separated input candidate, in the same order; an output
candidate is the input candidate's tokens with the descriptor tokens unchanged
and the leading URL token replaced by `makeRelativePath` of the resolved URL
when that URL is on the base host (and then the URL is enqueued with the asset
hint), kept as it is otherwise. -/
theorem processSrcset_candidates {T : Type} (lib : Lib T) (m : Mirrorer) (s : RunState)
    (n : Elem) (srcset : Str) (pageURL : URL) :
    processSrcset lib m s n srcset pageURL =
      (setAttr n "srcset".toList
         (joinCommaSpace ((splitOn ',' srcset).filterMap (candidateText lib m pageURL))),
       (splitOn ',' srcset).foldl (candidateEnqueue lib m pageURL) s) ∧
    (∀ part, candidateText lib m pageURL part = none ↔ fields (trimSpace part) = []) ∧
    (∀ part imgURL descriptor, fields (trimSpace part) = imgURL :: descriptor →
      (lib.parse imgURL = none →
        candidateText lib m pageURL part = some (trimSpace part) ∧
        candidateEnqueue lib m pageURL s part = s) ∧
      (∀ parsedURL, lib.parse imgURL = some parsedURL →
        ((lib.resolveReference pageURL parsedURL).host = m.baseURL.host →
          candidateText lib m pageURL part =
            some (joinWith ' '
              (makeRelativePath m pageURL (lib.resolveReference pageURL parsedURL) ::
                descriptor)) ∧
          candidateEnqueue lib m pageURL s part =
            downloadURL lib m s (lib.string (lib.resolveReference pageURL parsedURL)) false) ∧
        ((lib.resolveReference pageURL parsedURL).host ≠ m.baseURL.host →
          candidateText lib m pageURL part = some (joinWith ' ' (imgURL :: descriptor)) ∧
          candidateEnqueue lib m pageURL s part = s))) := by
  refine ⟨?_, ?_, ?_⟩
  · unfold processSrcset
    rw [processCandidates_eq]
  · intro part
    unfold candidateText
    cases hf : fields (trimSpace part) with
    | nil => simp
    | cons imgURL more =>
      simp only
      cases lib.parse imgURL <;> simp
  · intro part imgURL descriptor hf
    unfold candidateText candidateEnqueue
    rw [hf]
    refine ⟨?_, ?_⟩
    · intro hp
      simp [hp]
    · intro parsedURL hp
      refine ⟨?_, ?_⟩
      · intro hh
        simp [hp, hh]
      · intro hh
        simp [hp, hh]

/-- C13, witness: an image of the example site with two candidates and an
empty one between them. -/
theorem processSrcset_candidates_witness :
    processSrcset goLib exampleMirrorer {}
      { data := "img".toList,
        attr := [{ key := "srcset".toList,
                   val := "/a.png 1x, ,http://other.test/b.png  2x".toList }] }
      "/a.png 1x, ,http://other.test/b.png  2x".toList
      { scheme := "http".toList, host := "x.test".toList, path := "/".toList } =
    ({ data := "img".toList,
       attr := [{ key := "srcset".toList,
                  val := "a.png 1x, http://other.test/b.png 2x".toList }] },
     { visited := ["http://x.test/a.png".toList], pending := 1,
       queued := [{ urlStr := "http://x.test/a.png".toList,
                    parsedURL := { scheme := "http".toList, host := "x.test".toList,
                                   path := "/a.png".toList },
                    isHTML := false }],
       inFlight := [] }) := by
  rw [(processSrcset_candidates goLib exampleMirrorer {} _ _ _).1]
  decide

/-! ### Collisions of local paths -/

/-- C15, as amended: within one run no two started workers share a canonical
URL string, so every scheduled URL writes its local path once; and for a
non-empty output root and URL paths without `..`, two URLs have the same local
path exactly when the names built from their paths by the index and extension
rules have the same path elements.  Distinct canonical URLs can therefore
share one local path. -/
theorem urlToFilePath_eq_iff {T : Type} (lib : Lib T) (m : Mirrorer) (u1 u2 : URL)
    (calls : List (Str × Bool)) (hroot : m.outputDir ≠ [])
    (h1 : ¬ hasDotDot u1.path) (h2 : ¬ hasDotDot u2.path) :
    ((runCalls lib m {} calls).queued.map Task.urlStr).Nodup ∧
    (urlToFilePath m u1 = urlToFilePath m u2 ↔
      pathElems (localName u1.path) = pathElems (localName u2.path)) := by
  refine ⟨(DedupInv_runCalls lib m calls {} ⟨by simp, by simp⟩).2, ?_⟩
  obtain ⟨hF1, hA1⟩ := urlToFilePath_render m u1 hroot h1
  obtain ⟨hF2, hA2⟩ := urlToFilePath_render m u2 hroot h2
  have hR : CleanForm (isRooted m.outputDir)
      (cleanElems (isRooted m.outputDir) (splitOn '/' m.outputDir)) :=
    cleanForm_cleanElems _ _ (fun e he => not_mem_of_mem_splitOn '/' _ e he)
  have e1 := normal_or_dotdot_of_cleanForm _ _ (cleanForm_append_normal _ _ _ hR hA1)
  have e2 := normal_or_dotdot_of_cleanForm _ _ (cleanForm_append_normal _ _ _ hR hA2)
  unfold pathElems
  constructor
  · intro h
    rw [hF1, hF2] at h
    have h' := congrArg (fun p => (splitOn '/' p).filter keepElem) h
    simp only at h'
    rw [(splitOn_render_filter _ _ e1).1, (splitOn_render_filter _ _ e2).1] at h'
    exact List.append_cancel_left h'
  · intro h
    rw [hF1, hF2, h]

/-- C15, witness: `/p` and `/p.html` on the example site share the local path
`mirror/p.html`. -/
theorem urlToFilePath_eq_iff_witness :
    urlToFilePath exampleMirrorer { path := "/p".toList } =
      urlToFilePath exampleMirrorer { path := "/p.html".toList } :=
  ((urlToFilePath_eq_iff goLib exampleMirrorer { path := "/p".toList }
      { path := "/p.html".toList } [] (by decide) (by decide) (by decide)).2).mpr (by decide)

/-- C15, counterexample: the calls for `http://x.test/` and
`http://x.test/index.html` start two workers with distinct canonical URLs and
the same local path `mirror/index.html`. -/
theorem distinct_urls_share_local_path :
    (runCalls goLib exampleMirrorer {}
      [("http://x.test/".toList, true), ("http://x.test/index.html".toList, true)]).queued =
      [{ urlStr := "http://x.test/".toList,
         parsedURL := { scheme := "http".toList, host := "x.test".toList, path := "/".toList },
         isHTML := true },
       { urlStr := "http://x.test/index.html".toList,
         parsedURL := { scheme := "http".toList, host := "x.test".toList,
                        path := "/index.html".toList },
         isHTML := true }] ∧
    urlToFilePath exampleMirrorer
        { scheme := "http".toList, host := "x.test".toList, path := "/".toList } =
      "mirror/index.html".toList ∧
    urlToFilePath exampleMirrorer
        { scheme := "http".toList, host := "x.test".toList, path := "/index.html".toList } =
      "mirror/index.html".toList := by decide

/-! ### The two patterns and their tokens -/

theorem hasPrefix_eq_append {s p : Str} (h : hasPrefix s p = true) :
    s = p ++ s.drop p.length := by
  unfold hasPrefix at h
  rw [List.isPrefixOf_iff_prefix] at h
  exact (List.prefix_iff_eq_append.mp h).symm

theorem startsWith_eq_true {p : Char → Bool} {t : Str} (h : startsWith p t = true) :
    ∃ c cs, t = c :: cs ∧ p c = true := by
  cases t with
  | nil => simp [startsWith] at h
  | cons c cs => exact ⟨c, cs, rfl, h⟩

theorem optQuote_split (b : Str) :
    ∃ q t1, OptQuote q ∧ b = q ++ t1 ∧
      (if startsWith isQuote b = true then 1 else 0) = q.length := by
  by_cases h : startsWith isQuote b = true
  · obtain ⟨c, cs, rfl, hc⟩ := startsWith_eq_true h
    exact ⟨[c], cs, Or.inr ⟨c, hc, rfl⟩, rfl, by simp [h]⟩
  · exact ⟨[], b, Or.inl rfl, rfl, by simp [h]⟩

theorem optQuote_length {q x : Str} (hq : OptQuote q) (hx : startsWith isQuote x = false) :
    (if startsWith isQuote (q ++ x) = true then 1 else 0) = q.length := by
  rcases hq with rfl | ⟨c, hc, rfl⟩
  · simp [hx]
  · simp [startsWith, hc]

theorem matchURL_some {t : Str} {n : Nat} {r : Str} (h : matchURL t = some (n, r)) :
    ∃ tok rest, t = tok ++ rest ∧ tok.length = n ∧ URLToken tok r := by
  unfold matchURL at h
  by_cases hp : hasPrefix t ['u', 'r', 'l', '('] = true
  · rw [if_pos hp] at h
    have ht := hasPrefix_eq_append hp
    simp only [List.length_cons, List.length_nil] at ht
    simp only [] at h
    generalize t.drop 4 = b at h ht
    obtain ⟨q1, t1, hq1, hb, hl1⟩ := optQuote_split b
    rw [hl1, hb, List.drop_left] at h
    have ht1 := (List.takeWhile_append_dropWhile isURLChar t1).symm
    generalize hrun : t1.takeWhile isURLChar = run at h ht1
    generalize t1.dropWhile isURLChar = t2 at h ht1
    obtain ⟨q2, t3, hq2, ht2, hl2⟩ := optQuote_split t2
    rw [hl2, ht2, List.drop_left] at h
    by_cases hc : (run != [] && startsWith (fun c => c == ')') t3) = true
    · rw [if_pos hc] at h
      simp only [Option.some.injEq, Prod.mk.injEq] at h
      obtain ⟨hn, hr⟩ := h
      simp only [Bool.and_eq_true, bne_iff_ne, ne_eq] at hc
      obtain ⟨c, rest, ht3, hcp⟩ := startsWith_eq_true hc.2
      have hcp' : c = ')' := by simpa using hcp
      subst hcp' hr
      refine ⟨"url(".toList ++ (q1 ++ (run ++ (q2 ++ [')']))), rest, ?_, ?_,
        q1, q2, hq1, hq2, hc.1, ?_, rfl⟩
      · rw [ht, hb, ht1, ht2, ht3]
        simp
      · rw [← hn]
        simp
        omega
      · intro c hc'
        rw [← hrun] at hc'
        exact (List.mem_takeWhile_imp hc')
    · rw [if_neg hc] at h
      cases h
  · rw [if_neg hp] at h
    cases h

theorem not_isURLChar_optQuote_paren {q2 : Str} (rest : Str) (hq2 : OptQuote q2) :
    ∃ w rest1, q2 ++ ')' :: rest = w :: rest1 ∧ isURLChar w = false := by
  rcases hq2 with rfl | ⟨c, hc, rfl⟩
  · exact ⟨')', rest, rfl, by decide⟩
  · exact ⟨c, ')' :: rest, rfl, by simp [isURLChar, hc]⟩

theorem matchURL_token {tok r : Str} (h : URLToken tok r) (rest : Str) :
    matchURL (tok ++ rest) = some (tok.length, r) := by
  obtain ⟨q1, q2, hq1, hq2, hr, hrc, rfl⟩ := h
  obtain ⟨w, rest1, hw, hwc⟩ := not_isURLChar_optQuote_paren rest hq2
  obtain ⟨a, r1, rfl⟩ := List.exists_cons_of_ne_nil hr
  have ha : isURLChar a = true := hrc a (List.mem_cons_self _ _)
  have hx : startsWith isQuote ((a :: r1) ++ (q2 ++ ')' :: rest)) = false := by
    simp only [List.cons_append, startsWith]
    exact isQuote_of_isURLChar ha
  have e1 := optQuote_length hq1 hx
  have hx2 : startsWith isQuote (')' :: rest) = false := by
    show isQuote ')' = false
    decide
  have e2 := optQuote_length hq2 hx2
  have etw : ((a :: r1) ++ (q2 ++ ')' :: rest)).takeWhile isURLChar = a :: r1 := by
    rw [hw]; exact takeWhile_append_stop _ _ _ hrc hwc
  have edw : ((a :: r1) ++ (q2 ++ ')' :: rest)).dropWhile isURLChar = q2 ++ ')' :: rest := by
    rw [hw]; exact dropWhile_append_stop _ _ _ hrc hwc
  have hs : "url(".toList ++ (q1 ++ ((a :: r1) ++ (q2 ++ [')']))) ++ rest =
      'u' :: 'r' :: 'l' :: '(' :: (q1 ++ ((a :: r1) ++ (q2 ++ ')' :: rest))) := by
    simp
  rw [hs]
  unfold matchURL
  have hp : hasPrefix ('u' :: 'r' :: 'l' :: '(' :: (q1 ++ ((a :: r1) ++ (q2 ++ ')' :: rest))))
      ['u', 'r', 'l', '('] = true := by
    simp [hasPrefix, List.isPrefixOf]
  rw [if_pos hp]
  simp only [List.drop_succ_cons, List.drop_zero]
  simp only [e1, List.drop_left, etw, edw, e2]
  simp [startsWith]
  omega

theorem matchImport_some {t : Str} {n : Nat} {r : Str} (h : matchImport t = some (n, r)) :
    ∃ tok rest, t = tok ++ rest ∧ tok.length = n ∧ ImportToken tok r := by
  unfold matchImport at h
  by_cases hp : hasPrefix t ['@', 'i', 'm', 'p', 'o', 'r', 't'] = true
  · rw [if_pos hp] at h
    have ht := hasPrefix_eq_append hp
    simp only [List.length_cons, List.length_nil] at ht
    simp only [] at h
    generalize t.drop 7 = b at h ht
    have hb := (List.takeWhile_append_dropWhile isSpaceRE b).symm
    generalize hws : b.takeWhile isSpaceRE = ws at h hb
    generalize b.dropWhile isSpaceRE = t1 at h hb
    by_cases hc : (ws != [] && startsWith isQuote t1 &&
        (t1.drop 1).takeWhile (fun c => !isQuote c) != [] &&
        startsWith isQuote ((t1.drop 1).dropWhile (fun c => !isQuote c))) = true
    · rw [if_pos hc] at h
      simp only [Option.some.injEq, Prod.mk.injEq] at h
      obtain ⟨hn, hr⟩ := h
      simp only [Bool.and_eq_true, bne_iff_ne, ne_eq] at hc
      obtain ⟨⟨⟨hwsne, hq1⟩, hrne⟩, hq2⟩ := hc
      obtain ⟨q1, t2, ht1, hq1c⟩ := startsWith_eq_true hq1
      subst ht1
      simp only [List.drop_succ_cons, List.drop_zero] at hn hr hrne hq2
      have ht2 := (List.takeWhile_append_dropWhile (fun c => !isQuote c) t2).symm
      obtain ⟨q2, rest, ht3, hq2c⟩ := startsWith_eq_true hq2
      rw [ht3, hr] at ht2
      refine ⟨"@import".toList ++ (ws ++ q1 :: (r ++ [q2])), rest, ?_, ?_,
        ws, q1, q2, hwsne, ?_, hq1c, hq2c, hr ▸ hrne, ?_, rfl⟩
      · rw [ht, hb, ht2]
        simp
      · rw [← hn, hr]
        simp
        omega
      · intro c hc'
        rw [← hws] at hc'
        exact List.mem_takeWhile_imp hc'
      · intro c hc'
        rw [← hr] at hc'
        simpa using List.mem_takeWhile_imp hc'
    · rw [if_neg hc] at h
      cases h
  · rw [if_neg hp] at h
    cases h

theorem matchImport_token {tok r : Str} (h : ImportToken tok r) (rest : Str) :
    matchImport (tok ++ rest) = some (tok.length, r) := by
  obtain ⟨ws, q1, q2, hws, hwsc, hq1, hq2, hr, hrc, rfl⟩ := h
  have hq1s : isSpaceRE q1 = false := by
    cases hs : isSpaceRE q1
    · rfl
    · rw [isQuote_of_isSpaceRE hs] at hq1
      cases hq1
  have e1 : (ws ++ q1 :: (r ++ q2 :: rest)).takeWhile isSpaceRE = ws :=
    takeWhile_append_stop _ _ _ hwsc hq1s
  have e2 : (ws ++ q1 :: (r ++ q2 :: rest)).dropWhile isSpaceRE = q1 :: (r ++ q2 :: rest) :=
    dropWhile_append_stop _ _ _ hwsc hq1s
  have hrc' : ∀ c ∈ r, (fun c => !isQuote c) c = true := by
    intro c hc
    simp [hrc c hc]
  have hq2' : (fun c => !isQuote c) q2 = false := by simp [hq2]
  have e3 : (r ++ q2 :: rest).takeWhile (fun c => !isQuote c) = r :=
    takeWhile_append_stop _ _ _ hrc' hq2'
  have e4 : (r ++ q2 :: rest).dropWhile (fun c => !isQuote c) = q2 :: rest :=
    dropWhile_append_stop _ _ _ hrc' hq2'
  have hs : "@import".toList ++ (ws ++ q1 :: (r ++ [q2])) ++ rest =
      '@' :: 'i' :: 'm' :: 'p' :: 'o' :: 'r' :: 't' :: (ws ++ q1 :: (r ++ q2 :: rest)) := by
    simp
  rw [hs]
  unfold matchImport
  have hp : hasPrefix
      ('@' :: 'i' :: 'm' :: 'p' :: 'o' :: 'r' :: 't' :: (ws ++ q1 :: (r ++ q2 :: rest)))
      ['@', 'i', 'm', 'p', 'o', 'r', 't'] = true := by
    simp [hasPrefix, List.isPrefixOf]
  rw [if_pos hp]
  simp only [List.drop_succ_cons, List.drop_zero, e1, e2, e3, e4]
  simp [startsWith, hq1, hq2, hws, hr]
  omega

/-! ### One pass of `ReplaceAllStringFunc` -/

theorem replaceAllStringFunc_skip {σ : Type} (matchAt : Str → Option (Nat × Str))
    (repl : σ → Str → Str × σ) (k : Nat) (text : Str) (st : σ) :
    replaceAllStringFunc matchAt repl k text st =
      replaceAllStringFunc matchAt repl 0 (text.drop k) st := by
  induction k generalizing text with
  | zero => simp
  | succ k ih =>
    cases text with
    | nil => simp [replaceAllStringFunc]
    | cons c cs =>
      simp only [replaceAllStringFunc, List.drop_succ_cons]
      exact ih cs

theorem findStringSubmatch_token {matchAt : Str → Option (Nat × Str)} {tok r : Str}
    (hne : tok ≠ []) (h : matchAt tok = some (tok.length, r)) :
    findStringSubmatch matchAt tok = some r := by
  cases tok with
  | nil => exact absurd rfl hne
  | cons c cs => simp only [findStringSubmatch, h]

theorem Scan_replaceAllStringFunc {σ : Type} (matchAt : Str → Option (Nat × Str))
    (repl : σ → Str → Str × σ) (isTok : Str → Str → Prop) (f : σ → Str → Str → Str × σ)
    (hfwd : ∀ t n r, matchAt t = some (n, r) →
      ∃ tok rest, t = tok ++ rest ∧ tok.length = n ∧ isTok tok r)
    (hbwd : ∀ tok r, isTok tok r → ∀ rest, matchAt (tok ++ rest) = some (tok.length, r))
    (hne : ∀ tok r, isTok tok r → tok ≠ [])
    (hrepl : ∀ st tok r, isTok tok r → repl st tok = f st tok r) :
    ∀ (n : Nat) (text : Str) (st : σ), text.length ≤ n →
      Scan isTok f text st (replaceAllStringFunc matchAt repl 0 text st).1
        (replaceAllStringFunc matchAt repl 0 text st).2 := by
  intro n
  induction n with
  | zero =>
    intro text st hl
    have : text = [] := List.length_eq_zero.mp (Nat.le_zero.mp hl)
    subst this
    simp only [replaceAllStringFunc]
    exact Scan.done st
  | succ n ih =>
    intro text st hl
    cases text with
    | nil =>
      simp only [replaceAllStringFunc]
      exact Scan.done st
    | cons c cs =>
      have hcs : cs.length ≤ n := by
        simp only [List.length_cons] at hl
        omega
      cases hm : matchAt (c :: cs) with
      | none =>
        simp only [replaceAllStringFunc, hm]
        refine Scan.skip c cs st _ _ ?_ (ih cs st hcs)
        intro tok r rest htok heq
        rw [heq, hbwd tok r htok rest] at hm
        cases hm
      | some p =>
        obtain ⟨k, r⟩ := p
        obtain ⟨tok, rest, heq, hlen, htok⟩ := hfwd _ _ _ hm
        have htne := hne tok r htok
        have hk : 1 ≤ k := by
          rw [← hlen]
          exact List.length_pos.mpr htne
        have htake : (c :: cs).take k = tok := by
          rw [heq, ← hlen, List.take_left]
        have hdrop : cs.drop (k - 1) = rest := by
          have h1 : (c :: cs).drop k = rest := by
            rw [heq, ← hlen, List.drop_left]
          obtain ⟨j, rfl⟩ : ∃ j, k = j + 1 := ⟨k - 1, by omega⟩
          simpa using h1
        have hrl : rest.length ≤ n := by
          have h2 := congrArg List.length heq
          simp only [List.length_cons, List.length_append] at h2 hl
          omega
        simp only [replaceAllStringFunc, hm]
        rw [replaceAllStringFunc_skip, htake, hdrop, hrepl st tok r htok, heq]
        exact Scan.hit tok r rest st _ _ htok (ih rest _ hrl)

theorem Scan_inv {σ : Type} {isTok : Str → Str → Prop} {f : σ → Str → Str → Str × σ}
    {text : Str} {s : σ} {out : Str} {t : σ} (h : Scan isTok f text s out t) :
    (text = [] ∧ out = [] ∧ t = s) ∨
    (∃ c cs o, text = c :: cs ∧ (∀ tok r rest, isTok tok r → c :: cs ≠ tok ++ rest) ∧
      Scan isTok f cs s o t ∧ out = c :: o) ∨
    (∃ tok r rest o, isTok tok r ∧ text = tok ++ rest ∧
      Scan isTok f rest (f s tok r).2 o t ∧ out = (f s tok r).1 ++ o) := by
  cases h with
  | done => exact Or.inl ⟨rfl, rfl, rfl⟩
  | skip c cs _ o _ hno h => exact Or.inr (Or.inl ⟨c, cs, o, rfl, hno, h, rfl⟩)
  | hit tok r rest _ o _ htok h => exact Or.inr (Or.inr ⟨tok, r, rest, o, htok, rfl, h, rfl⟩)

theorem Scan_unique {σ : Type} (matchAt : Str → Option (Nat × Str))
    (isTok : Str → Str → Prop) (f : σ → Str → Str → Str × σ)
    (hbwd : ∀ tok r, isTok tok r → ∀ rest, matchAt (tok ++ rest) = some (tok.length, r))
    (hne : ∀ tok r, isTok tok r → tok ≠ [])
    {text : Str} {s : σ} {o1 : Str} {t1 : σ} (h1 : Scan isTok f text s o1 t1) :
    ∀ o2 t2, Scan isTok f text s o2 t2 → o1 = o2 ∧ t1 = t2 := by
  induction h1 with
  | done s =>
    intro o2 t2 h2
    rcases Scan_inv h2 with ⟨_, ho, ht⟩ | ⟨c, cs, o, he, _⟩ | ⟨tok, r, rest, o, htok, he, _⟩
    · exact ⟨ho.symm, ht.symm⟩
    · cases he
    · have : tok = [] := (List.append_eq_nil.mp he.symm).1
      exact absurd this (hne tok r htok)
  | skip c cs s out t hno _ ih =>
    intro o2 t2 h2
    rcases Scan_inv h2 with ⟨he, _⟩ | ⟨c2, cs2, o, he, _, h, ho⟩ | ⟨tok, r, rest, o, htok, he, _⟩
    · cases he
    · cases he
      obtain ⟨e1, e2⟩ := ih o t2 h
      exact ⟨by rw [ho, e1], e2⟩
    · exact absurd he (hno tok r rest htok)
  | hit tok r rest s out t htok _ ih =>
    intro o2 t2 h2
    rcases Scan_inv h2 with ⟨he, _⟩ | ⟨c2, cs2, o, he, hno, _⟩ |
      ⟨tok2, r2, rest2, o, htok2, he, h, ho⟩
    · have : tok = [] := (List.append_eq_nil.mp he).1
      exact absurd this (hne tok r htok)
    · exact absurd he.symm (hno tok r rest htok)
    · have hm := hbwd tok r htok rest
      rw [he, hbwd tok2 r2 htok2 rest2] at hm
      simp only [Option.some.injEq, Prod.mk.injEq] at hm
      obtain ⟨hl, hr⟩ := hm
      obtain ⟨e1, e2⟩ := List.append_inj he hl.symm
      subst e1 e2 hr
      obtain ⟨e3, e4⟩ := ih o t2 h
      exact ⟨by rw [ho, e3], e4⟩

theorem URLToken_ne_nil {tok r : Str} (h : URLToken tok r) : tok ≠ [] := by
  obtain ⟨q1, q2, _, _, _, _, rfl⟩ := h
  simp

theorem ImportToken_ne_nil {tok r : Str} (h : ImportToken tok r) : tok ≠ [] := by
  obtain ⟨ws, q1, q2, _, _, _, _, _, _, rfl⟩ := h
  simp

theorem rewriteURLMatch_token {T : Type} (lib : Lib T) (m : Mirrorer) (pageURL : URL)
    (s : RunState) {tok r : Str} (h : URLToken tok r) :
    rewriteURLMatch lib m pageURL s tok = urlToken lib m pageURL s tok r := by
  have hm := matchURL_token h []
  rw [List.append_nil] at hm
  unfold rewriteURLMatch urlToken
  rw [findStringSubmatch_token (URLToken_ne_nil h) hm]

theorem rewriteImportMatch_token {T : Type} (lib : Lib T) (m : Mirrorer) (pageURL : URL)
    (s : RunState) {tok r : Str} (h : ImportToken tok r) :
    rewriteImportMatch lib m pageURL s tok = importToken lib m pageURL s tok r := by
  have hm := matchImport_token h []
  rw [List.append_nil] at hm
  unfold rewriteImportMatch importToken
  rw [findStringSubmatch_token (ImportToken_ne_nil h) hm]

theorem Scan_urlPass {T : Type} (lib : Lib T) (m : Mirrorer) (pageURL : URL)
    (text : Str) (s : RunState) :
    Scan URLToken (urlToken lib m pageURL) text s
      (replaceAllStringFunc matchURL (rewriteURLMatch lib m pageURL) 0 text s).1
      (replaceAllStringFunc matchURL (rewriteURLMatch lib m pageURL) 0 text s).2 :=
  Scan_replaceAllStringFunc matchURL _ URLToken _
    (fun _ _ _ h => matchURL_some h) (fun _ _ h => matchURL_token h)
    (fun _ _ h => URLToken_ne_nil h)
    (fun st _ _ h => rewriteURLMatch_token lib m pageURL st h) text.length text s (le_refl _)

theorem Scan_importPass {T : Type} (lib : Lib T) (m : Mirrorer) (pageURL : URL)
    (text : Str) (s : RunState) :
    Scan ImportToken (importToken lib m pageURL) text s
      (replaceAllStringFunc matchImport (rewriteImportMatch lib m pageURL) 0 text s).1
      (replaceAllStringFunc matchImport (rewriteImportMatch lib m pageURL) 0 text s).2 :=
  Scan_replaceAllStringFunc matchImport _ ImportToken _
    (fun _ _ _ h => matchImport_some h) (fun _ _ h => matchImport_token h)
    (fun _ _ h => ImportToken_ne_nil h)
    (fun st _ _ h => rewriteImportMatch_token lib m pageURL st h) text.length text s (le_refl _)

/-- C11, as amended: `rewriteCSSURLs` is two passes from the left.  The first
rewrites the `url(...)` tokens (`url(`, an optional quote, a non-empty
reference without quotes, closing parenthesis or white space, an optional
quote, `)`), the second rewrites in its result the `@import` statements with a
quoted reference.  A token whose reference parses and resolves to the base
host (and, in the first pass, does not start with `data:`) is enqueued with
the asset hint and replaced by `url('<rel>')` or `@import '<rel>'`, where rel
is makeRelativePath of the page and the resolved URL; every other token and
all other text stay verbatim.  The result of the two passes is unique, and on
the page `http://x.test/s.css` the text `body{background:url(/bg.png)}` becomes
`body{background:url('bg.png')}`. -/
theorem rewriteCSSURLs_scans {T : Type} (lib : Lib T) (m : Mirrorer) (s : RunState)
    (css : Str) (pageURL : URL) :
    (∃ mid smid,
      Scan URLToken (urlToken lib m pageURL) css s mid smid ∧
      Scan ImportToken (importToken lib m pageURL) mid smid
        (rewriteCSSURLs lib m s css pageURL).1 (rewriteCSSURLs lib m s css pageURL).2) ∧
    (∀ mid smid out t,
      Scan URLToken (urlToken lib m pageURL) css s mid smid →
      Scan ImportToken (importToken lib m pageURL) mid smid out t →
      rewriteCSSURLs lib m s css pageURL = (out, t)) ∧
    rewriteCSSURLs goLib exampleMirrorer {} "body\x7bbackground:url(/bg.png)\x7d".toList
        { scheme := "http".toList, host := "x.test".toList, path := "/s.css".toList } =
      ("body\x7bbackground:url('bg.png')\x7d".toList,
       { visited := ["http://x.test/bg.png".toList], pending := 1,
         queued := [{ urlStr := "http://x.test/bg.png".toList,
                      parsedURL := { scheme := "http".toList, host := "x.test".toList,
                                     path := "/bg.png".toList },
                      isHTML := false }],
         inFlight := [] }) := by
  refine ⟨⟨_, _, Scan_urlPass lib m pageURL css s, Scan_importPass lib m pageURL _ _⟩, ?_, ?_⟩
  · intro mid smid out t h1 h2
    obtain ⟨e1, e2⟩ := Scan_unique matchURL URLToken _ (fun _ _ h => matchURL_token h)
      (fun _ _ h => URLToken_ne_nil h) (Scan_urlPass lib m pageURL css s) mid smid h1
    have h3 := Scan_importPass lib m pageURL
      (replaceAllStringFunc matchURL (rewriteURLMatch lib m pageURL) 0 css s).1
      (replaceAllStringFunc matchURL (rewriteURLMatch lib m pageURL) 0 css s).2
    rw [e1, e2] at h3
    obtain ⟨e3, e4⟩ := Scan_unique matchImport ImportToken _ (fun _ _ h => matchImport_token h)
      (fun _ _ h => ImportToken_ne_nil h) h3 out t h2
    unfold rewriteCSSURLs
    simp only []
    rw [e1, e2]
    exact Prod.ext e3 e4
  · decide

/-- C11, witness: on the example site the first pass copies `a{b:`, rewrites
the double-quoted token `url("/bg.png")` to `url('bg.png')` with
`http://x.test/bg.png` enqueued as an asset and copies `}`; the second pass
finds no `@import` and copies everything; so that is what `rewriteCSSURLs`
returns. -/
theorem rewriteCSSURLs_scans_witness :
    rewriteCSSURLs goLib exampleMirrorer {} "a\x7bb:url(\"/bg.png\")\x7d".toList
        { scheme := "http".toList, host := "x.test".toList, path := "/s.css".toList } =
      ("a\x7bb:url('bg.png')\x7d".toList,
       { visited := ["http://x.test/bg.png".toList], pending := 1,
         queued := [{ urlStr := "http://x.test/bg.png".toList,
                      parsedURL := { scheme := "http".toList, host := "x.test".toList,
                                     path := "/bg.png".toList },
                      isHTML := false }],
         inFlight := [] }) := by
  have hu : URLToken "url(\"/bg.png\")".toList "/bg.png".toList :=
    ⟨[dquote], [dquote], Or.inr ⟨dquote, by decide, rfl⟩, Or.inr ⟨dquote, by decide, rfl⟩,
      by decide, by decide, by decide⟩
  have hno : ∀ (c : Char) (cs : Str), c ≠ 'u' → ∀ tok r rest, URLToken tok r →
      c :: cs ≠ tok ++ rest := by
    intro c cs hc tok r rest ⟨q1, q2, _, _, _, _, ht⟩ he
    rw [ht] at he
    simp only [String.toList, List.cons_append, List.cons.injEq] at he
    exact hc he.1
  have hnoi : ∀ (c : Char) (cs : Str), c ≠ '@' → ∀ tok r rest, ImportToken tok r →
      c :: cs ≠ tok ++ rest := by
    intro c cs hc tok r rest ⟨ws, q1, q2, _, _, _, _, _, _, ht⟩ he
    rw [ht] at he
    simp only [String.toList, List.cons_append, List.cons.injEq] at he
    exact hc he.1
  have h1 : Scan URLToken
      (urlToken goLib exampleMirrorer
        { scheme := "http".toList, host := "x.test".toList, path := "/s.css".toList })
      ('a' :: '\x7b' :: 'b' :: ':' :: ("url(\"/bg.png\")".toList ++ ['\x7d'])) {}
      ('a' :: '\x7b' :: 'b' :: ':' ::
        ((urlToken goLib exampleMirrorer
          { scheme := "http".toList, host := "x.test".toList, path := "/s.css".toList }
          {} "url(\"/bg.png\")".toList "/bg.png".toList).1 ++ ['\x7d']))
      (urlToken goLib exampleMirrorer
          { scheme := "http".toList, host := "x.test".toList, path := "/s.css".toList }
          {} "url(\"/bg.png\")".toList "/bg.png".toList).2 :=
    Scan.skip _ _ _ _ _ (hno _ _ (by decide)) (Scan.skip _ _ _ _ _ (hno _ _ (by decide))
      (Scan.skip _ _ _ _ _ (hno _ _ (by decide)) (Scan.skip _ _ _ _ _ (hno _ _ (by decide))
        (Scan.hit _ _ _ _ _ _ hu (Scan.skip _ _ _ _ _ (hno _ _ (by decide)) (Scan.done _))))))
  have h2 : ∀ st : RunState, Scan ImportToken
      (importToken goLib exampleMirrorer
        { scheme := "http".toList, host := "x.test".toList, path := "/s.css".toList })
      ['a', '\x7b', 'b', ':', 'u', 'r', 'l', '(', squote, 'b', 'g', '.', 'p', 'n', 'g', squote,
        ')', '\x7d'] st
      ['a', '\x7b', 'b', ':', 'u', 'r', 'l', '(', squote, 'b', 'g', '.', 'p', 'n', 'g', squote,
        ')', '\x7d'] st := by
    intro st
    repeat (refine Scan.skip _ _ _ _ _ (hnoi _ _ (by decide)) ?_)
    exact Scan.done _
  have e1 : ('a' :: '\x7b' :: 'b' :: ':' ::
        ((urlToken goLib exampleMirrorer
          { scheme := "http".toList, host := "x.test".toList, path := "/s.css".toList }
          {} "url(\"/bg.png\")".toList "/bg.png".toList).1 ++ ['\x7d'])) =
      ['a', '\x7b', 'b', ':', 'u', 'r', 'l', '(', squote, 'b', 'g', '.', 'p', 'n', 'g', squote,
        ')', '\x7d'] := by decide
  rw [e1] at h1
  have h := (rewriteCSSURLs_scans goLib exampleMirrorer {}
    ('a' :: '\x7b' :: 'b' :: ':' :: ("url(\"/bg.png\")".toList ++ ['\x7d']))
    { scheme := "http".toList, host := "x.test".toList, path := "/s.css".toList }).2.1
    _ _ _ _ h1 (h2 _)
  exact h

/-- C11, counterexample: the single-quoted token `url('my file.png')` has a
reference that parses and resolves to the base host `x.test`, yet
`rewriteCSSURLs` leaves the text as it is and enqueues nothing. -/
theorem rewriteCSSURLs_quoted_space_not_rewritten :
    rewriteCSSURLs goLib exampleMirrorer {} "background:url('my file.png')".toList
        { scheme := "http".toList, host := "x.test".toList, path := "/s.css".toList } =
      ("background:url('my file.png')".toList, {}) ∧
    (goLib.parse "my file.png".toList).map
        (fun u => (goLib.resolveReference
          { scheme := "http".toList, host := "x.test".toList, path := "/s.css".toList } u).host) =
      some exampleMirrorer.baseURL.host := by
  decide

/-! ### White space and the `url(...)` pattern -/

theorem replaceAllStringFunc_miss {σ : Type} (matchAt : Str → Option (Nat × Str))
    (repl : σ → Str → Str × σ) (c : Char) (cs : Str) (st : σ)
    (h : matchAt (c :: cs) = none) :
    replaceAllStringFunc matchAt repl 0 (c :: cs) st =
      (c :: (replaceAllStringFunc matchAt repl 0 cs st).1,
       (replaceAllStringFunc matchAt repl 0 cs st).2) := by
  simp only [replaceAllStringFunc, h]

theorem replaceAllStringFunc_hit {σ : Type} (matchAt : Str → Option (Nat × Str))
    (repl : σ → Str → Str × σ) (tok r rest : Str) (st : σ) (hne : tok ≠ [])
    (h : matchAt (tok ++ rest) = some (tok.length, r)) :
    replaceAllStringFunc matchAt repl 0 (tok ++ rest) st =
      ((repl st tok).1 ++ (replaceAllStringFunc matchAt repl 0 rest (repl st tok).2).1,
       (replaceAllStringFunc matchAt repl 0 rest (repl st tok).2).2) := by
  obtain ⟨c, cs, rfl⟩ := List.exists_cons_of_ne_nil hne
  have htake : (c :: (cs ++ rest)).take (c :: cs).length = c :: cs := by
    rw [← List.cons_append, List.take_left]
  have hdrop : (cs ++ rest).drop ((c :: cs).length - 1) = rest := by
    simp
  simp only [List.cons_append] at h ⊢
  simp only [replaceAllStringFunc, h]
  rw [replaceAllStringFunc_skip, htake, hdrop]

theorem matchURL_head_ne (c : Char) (t : Str) (h : c ≠ 'u') : matchURL (c :: t) = none := by
  unfold matchURL
  have hp : hasPrefix (c :: t) ['u', 'r', 'l', '('] = false := by
    simp only [hasPrefix, List.isPrefixOf, Bool.and_eq_false_imp, beq_iff_eq]
    intro h'
    exact absurd h'.symm h
  simp [hp]

theorem matchURL_before_close (v post : Str) (hv : ∀ c ∈ v, c ≠ '(') :
    matchURL (v ++ ')' :: post) = none := by
  unfold matchURL
  have hp : hasPrefix (v ++ ')' :: post) ['u', 'r', 'l', '('] = false := by
    rcases v with _ | ⟨a, _ | ⟨b, _ | ⟨c, _ | ⟨d, v⟩⟩⟩⟩
    · simp [hasPrefix, List.isPrefixOf]
    · simp [hasPrefix, List.isPrefixOf]
    · simp [hasPrefix, List.isPrefixOf]
    · simp [hasPrefix, List.isPrefixOf]
    · have hd : d ≠ '(' := hv d (by simp)
      simp only [hasPrefix, List.cons_append, List.isPrefixOf, Bool.and_eq_false_imp,
        beq_iff_eq]
      intro _ _ _ h'
      exact absurd h'.symm hd
  simp [hp]

theorem replaceAll_matchURL_before_close {σ : Type} (repl : σ → Str → Str × σ)
    (v post : Str) (st : σ) (hv : ∀ c ∈ v, c ≠ '(') :
    replaceAllStringFunc matchURL repl 0 (v ++ ')' :: post) st =
      (v ++ ')' :: (replaceAllStringFunc matchURL repl 0 post st).1,
       (replaceAllStringFunc matchURL repl 0 post st).2) := by
  induction v with
  | nil =>
    exact replaceAllStringFunc_miss _ _ _ _ _ (matchURL_head_ne _ _ (by decide))
  | cons a v ih =>
    have h0 := matchURL_before_close (a :: v) post hv
    rw [List.cons_append] at h0 ⊢
    exact (replaceAllStringFunc_miss _ _ _ _ _ h0).trans
      (congrArg (fun q : Str × σ => (a :: q.1, q.2))
        (ih (fun c hc => hv c (List.mem_cons_of_mem _ hc))))

theorem URLToken_no_space {tok r : Str} (h : URLToken tok r) :
    ∀ c ∈ tok, isSpaceRE c = false := by
  obtain ⟨q1, q2, hq1, hq2, _, hrc, rfl⟩ := h
  have hq : ∀ q, OptQuote q → ∀ c ∈ q, isSpaceRE c = false := by
    intro q hq c hc
    rcases hq with rfl | ⟨d, hd, rfl⟩
    · cases hc
    · simp only [List.mem_singleton] at hc
      subst hc
      cases hs : isSpaceRE c
      · rfl
      · rw [isQuote_of_isSpaceRE hs] at hd
        cases hd
  intro c hc
  simp only [String.toList, List.mem_append, List.mem_cons, List.mem_singleton] at hc
  rcases hc with hc | hc | hc | hc | hc
  · simp only [List.mem_cons, List.mem_singleton, List.not_mem_nil, or_false] at hc
    rcases hc with rfl | rfl | rfl | rfl <;> decide
  · exact hq q1 hq1 c hc
  · cases hs : isSpaceRE c
    · rfl
    · have := hrc c hc
      rw [isURLChar_of_isSpaceRE hs] at this
      cases this
  · exact hq q2 hq2 c hc
  · rcases hc with rfl | hc
    · decide
    · cases hc

theorem URLToken_last {tok r : Str} (h : URLToken tok r) : ∃ init, tok = init ++ [')'] := by
  obtain ⟨q1, q2, _, _, _, _, rfl⟩ := h
  exact ⟨"url(".toList ++ (q1 ++ (r ++ q2)), by simp⟩

theorem close_mem_of_append {init p c : Str} (hc : c ≠ [])
    (h : init ++ [')'] = p ++ c) : ')' ∈ c := by
  have hc' := (List.dropLast_append_getLast hc).symm
  rw [hc', ← List.append_assoc] at h
  have := List.append_inj_right' h rfl
  simp only [List.cons.injEq, and_true] at this
  rw [this]
  exact List.getLast_mem hc

theorem URLToken_prefix {tok r rest0 p x rest : Str} {w : Char} (h : URLToken tok r)
    (hx : ∀ c ∈ x, c ≠ ')') (hw : isSpaceRE w = true)
    (he : tok ++ rest0 = p ++ (x ++ w :: rest)) :
    ∃ q, p = tok ++ q ∧ rest0 = q ++ (x ++ w :: rest) := by
  obtain ⟨init, hinit⟩ := URLToken_last h
  have hns := URLToken_no_space h
  rcases List.append_eq_append_iff.mp he with ⟨a, h1, h2⟩ | ⟨c, h1, h2⟩
  · exact ⟨a, h1, h2⟩
  · by_cases hc : c = []
    · subst hc
      exact ⟨[], by simpa using h1.symm, by simpa using h2.symm⟩
    · exfalso
      have hclose : ')' ∈ c := close_mem_of_append hc (hinit ▸ h1)
      rcases List.append_eq_append_iff.mp h2 with ⟨a, h3, h4⟩ | ⟨d, h3, _⟩
      · cases a with
        | nil =>
          rw [List.append_nil] at h3
          exact hx _ (h3 ▸ hclose) rfl
        | cons b a =>
          simp only [List.cons_append, List.cons.injEq] at h4
          have hwc : w ∈ tok := by
            rw [h1, h3, ← h4.1]
            simp
          have := hns w hwc
          rw [hw] at this
          cases this
      · exact hx _ (by rw [h3]; exact List.mem_append_left _ hclose) rfl

theorem replaceAll_matchURL_block {σ : Type} (repl : σ → Str → Str × σ)
    (x rest : Str) (w : Char) (hx : ∀ c ∈ x, c ≠ ')') (hw : isSpaceRE w = true) :
    ∀ (n : Nat) (p : Str) (st : σ), p.length ≤ n →
      replaceAllStringFunc matchURL repl 0 (p ++ (x ++ w :: rest)) st =
        ((replaceAllStringFunc matchURL repl 0 p st).1 ++
          (x ++ w :: (replaceAllStringFunc matchURL repl 0 rest
            (replaceAllStringFunc matchURL repl 0 p st).2).1),
         (replaceAllStringFunc matchURL repl 0 rest
            (replaceAllStringFunc matchURL repl 0 p st).2).2) := by
  have hnone : ∀ y : Str, y ≠ [] → ∀ z, matchURL (y ++ z) = none →
      matchURL y = none := by
    intro y _ z hz
    cases hy : matchURL y with
    | none => rfl
    | some q =>
      obtain ⟨k, r⟩ := q
      obtain ⟨tok, rest0, e, hl, htok⟩ := matchURL_some hy
      have := matchURL_token htok (rest0 ++ z)
      rw [← List.append_assoc, ← e, hz] at this
      cases this
  have hverb : ∀ (v : Str) (st : σ), (∀ c ∈ v, c ≠ ')') →
      replaceAllStringFunc matchURL repl 0 (v ++ w :: rest) st =
        (v ++ w :: (replaceAllStringFunc matchURL repl 0 rest st).1,
         (replaceAllStringFunc matchURL repl 0 rest st).2) := by
    intro v st hv
    induction v with
    | nil =>
      have hwu : w ≠ 'u' := by
        intro h
        subst h
        cases hw
      exact replaceAllStringFunc_miss _ _ _ _ _ (matchURL_head_ne _ _ hwu)
    | cons a v ih =>
      have h0 : matchURL (a :: v ++ w :: rest) = none := by
        cases hm : matchURL (a :: v ++ w :: rest) with
        | none => rfl
        | some q =>
          obtain ⟨k, r⟩ := q
          obtain ⟨tok, rest0, e, hl, htok⟩ := matchURL_some hm
          have e' : tok ++ rest0 = [] ++ (a :: v ++ w :: rest) := by simpa using e.symm
          obtain ⟨q, hq, _⟩ := URLToken_prefix htok hv hw e'
          have : tok = [] := (List.append_eq_nil.mp hq.symm).1
          exact absurd this (URLToken_ne_nil htok)
      rw [List.cons_append] at h0 ⊢
      exact (replaceAllStringFunc_miss _ _ _ _ _ h0).trans
        (congrArg (fun q : Str × σ => (a :: q.1, q.2))
          (ih (fun c hc => hv c (List.mem_cons_of_mem _ hc))))
  intro n
  induction n with
  | zero =>
    intro p st hl
    have : p = [] := List.length_eq_zero.mp (Nat.le_zero.mp hl)
    subst this
    simp only [List.nil_append, replaceAllStringFunc]
    exact hverb x st hx
  | succ n ih =>
    intro p st hl
    cases p with
    | nil =>
      simp only [List.nil_append, replaceAllStringFunc]
      exact hverb x st hx
    | cons c cs =>
      have hcs : cs.length ≤ n := by
        simp only [List.length_cons] at hl
        omega
      cases hm : matchURL (c :: cs ++ (x ++ w :: rest)) with
      | none =>
        have hp := hnone (c :: cs) (by simp) _ hm
        rw [List.cons_append] at hm ⊢
        rw [replaceAllStringFunc_miss _ _ _ _ _ hm, replaceAllStringFunc_miss _ _ _ _ _ hp,
          ih cs st hcs]
        simp
      | some q =>
        obtain ⟨k, r⟩ := q
        obtain ⟨tok, rest0, e, hlen, htok⟩ := matchURL_some hm
        obtain ⟨q, hq, hr0⟩ := URLToken_prefix htok hx hw e.symm
        have hne := URLToken_ne_nil htok
        have hql : q.length ≤ n := by
          have h2 := congrArg List.length hq
          have h3 := List.length_pos.mpr hne
          simp only [List.length_cons, List.length_append] at h2 hl
          omega
        rw [hq, List.append_assoc,
          replaceAllStringFunc_hit _ _ tok r _ st hne (matchURL_token htok _),
          replaceAllStringFunc_hit _ _ tok r _ st hne (matchURL_token htok _),
          ih q _ hql]
        simp

theorem matchImport_head_ne (c : Char) (t : Str) (h : c ≠ '@') : matchImport (c :: t) = none := by
  unfold matchImport
  have hp : hasPrefix (c :: t) ['@', 'i', 'm', 'p', 'o', 'r', 't'] = false := by
    simp only [hasPrefix, List.isPrefixOf, Bool.and_eq_false_imp, beq_iff_eq]
    intro h'
    exact absurd h'.symm h
  simp [hp]

theorem importPass_no_at {T : Type} (lib : Lib T) (m : Mirrorer) (pageURL : URL)
    (text : Str) (s : RunState) (h : ∀ c ∈ text, c ≠ '@') :
    importPass lib m pageURL text s = (text, s) := by
  unfold importPass
  apply replaceAllStringFunc_no_match
  intro t ht
  cases t with
  | nil => simp [matchImport, hasPrefix, List.isPrefixOf]
  | cons c t => exact matchImport_head_ne c t (h c (ht.subset (List.mem_cons_self _ _)))

theorem urlPass_spacedToken {T : Type} (lib : Lib T) (m : Mirrorer) (pageURL : URL)
    (s : RunState) (pre ws1 r ws2 post : Str)
    (hws1 : ∀ c ∈ ws1, isSpaceRE c = true) (hws2 : ∀ c ∈ ws2, isSpaceRE c = true)
    (hr : ∀ c ∈ r, isURLChar c = true)
    (hsp : ws2 ≠ [] ∨ (ws1 ≠ [] ∧ ∀ c ∈ r, c ≠ '(')) :
    urlPass lib m pageURL (pre ++ (spacedToken ws1 r ws2 ++ post)) s =
      ((urlPass lib m pageURL pre s).1 ++ (spacedToken ws1 r ws2 ++
          (urlPass lib m pageURL post (urlPass lib m pageURL pre s).2).1),
       (urlPass lib m pageURL post (urlPass lib m pageURL pre s).2).2) := by
  have hsc : ∀ c, isSpaceRE c = true → c ≠ ')' := fun c hc =>
    beq_eq_false_iff_ne.mp (not_paren_of_isSpaceRE hc)
  have hrc : ∀ c ∈ r, c ≠ ')' := by
    intro c hc h
    subst h
    have := hr _ hc
    revert this
    decide
  unfold urlPass spacedToken
  cases ws2 with
  | cons w2 ws2 =>
    have hx : ∀ c ∈ "url(".toList ++ (ws1 ++ r), c ≠ ')' := by
      intro c hc
      simp only [String.toList, List.mem_append, List.mem_cons, List.not_mem_nil,
        or_false] at hc
      rcases hc with (rfl | rfl | rfl | rfl) | hc | hc
      · decide
      · decide
      · decide
      · decide
      · exact hsc c (hws1 c hc)
      · exact hrc c hc
    have hw2 : isSpaceRE w2 = true := hws2 w2 (List.mem_cons_self _ _)
    have hv : ∀ c ∈ ws2, c ≠ '(' := fun c hc =>
      not_open_of_isSpaceRE (hws2 c (List.mem_cons_of_mem _ hc))
    have e : pre ++ ("url(".toList ++ (ws1 ++ (r ++ (w2 :: ws2 ++ [')']))) ++ post) =
        pre ++ (("url(".toList ++ (ws1 ++ r)) ++ w2 :: (ws2 ++ ')' :: post)) := by simp
    rw [e, replaceAll_matchURL_block _ _ _ _ hx hw2 pre.length pre s (le_refl _),
      replaceAll_matchURL_before_close _ _ _ _ hv]
    simp
  | nil =>
    rcases hsp with h | ⟨h1, hro⟩
    · exact absurd rfl h
    · obtain ⟨w1, ws1, rfl⟩ := List.exists_cons_of_ne_nil h1
      have hx : ∀ c ∈ "url(".toList, c ≠ ')' := by decide
      have hw1 : isSpaceRE w1 = true := hws1 w1 (List.mem_cons_self _ _)
      have hv : ∀ c ∈ ws1 ++ r, c ≠ '(' := by
        intro c hc
        rcases List.mem_append.mp hc with hc | hc
        · exact not_open_of_isSpaceRE (hws1 c (List.mem_cons_of_mem _ hc))
        · exact hro c hc
      have e : pre ++ ("url(".toList ++ (w1 :: ws1 ++ (r ++ ([] ++ [')']))) ++ post) =
          pre ++ ("url(".toList ++ w1 :: ((ws1 ++ r) ++ ')' :: post)) := by simp
      rw [e, replaceAll_matchURL_block _ _ _ _ hx hw1 pre.length pre s (le_refl _),
        replaceAll_matchURL_before_close _ _ _ _ hv]
      simp

/-- C10, as amended: the `url(...)` pattern has no place for white space, so a
token `url(ws1 r ws2)` is never rewritten, whatever text surrounds it.  For
white space `ws1`, `ws2` and a reference `r` of pattern characters, with white
space before the closing parenthesis, or with white space after the opening
parenthesis and no `(` in `r`: the `url(...)` pass copies the token, makes no
enqueue call for it, and rewrites the text before and the text after it as if
each stood alone.  The result of `rewriteCSSURLs` is the `@import` pass over
that text, which changes nothing when the text has no `@`. -/
theorem rewriteCSSURLs_spaced_url_verbatim {T : Type} (lib : Lib T) (m : Mirrorer)
    (s : RunState) (pageURL : URL) (pre ws1 r ws2 post : Str)
    (hws1 : ∀ c ∈ ws1, isSpaceRE c = true) (hws2 : ∀ c ∈ ws2, isSpaceRE c = true)
    (hr : ∀ c ∈ r, isURLChar c = true)
    (hsp : ws2 ≠ [] ∨ (ws1 ≠ [] ∧ ∀ c ∈ r, c ≠ '(')) :
    urlPass lib m pageURL (pre ++ (spacedToken ws1 r ws2 ++ post)) s =
      ((urlPass lib m pageURL pre s).1 ++ (spacedToken ws1 r ws2 ++
          (urlPass lib m pageURL post (urlPass lib m pageURL pre s).2).1),
       (urlPass lib m pageURL post (urlPass lib m pageURL pre s).2).2) ∧
    rewriteCSSURLs lib m s (pre ++ (spacedToken ws1 r ws2 ++ post)) pageURL =
      importPass lib m pageURL
        ((urlPass lib m pageURL pre s).1 ++ (spacedToken ws1 r ws2 ++
          (urlPass lib m pageURL post (urlPass lib m pageURL pre s).2).1))
        (urlPass lib m pageURL post (urlPass lib m pageURL pre s).2).2 ∧
    ((∀ c ∈ (urlPass lib m pageURL pre s).1 ++ (spacedToken ws1 r ws2 ++
          (urlPass lib m pageURL post (urlPass lib m pageURL pre s).2).1), c ≠ '@') →
      rewriteCSSURLs lib m s (pre ++ (spacedToken ws1 r ws2 ++ post)) pageURL =
        ((urlPass lib m pageURL pre s).1 ++ (spacedToken ws1 r ws2 ++
          (urlPass lib m pageURL post (urlPass lib m pageURL pre s).2).1),
         (urlPass lib m pageURL post (urlPass lib m pageURL pre s).2).2)) := by
  have h1 := urlPass_spacedToken lib m pageURL s pre ws1 r ws2 post hws1 hws2 hr hsp
  have h2 : rewriteCSSURLs lib m s (pre ++ (spacedToken ws1 r ws2 ++ post)) pageURL =
      importPass lib m pageURL
        (urlPass lib m pageURL (pre ++ (spacedToken ws1 r ws2 ++ post)) s).1
        (urlPass lib m pageURL (pre ++ (spacedToken ws1 r ws2 ++ post)) s).2 := rfl
  rw [h1] at h2
  refine ⟨h1, h2, ?_⟩
  intro hat
  rw [h2]
  exact importPass_no_at lib m pageURL _ _ hat

/-- C10, witness: in `a{b:url(/x.png)} c{d:url( /y.png )}` on the example site
the first token is rewritten and `http://x.test/x.png` enqueued, the token
`url( /y.png )` stays as it is and `/y.png` is not enqueued. -/
theorem rewriteCSSURLs_spaced_url_verbatim_witness :
    rewriteCSSURLs goLib exampleMirrorer {}
        "a\x7bb:url(/x.png)\x7d c\x7bd:url( /y.png )\x7d".toList
        { scheme := "http".toList, host := "x.test".toList, path := "/s.css".toList } =
      ("a\x7bb:url('x.png')\x7d c\x7bd:url( /y.png )\x7d".toList,
       { visited := ["http://x.test/x.png".toList], pending := 1,
         queued := [{ urlStr := "http://x.test/x.png".toList,
                      parsedURL := { scheme := "http".toList, host := "x.test".toList,
                                     path := "/x.png".toList },
                      isHTML := false }],
         inFlight := [] }) :=
  (rewriteCSSURLs_spaced_url_verbatim goLib exampleMirrorer {}
    { scheme := "http".toList, host := "x.test".toList, path := "/s.css".toList }
    "a\x7bb:url(/x.png)\x7d c\x7bd:".toList " ".toList "/y.png".toList " ".toList
    "\x7d".toList (by decide) (by decide) (by decide) (Or.inl (by decide))).2.2 (by decide)

end Mirror
